import Mathlib

/-!
# pbmtogo: PBM image to GraphOn terminal raster

A shallow embedding of `converter/pbm/pbmtogo.c` and theorems about it.

Conventions of the embedding.

* Every C `int` is a Lean `Int`; every `unsigned char` array is a `List Nat` of the
  declared length, and a store into it reduces the stored value modulo 256.
* An array access outside the declared bounds, a store through the null pointer, a shift
  by an amount outside the width of `int`, a failed `assert` and a loop that runs out of
  fuel all yield `none`.  The theorems show that the program never gets there.
* `stdout` is the list of the library calls that wrote to it, in order; `stream`
  flattens it to the bytes written.
* The arrays of `main` start with unknown content, which is a parameter (`Indet`); the
  program itself clears `buffer` and `oldscanline`.
* The input file is seen through what the library reads from it: the width and the height
  that `pbm_readpbminit` returns and the pixel `pix row col` that `pbm_readpbmrow` puts
  in `bitrow[col]` for the row `row`.  Reading is taken to succeed.  The handling of the
  command line, `pm_proginit`, `pm_openr`, `pm_close` and `fflush` are left out.
* The encoder keeps a history of the runs it emits (`Run`, `runs`).  The history is
  only ever appended to and never read by the program text; it is there for the
  theorems to speak about the runs.
-/

namespace Pbmtogo

/-! ## Constants -/

/-- GraphOn has 1056 bit wide raster lines. -/
def GRAPHON_WIDTH : Int := 1056

/-- Width of a raster line in bytes. -/
def GRAPHON_WIDTH_BYTES : Int := GRAPHON_WIDTH / 8

def REPEAT_CURRENT_LINE_MASK : Int := 0x00

def SKIP_AND_PLOT_MASK : Int := 0x40

def REPEAT_PLOT_MASK : Int := 0x80

def PLOT_ARBITRARY_DATA_MASK : Int := 0xc0

def MAX_REPEAT : Int := 64

/-- Modelled from the spec: the constant `PBM_BLACK` of `pbm.h`, which is not among the
sources.  The spec calls a black pixel a set bit and a white one a clear bit. -/
def PBM_BLACK : Nat := 1

/-! ## C arrays and operators -/

/-- Read `a[i]`. -/
def rd (a : List Nat) (i : Int) : Option Nat :=
  if 0 ≤ i then a[i.toNat]? else none

/-- Store `a[i] = v` into an array of `unsigned char`. -/
def wr (a : List Nat) (i : Int) (v : Int) : Option (List Nat) :=
  if 0 ≤ i ∧ i < a.length then some (a.set i.toNat (v % 256).toNat) else none

/-- The C expression `1 << n` on `int`. -/
def shl1 (n : Int) : Option Int :=
  if 0 ≤ n ∧ n < 31 then some (2 ^ n.toNat) else none

/-- `for (i = lo; i < hi; i++) body`, for a body that assigns neither `i` nor `hi`. -/
def forLoop {σ : Type} (lo hi : Int) (body : Int → σ → Option σ) (s : σ) : Option σ :=
  (List.range (hi - lo).toNat).foldlM (fun s (j : Nat) => body (lo + (j : Int)) s) s

/-- The library function `memcmp` on the first `n` bytes of two arrays: zero when they
are equal, else the difference of the first two bytes that differ.  The last case, an
array shorter than `n`, is outside what the library defines. -/
def memcmp : List Nat → List Nat → Nat → Int
  | _, _, 0 => 0
  | a :: as, b :: bs, n + 1 => if a = b then memcmp as bs n else (a : Int) - (b : Int)
  | _, _, _ + 1 => 0

/-! ## Standard output -/

/-- One call that writes to `stdout`. -/
inductive Out where
  | printf (bytes : List Nat)
  | putchar (c : Int)
  | fwrite (bytes : List Nat)
  deriving DecidableEq

/-- The bytes one call writes. -/
def Out.bytes : Out → List Nat
  | Out.printf bs => bs
  | Out.putchar c => [(c % 256).toNat]
  | Out.fwrite bs => bs

/-- The byte stream written by a sequence of calls. -/
def stream (calls : List Out) : List Nat :=
  calls.flatMap Out.bytes

/-- The conversion `%d` of `printf`. -/
def fmtD (n : Int) : List Nat :=
  if n < 0 then 45 :: (Nat.toDigits 10 n.natAbs).map Char.toNat
  else (Nat.toDigits 10 n.toNat).map Char.toNat

/-- The call `printf("%d/", n)`. -/
def printfCount (n : Int) : Out :=
  Out.printf (fmtD n ++ [47])

/-! ## Program state -/

/-- One run emitted by the run length encoder.  This is a history record, not a
variable of the program: `tag` is the mask of the header byte, `count` the value of
`ucount` or `ecount` when the header was written, `first` the index in `buffer` of the
first byte the run consumes, `next` the value of `nbyte` when the run is complete, and
`hdr` the index in `outbuffer` of the header byte. -/
structure Run where
  tag : Int
  count : Int
  first : Int
  next : Int
  hdr : Int
  deriving DecidableEq

/-- The static variables of the file and the variables of `main` that live across rows.
`scanlineptr` is kept as its offset from `newscanline`, `none` being the null pointer a
static pointer starts with; `runs` is the history of the runs emitted since `nout` was
last reset. -/
structure State where
  item : Int
  bitsperitem : Int
  bitshift : Int
  scanlineptr : Option Int
  oldscanline : List Nat
  newscanline : List Nat
  diff : List Nat
  buffer : List Nat
  outbuffer : List Nat
  nout : Int
  linerepeat : Int
  stdout : List Out
  runs : List Run

/-! ## Bit packer -/

/-- The function `putinit`. -/
def putinit (s : State) : State :=
  { s with
    stdout := s.stdout ++
      [Out.printf [27, 49], Out.printf [27, 12], Out.printf [27, 114],
       Out.printf [27, 91, 61, 49, 49, 108]]
    bitsperitem := 1
    item := 0
    bitshift := 7 }

/-- The function `putitem`. -/
def putitem (s : State) : Option State := do
  let p ← s.scanlineptr
  let a ← wr s.newscanline p s.item
  pure { s with newscanline := a, scanlineptr := some (p + 1), bitsperitem := 0, item := 0 }

/-- The function `putbit`. -/
def putbit (b : Nat) (s : State) : Option State := do
  let s ← (if b = PBM_BLACK then do
      let m ← shl1 s.bitshift
      pure { s with item := s.item + m }
    else pure s)
  let s := { s with bitshift := s.bitshift - 1 }
  let s ← (if s.bitsperitem = 8 then do
      let s ← putitem s
      pure { s with bitshift := 7 }
    else pure s)
  pure { s with bitsperitem := s.bitsperitem + 1 }

/-- The function `putrest`. -/
def putrest (s : State) : Option State := do
  let s ← (if s.bitsperitem > 1 then putitem s else pure s)
  pure { s with stdout := s.stdout ++ [Out.printf [27, 92], Out.printf [27, 116]] }

/-! ## Run length encoder -/

/-- Modelled from the spec: the macro `MIN` of `pm_c_util.h`, which is not among the
sources; the lesser of its two arguments ("up to 64 bytes or the buffer end"). -/
def MIN (a b : Int) : Int :=
  if a < b then a else b

/-- The variables the encoder loop of `main` assigns, and the run history. -/
structure Enc where
  nbyte : Int
  nout : Int
  outbuffer : List Nat
  runs : List Run

/-- The statement `outbuffer[nout++] = v`. -/
def emit (e : Enc) (v : Int) : Option Enc := do
  let a ← wr e.outbuffer e.nout v
  pure { e with outbuffer := a, nout := e.nout + 1 }

/-- The do-while loop "Find unique patterns", from the values of `nbyte` and `ucount`
on entry to the values of `olditem`, `nbyte` and `ucount` on exit. -/
def uniqueScan (buffer : List Nat) (bytesperrow : Int) :
    Nat → Int → Int → Option (Int × Int × Int)
  | 0, _, _ => none
  | fuel + 1, nbyte, ucount => do
    let olditem ← rd buffer nbyte
    let nbyte := nbyte + 1
    let ucount := ucount + 1
    if nbyte < bytesperrow then do
      let ahead ← rd buffer nbyte
      if (olditem : Int) ≠ (ahead : Int) ∧ ucount < MIN bytesperrow MAX_REPEAT then
        uniqueScan buffer bytesperrow fuel nbyte ucount
      else pure ((olditem : Int), nbyte, ucount)
    else pure ((olditem : Int), nbyte, ucount)

/-- The do-while loop "Find equal patterns", from the values of `nbyte` and `ecount` on
entry to the values of `olditem`, `nbyte` and `ecount` on exit. -/
def equalScan (buffer : List Nat) (bytesperrow : Int) :
    Nat → Int → Int → Option (Int × Int × Int)
  | 0, _, _ => none
  | fuel + 1, nbyte, ecount => do
    let olditem ← rd buffer nbyte
    let nbyte := nbyte + 1
    let ecount := ecount + 1
    if nbyte < bytesperrow then do
      let ahead ← rd buffer nbyte
      if (olditem : Int) = (ahead : Int) ∧ ecount < MIN bytesperrow MAX_REPEAT then
        equalScan buffer bytesperrow fuel nbyte ecount
      else pure ((olditem : Int), nbyte, ecount)
    else pure ((olditem : Int), nbyte, ecount)

/-- Fuel of the two scans: each leaves its loop once its counter is `MAX_REPEAT`. -/
def scanFuel : Nat := 64

/-- The first part of the body of the `while (TRUE)` loop: the scan for unique
patterns, the step back to the last truly unique pattern, and the output of the unique
patterns. -/
def uniquePart (buffer : List Nat) (bytesperrow : Int) (e : Enc) : Option Enc := do
  let (_, nbyte, ucount) ← uniqueScan buffer bytesperrow scanFuel e.nbyte 0
  let (ucount, nbyte) :=
    if ucount ≠ MAX_REPEAT ∧ nbyte ≠ bytesperrow then (ucount - 1, nbyte - 1)
    else (ucount, nbyte)
  let e := { e with nbyte := nbyte }
  if ucount > 0 then do
    let hdr := e.nout
    let e ← emit e (Int.lor (ucount - 1) PLOT_ARBITRARY_DATA_MASK)
    let e ← forLoop (nbyte - ucount) nbyte (fun i e => do
      let v ← rd buffer i
      emit e v) e
    pure { e with
      runs := e.runs ++ [⟨PLOT_ARBITRARY_DATA_MASK, ucount, nbyte - ucount, nbyte, hdr⟩] }
  else pure e

/-- The second part of the body of the `while (TRUE)` loop: the scan for equal patterns
and the output of a run of white or of non-white patterns, or the step back when no
equal items were found. -/
def equalPart (buffer : List Nat) (bytesperrow : Int) (e : Enc) : Option Enc := do
  let first := e.nbyte
  let (olditem, nbyte, ecount) ← equalScan buffer bytesperrow scanFuel e.nbyte 0
  if ecount > 1 then
    if olditem = 0 then
      if nbyte ≥ bytesperrow - 1 then do
        let hdr := e.nout
        let e ← emit e (Int.lor (ecount - 2) SKIP_AND_PLOT_MASK)
        let v ← rd buffer (nbyte - 1)
        let e ← emit e v
        pure { e with
          nbyte := nbyte
          runs := e.runs ++ [⟨SKIP_AND_PLOT_MASK, ecount, first, nbyte, hdr⟩] }
      else do
        let hdr := e.nout
        let e ← emit e (Int.lor (ecount - 1) SKIP_AND_PLOT_MASK)
        let v ← rd buffer nbyte
        let e ← emit e v
        pure { e with
          nbyte := nbyte + 1
          runs := e.runs ++ [⟨SKIP_AND_PLOT_MASK, ecount, first, nbyte + 1, hdr⟩] }
    else do
      let hdr := e.nout
      let e ← emit e (Int.lor (ecount - 1) REPEAT_PLOT_MASK)
      let e ← emit e olditem
      pure { e with
        nbyte := nbyte
        runs := e.runs ++ [⟨REPEAT_PLOT_MASK, ecount, first, nbyte, hdr⟩] }
  else pure { e with nbyte := nbyte - 1 }

/-- One pass through the body of the `while (TRUE)` loop of the encoder.  The flag of
the result says that the pass left through one of the two `goto nextrow`. -/
def encodePass (buffer : List Nat) (bytesperrow : Int) (e : Enc) : Option (Bool × Enc) := do
  let e ← uniquePart buffer bytesperrow e
  if e.nbyte ≥ bytesperrow then pure (true, e)
  else do
    let e ← equalPart buffer bytesperrow e
    if e.nbyte ≥ bytesperrow then pure (true, e) else pure (false, e)

/-- The loop `while (TRUE)` of the encoder, up to the label `nextrow`. -/
def encodeLoop (buffer : List Nat) (bytesperrow : Int) : Nat → Enc → Option Enc
  | 0, _ => none
  | fuel + 1, e => do
    let (done, e) ← encodePass buffer bytesperrow e
    if done then pure e else encodeLoop buffer bytesperrow fuel e

/-- The encoder as `main` runs it: `nbyte = 0; nout = 0;` and then the loop.  The fuel
is one more than the number of bytes of a row. -/
def encode (buffer : List Nat) (bytesperrow : Int) (outbuffer : List Nat) : Option Enc :=
  encodeLoop buffer bytesperrow (bytesperrow + 1).toNat ⟨0, 0, outbuffer, []⟩

/-! ## The function main -/

/-- The call `fwrite(outbuffer, 1, nout, stdout)`. -/
def fwriteOut (outbuffer : List Nat) (nout : Int) : Option Out :=
  if 0 ≤ nout ∧ nout ≤ outbuffer.length then some (Out.fwrite (outbuffer.take nout.toNat))
  else none

/-- The values `main` computes from the width of the image. -/
structure Cfg where
  cols : Int
  bytesperrow : Int
  rucols : Int
  padright : Int

/-- The computation of `bytesperrow`, `rucols` and `padright`.  The width is not
negative, so the rounding of `/` is that of C. -/
def mkCfg (cols : Nat) : Cfg :=
  let rucols : Int := ((cols : Int) + 7) / 8
  let bytesperrow := rucols
  let rucols := rucols * 8
  { cols := cols, bytesperrow := bytesperrow, rucols := rucols, padright := rucols - cols }

/-- The branch of the row loop taken when the difference map has changed or the row is
the first: send the repeat count, copy the map into `buffer`, encode it and send it. -/
def encodeBranch (c : Cfg) (s : State) : Option State := do
  let s := { s with stdout := s.stdout ++ [Out.putchar s.linerepeat] }
  let buffer ← forLoop 0 c.bytesperrow (fun i b => do
    let v ← rd s.diff i
    wr b i v) s.buffer
  let s := { s with buffer := buffer }
  let e ← encode s.buffer c.bytesperrow s.outbuffer
  let s := { s with outbuffer := e.outbuffer, nout := e.nout, runs := e.runs }
  let s := { s with stdout := s.stdout ++ [printfCount (s.nout + 1)] }
  let w ← fwriteOut s.outbuffer s.nout
  pure { s with stdout := s.stdout ++ [w], linerepeat := 0 }

/-- The branch of the row loop taken when the difference map equals `buffer`. -/
def repeatBranch (s : State) : Option State := do
  let s := { s with linerepeat := s.linerepeat + 1 }
  if s.linerepeat = 62 then do
    let s := { s with stdout := s.stdout ++ [Out.putchar s.linerepeat] }
    let s := { s with stdout := s.stdout ++ [printfCount (s.nout + 1)] }
    let w ← fwriteOut s.outbuffer s.nout
    pure { s with stdout := s.stdout ++ [w], linerepeat := 0 }
  else pure s

/-- The part of the row loop that packs the row: `scanlineptr = newscanline`, the call
of `pbm_readpbmrow`, which makes `bitrow[col]` the pixel `col` of the row, and the two
loops that call `putbit`. -/
def packRow (c : Cfg) (bitrow : Nat → Nat) (s : State) : Option State := do
  let s := { s with scanlineptr := some 0 }
  let s ← forLoop 0 c.cols (fun col s => putbit (bitrow col.toNat) s) s
  forLoop 0 c.padright (fun _ s => putbit 0 s) s

/-- The loop that XORs the new scan line with the old one. -/
def xorRow (c : Cfg) (s : State) : Option State := do
  let d ← forLoop 0 c.bytesperrow (fun i d => do
    let a ← rd s.oldscanline i
    let b ← rd s.newscanline i
    wr d i ((a ^^^ b : Nat) : Int)) s.diff
  pure { s with diff := d }

/-- The part of the row loop after the XOR: the choice between the two branches. -/
def aggregate (c : Cfg) (row : Nat) (s : State) : Option State :=
  if memcmp s.buffer s.diff c.bytesperrow.toNat ≠ 0 ∨ row = 0 then encodeBranch c s
  else repeatBranch s

/-- The loop that makes the new scan line the old one. -/
def saveRow (c : Cfg) (s : State) : Option State := do
  let o ← forLoop 0 c.bytesperrow (fun i o => do
    let v ← rd s.newscanline i
    wr o i v) s.oldscanline
  pure { s with oldscanline := o }

/-- The body of the loop over the rows; `pix row col` is the pixel the input file has
at that place.  The `assert` on `bytesperrow` ends the program when it fails. -/
def rowBody (c : Cfg) (pix : Nat → Nat → Nat) (row : Nat) (s : State) : Option State := do
  let s ← packRow c (pix row) s
  if ¬ (c.bytesperrow ≤ GRAPHON_WIDTH_BYTES) then none
  else do
    let s ← xorRow c s
    let s ← aggregate c row s
    saveRow c s

/-- The loop over the rows, run for `n` rows from the row `row` on. -/
def rowLoop (c : Cfg) (pix : Nat → Nat → Nat) : Nat → Nat → State → Option State
  | 0, _, s => some s
  | n + 1, row, s => do
    let s ← rowBody c pix row s
    rowLoop c pix n (row + 1) s

/-- The content of the arrays `main` declares, before it assigns any of them. -/
structure Indet where
  oldscanline : Nat → Nat
  newscanline : Nat → Nat
  diff : Nat → Nat
  buffer : Nat → Nat
  outbuffer : Nat → Nat

/-- An array of `n` bytes of unknown content. -/
def Indet.arr (f : Nat → Nat) (n : Int) : List Nat :=
  (List.range n.toNat).map (fun i => f i % 256)

/-- The state when `main` starts: the statics are zero, the arrays unknown.  The
variables `nout` and `linerepeat` are assigned before they are read. -/
def startState (u : Indet) : State :=
  { item := 0
    bitsperitem := 0
    bitshift := 0
    scanlineptr := none
    oldscanline := Indet.arr u.oldscanline GRAPHON_WIDTH_BYTES
    newscanline := Indet.arr u.newscanline GRAPHON_WIDTH_BYTES
    diff := Indet.arr u.diff GRAPHON_WIDTH_BYTES
    buffer := Indet.arr u.buffer GRAPHON_WIDTH_BYTES
    outbuffer := Indet.arr u.outbuffer (2 * (GRAPHON_WIDTH_BYTES + 1))
    nout := 0
    linerepeat := 0
    stdout := []
    runs := [] }

/-- The call `printf` that starts the download of the screen raster. -/
def printfStart (rows rucols : Int) : Out :=
  Out.printf ([27, 80, 48, 59, 49, 59, 48, 59, 52, 59, 49, 59] ++ fmtD rows ++ [59] ++
    fmtD rucols ++ [59, 49, 33, 82, 49, 47])

/-- The part of `main` from the loop that clears `buffer` and `oldscanline` to the
assignments `linerepeat = 63; nout = 0;`. -/
def setup (c : Cfg) (rows : Nat) (s : State) : Option State := do
  let (b, o) ← forLoop 0 GRAPHON_WIDTH_BYTES (fun i (bo : List Nat × List Nat) => do
    let o ← wr bo.2 i 0
    let b ← wr bo.1 i 0
    pure (b, o)) (s.buffer, s.oldscanline)
  let s := { s with buffer := b, oldscanline := o }
  let s := putinit s
  let s := { s with stdout := s.stdout ++ [printfStart rows c.rucols] }
  pure { s with linerepeat := 63, nout := 0 }

/-- How a run of the program ends. -/
inductive Outcome where
  | fatal (stdout : List Out)
  | returned (status : Int) (stdout : List Out)
  deriving DecidableEq

/-- The function `main`, from the header of the image (`cols`, `rows`) and its pixels to
the way the program ends.  `Outcome.fatal` is a call of `pm_error`, which does not
return. -/
def main (cols rows : Nat) (pix : Nat → Nat → Nat) (u : Indet) : Option Outcome :=
  let s := startState u
  if (cols : Int) > GRAPHON_WIDTH then some (Outcome.fatal s.stdout)
  else do
    let c := mkCfg cols
    let s ← setup c rows s
    let s ← rowLoop c pix rows 0 s
    let s := { s with stdout := s.stdout ++ [Out.putchar s.linerepeat] }
    let s ← putrest s
    pure (Outcome.returned 0 s.stdout)

/-! ## Predicates and sample inputs used in the theorems -/

/-- The number of bytes a run takes in `outbuffer`: the header and the bytes after it. -/
def Run.size (r : Run) : Int :=
  if r.tag = PLOT_ARBITRARY_DATA_MASK then r.count + 1 else 2

/-- What the record of a run says about `buffer` and `outbuffer`, by the kind of run:
unique patterns, a run of a non-white pattern, a run of white that ends the line, and a
run of white with more data ahead. -/
def Run.Sound (buffer : List Nat) (bytesperrow : Int) (out : List Nat) (r : Run) : Prop :=
  (r.tag = PLOT_ARBITRARY_DATA_MASK ∧ 1 ≤ r.count ∧ r.count ≤ 64 ∧
      r.next = r.first + r.count ∧
      rd out r.hdr = some (Int.lor (r.count - 1) PLOT_ARBITRARY_DATA_MASK).toNat ∧
      (∀ j : Int, 0 ≤ j → j < r.count →
        ∃ v : Nat, rd buffer (r.first + j) = some v ∧ rd out (r.hdr + 1 + j) = some (v % 256)) ∧
      (∀ j : Int, r.first ≤ j → j + 1 < r.next → rd buffer j ≠ rd buffer (j + 1))) ∨
  (r.tag = REPEAT_PLOT_MASK ∧ 2 ≤ r.count ∧ r.count ≤ 64 ∧
      r.next = r.first + r.count ∧
      rd out r.hdr = some (Int.lor (r.count - 1) REPEAT_PLOT_MASK).toNat ∧
      ∃ v : Nat, v ≠ 0 ∧ (∀ j : Int, r.first ≤ j → j < r.next → rd buffer j = some v) ∧
        rd out (r.hdr + 1) = some (v % 256)) ∨
  (r.tag = SKIP_AND_PLOT_MASK ∧ 2 ≤ r.count ∧ r.count ≤ 64 ∧
      r.next = r.first + r.count ∧ bytesperrow - 1 ≤ r.next ∧
      rd out r.hdr = some (Int.lor (r.count - 2) SKIP_AND_PLOT_MASK).toNat ∧
      (∀ j : Int, r.first ≤ j → j < r.next → rd buffer j = some 0) ∧
      rd out (r.hdr + 1) = some 0) ∨
  (r.tag = SKIP_AND_PLOT_MASK ∧ 2 ≤ r.count ∧ r.count ≤ 64 ∧
      r.next = r.first + r.count + 1 ∧ r.next < bytesperrow + 1 ∧
      rd out r.hdr = some (Int.lor (r.count - 1) SKIP_AND_PLOT_MASK).toNat ∧
      (∀ j : Int, r.first ≤ j → j < r.first + r.count → rd buffer j = some 0) ∧
      ∃ v : Nat, rd buffer (r.next - 1) = some v ∧ rd out (r.hdr + 1) = some (v % 256))

/-- The intervals `[lo r, hi r)` of the runs of a list follow one another without gap or
overlap, from `a` to `b`, and none is empty. -/
def Linked (lo hi : Run → Int) : Int → List Run → Int → Prop
  | a, [], b => a = b
  | a, r :: rs, b => lo r = a ∧ lo r < hi r ∧ Linked lo hi (hi r) rs b

/-- The invariant of the encoder loop. -/
structure EncInv (buffer : List Nat) (bytesperrow : Int) (e : Enc) : Prop where
  nbyte_nonneg : 0 ≤ e.nbyte
  nbyte_le : e.nbyte ≤ bytesperrow
  nout_nonneg : 0 ≤ e.nout
  nout_le : e.nout ≤ 2 * e.nbyte
  spans : Linked Run.first Run.next 0 e.runs e.nbyte
  places : Linked Run.hdr (fun r => r.hdr + r.size) 0 e.runs e.nout
  sound : ∀ r ∈ e.runs, r.hdr + r.size ≤ e.nout ∧ Run.Sound buffer bytesperrow e.outbuffer r

/-- The output of `e2` extends that of `e1` by `k` bytes, and nothing else differs. -/
structure Ext (e1 e2 : Enc) (k : Int) : Prop where
  nout : e2.nout = e1.nout + k
  len : e2.outbuffer.length = e1.outbuffer.length
  keep : ∀ j, j < e1.nout → rd e2.outbuffer j = rd e1.outbuffer j
  nbyte : e2.nbyte = e1.nbyte
  runs : e2.runs = e1.runs

/-! ## The packed line of the spec -/

/-- The value of a pixel as a bit: 1 for black. -/
def bitVal (b : Nat) : Nat :=
  if b = PBM_BLACK then 1 else 0

/-- The bits the packer is given for a row: the pixels of the row, then white ones up
to the byte boundary. -/
def rowBit (cols : Nat) (bitrow : Nat → Nat) (i : Nat) : Nat :=
  if i < cols then bitrow i else 0

/-- The first `t` bits of byte `j` of a line of bits `g`, placed from the highest bit of
the byte downwards. -/
def packedBits (g : Nat → Nat) (j : Nat) : Nat → Nat
  | 0 => 0
  | t + 1 => packedBits g j t + bitVal (g (8 * j + t)) * 2 ^ (7 - t)

/-- Byte `j` of the PackedLine of the spec: bit 0 of the row is the highest bit of byte 0,
and the bits past the width are clear. -/
def packedByte (cols : Nat) (bitrow : Nat → Nat) (j : Nat) : Nat :=
  packedBits (rowBit cols bitrow) j 8

/-- The state of the packer when it has been given the first `m` bits of the line `g`,
having started the line in state `s0`. -/
structure PackInv (g : Nat → Nat) (s0 s : State) (m : Nat) : Prop where
  item : s.item = (packedBits g (m / 8) (m % 8) : Nat)
  bitsperitem : s.bitsperitem = (m % 8 : Nat) + 1
  bitshift : s.bitshift = 7 - (m % 8 : Nat)
  ptr : s.scanlineptr = some ((m / 8 : Nat) : Int)
  len : s.newscanline.length = s0.newscanline.length
  bytes : ∀ j : Nat, j < m / 8 → rd s.newscanline j = some (packedBits g j 8)
  rest : ∀ j : Int, (m / 8 : Nat) ≤ j → rd s.newscanline j = rd s0.newscanline j
  frame : s = { s0 with item := s.item, bitsperitem := s.bitsperitem, bitshift := s.bitshift,
                        scanlineptr := s.scanlineptr, newscanline := s.newscanline }

/-- What holds of the state of `main` between two rows: the packer is at a byte boundary,
the arrays have their declared lengths, and `nout` is within the output buffer. -/
structure Inv (bytesperrow : Int) (s : State) : Prop where
  item : s.item = 0
  bitsperitem : s.bitsperitem = 1
  bitshift : s.bitshift = 7
  old_len : s.oldscanline.length = 132
  new_len : s.newscanline.length = 132
  diff_len : s.diff.length = 132
  buffer_len : s.buffer.length = 132
  out_len : s.outbuffer.length = 266
  nout_nonneg : 0 ≤ s.nout
  nout_le : s.nout ≤ 2 * bytesperrow

/-- The three calls that send one unit: the repeat count, the byte count and the encoded
bytes. -/
def unitCalls (count : Int) (outbuffer : List Nat) (nout : Int) : List Out :=
  [Out.putchar count, printfCount (nout + 1), Out.fwrite (outbuffer.take nout.toNat)]

/-- The state of `main` when the loop has gone through the rows `0 .. r - 1`. -/
def afterRows (cols rows : Nat) (pix : Nat → Nat → Nat) (u : Indet) (r : Nat) : Option State :=
  (setup (mkCfg cols) rows (startState u)).bind (rowLoop (mkCfg cols) pix r 0)

/-- The calls that write the initialization framing: those of `putinit` and the start
of the download. -/
def prologue (cols rows : Nat) : List Out :=
  [Out.printf [27, 49], Out.printf [27, 12], Out.printf [27, 114],
   Out.printf [27, 91, 61, 49, 49, 108], printfStart rows (mkCfg cols).rucols]

/-- The calls of `putrest`, which write the closing framing. -/
def epilogue : List Out :=
  [Out.printf [27, 92], Out.printf [27, 116]]

/-- Byte `j` of the packed line before row `r`: zero before the first row. -/
def prevByte (cols : Nat) (pix : Nat → Nat → Nat) (r j : Nat) : Nat :=
  if r = 0 then 0 else packedByte cols (pix (r - 1)) j

/-- The repeat counts sent: the arguments of the calls of `putchar`, in order. -/
def repeatCounts (calls : List Out) : List Int :=
  calls.filterMap fun o =>
    match o with
    | Out.putchar c => some c
    | _ => none

/-- The aggregator given the difference map `x.2` for the row `x.1`. -/
def feed (c : Cfg) (s : State) (x : Nat × List Nat) : Option State :=
  aggregate c x.1 { s with diff := x.2 }

/-- Arrays that start out filled with zero. -/
def zeroIndet : Indet :=
  ⟨fun _ => 0, fun _ => 0, fun _ => 0, fun _ => 0, fun _ => 0⟩

/-- An image whose pixels are all white. -/
def whiteImage : Nat → Nat → Nat :=
  fun _ _ => 0

/-- An image whose pixels are all black. -/
def blackImage : Nat → Nat → Nat :=
  fun _ _ => PBM_BLACK

/-- A sample buffer of 132 bytes, of which the first 12 are a difference map. -/
def sampleBuffer : List Nat :=
  [1, 2, 2, 0, 0, 0, 5, 0, 0, 3, 0, 0] ++ List.replicate 120 0

/-- An output buffer of 266 bytes. -/
def sampleOut : List Nat :=
  List.replicate 266 0

/-- A state of the aggregator just after a unit was sent: the counter is 0, the
reference buffer is all zero and its encoding is in `outbuffer`. -/
def sampleState : State :=
  { item := 0
    bitsperitem := 1
    bitshift := 7
    scanlineptr := some 1
    oldscanline := List.replicate 132 0
    newscanline := List.replicate 132 0
    diff := List.replicate 132 0
    buffer := List.replicate 132 0
    outbuffer := [192, 0] ++ List.replicate 264 0
    nout := 2
    linerepeat := 0
    stdout := []
    runs := [] }

/-- The rows 1 to `k`, each with an all-zero difference map. -/
def sampleRows (k : Nat) : List (Nat × List Nat) :=
  (List.range k).map fun i => (i + 1, List.replicate 132 0)

/-! ## Predicates and sample inputs of the later claims -/

/-- The states in which the encoder, run on `buffer` with the output buffer `out`, starts
a pass through the body of its `while (TRUE)` loop: the state `nbyte = 0; nout = 0;`, and
the state a pass ends in when it does not leave through a `goto nextrow`. -/
inductive PassStart (buffer : List Nat) (bytesperrow : Int) (out : List Nat) : Enc → Prop
  | first : PassStart buffer bytesperrow out ⟨0, 0, out, []⟩
  | again (e e2 : Enc) : PassStart buffer bytesperrow out e →
      encodePass buffer bytesperrow e = some (false, e2) → PassStart buffer bytesperrow out e2

/-- An image whose rows alternate black and white pixels, starting with black: every
byte of its packed lines is 0xAA. -/
def stripes : Nat → Nat → Nat :=
  fun _ col => if col % 2 = 0 then PBM_BLACK else 0

/-- A buffer of 132 bytes whose first three are two zero bytes and a 5. -/
def skipBuffer : List Nat :=
  [0, 0, 5] ++ List.replicate 129 0

/-- The bytes of `l` from index `a` up to index `b`. -/
def seg (l : List Nat) (a b : Int) : List Nat :=
  (l.drop a.toNat).take (b - a).toNat

/-- The reference decoder of the spec, which reads the encoded bytes left to right: for
a header `h` with `k = h & 0x3F`, the next `k + 1` bytes verbatim when `h & 0xC0 = 0xC0`,
the next byte `k + 1` times when `h & 0xC0 = 0x80`, and `k + 1` zero bytes and then the
next byte when `h & 0xC0 = 0x40`.  There is no result when the bytes end inside a run or
a header has none of the three tags.  The fuel bounds the number of runs. -/
def decode : Nat → List Nat → Option (List Nat)
  | 0, _ => none
  | _ + 1, [] => some []
  | _ + 1, [_] => none
  | fuel + 1, h :: v :: rest =>
    let k := h &&& 0x3F
    if h &&& 0xC0 = 0xC0 then
      if k + 1 ≤ (v :: rest).length then
        (decode fuel ((v :: rest).drop (k + 1))).map fun d => (v :: rest).take (k + 1) ++ d
      else none
    else if h &&& 0xC0 = 0x80 then
      (decode fuel rest).map fun d => List.replicate (k + 1) v ++ d
    else if h &&& 0xC0 = 0x40 then
      (decode fuel rest).map fun d => List.replicate (k + 1) 0 ++ v :: d
    else none

/-- The reference decoder run on a whole encoded line. -/
def decodeLine (enc : List Nat) : Option (List Nat) :=
  decode (enc.length + 1) enc

/-- The number of encoded payloads written: the calls of `fwrite`. -/
def payloads (calls : List Out) : Nat :=
  (calls.filter fun o =>
    match o with
    | Out.fwrite _ => true
    | _ => false).length

/-! ## Arrays and loops -/

theorem rd_lt {a : List Nat} {i : Int} (h0 : 0 ≤ i) (h1 : i < a.length) :
    ∃ v, rd a i = some v := by
  have : i.toNat < a.length := by omega
  exact ⟨a[i.toNat], by simp [rd, h0, List.getElem?_eq_getElem this]⟩

theorem wr_lt {a : List Nat} {i v : Int} (h0 : 0 ≤ i) (h1 : i < a.length) :
    wr a i v = some (a.set i.toNat (v % 256).toNat) := by
  simp [wr, h0, h1]

theorem rd_set (a : List Nat) (i j : Int) (x : Nat) (h0 : 0 ≤ i) (h1 : i < a.length) :
    rd (a.set i.toNat x) j = if j = i then some x else rd a j := by
  unfold rd
  by_cases hj : 0 ≤ j
  · simp only [hj, if_true]
    by_cases hji : j = i
    · subst hji
      have : j.toNat < a.length := by omega
      simp [this]
    · have : i.toNat ≠ j.toNat := by omega
      simp [hji, List.getElem?_set_ne this]
  · have : j ≠ i := by omega
    simp [hj, this]

theorem forLoop_zero {σ : Type} (lo hi : Int) (body : Int → σ → Option σ) (s : σ)
    (h : hi ≤ lo) : forLoop lo hi body s = some s := by
  have : (hi - lo).toNat = 0 := by omega
  simp [forLoop, this]

theorem forLoop_succ {σ : Type} (lo hi : Int) (body : Int → σ → Option σ) (s : σ)
    (h : lo < hi) :
    forLoop lo hi body s = (forLoop lo (hi - 1) body s).bind (body (hi - 1)) := by
  obtain ⟨n, hn⟩ : ∃ n : Nat, (hi - lo).toNat = n + 1 := ⟨(hi - lo).toNat - 1, by omega⟩
  have h1 : (hi - 1 - lo).toNat = n := by omega
  have h2 : lo + (n : Int) = hi - 1 := by omega
  simp only [forLoop, hn, h1, List.range_succ, List.foldlM_append, h2]
  cases (List.foldlM (fun s (j : Nat) => body (lo + (j : Int)) s) s (List.range n)) <;> simp [h2]

theorem Ext.refl (e : Enc) : Ext e e 0 :=
  ⟨by simp, rfl, fun _ _ => rfl, rfl, rfl⟩

theorem Ext.trans {e1 e2 e3 : Enc} {k l : Int} (h1 : Ext e1 e2 k) (h2 : Ext e2 e3 l)
    (hk : 0 ≤ k) : Ext e1 e3 (k + l) :=
  ⟨by rw [h2.nout, h1.nout]; ring, by rw [h2.len, h1.len],
   fun j hj => by rw [h2.keep j (by rw [h1.nout]; omega), h1.keep j hj],
   by rw [h2.nbyte, h1.nbyte], by rw [h2.runs, h1.runs]⟩

theorem emit_spec (e : Enc) (v : Int) (h0 : 0 ≤ e.nout) (h1 : e.nout < e.outbuffer.length) :
    ∃ e2, emit e v = some e2 ∧ Ext e e2 1 ∧ rd e2.outbuffer e.nout = some (v % 256).toNat := by
  refine ⟨{ e with outbuffer := e.outbuffer.set e.nout.toNat (v % 256).toNat,
                   nout := e.nout + 1 }, ?_, ⟨rfl, by simp, ?_, rfl, rfl⟩, ?_⟩
  · simp [emit, wr, h0, h1]
  · intro j hj
    have : j ≠ e.nout := by omega
    simp [rd_set _ _ _ _ h0 h1, this]
  · simp [rd_set _ _ _ _ h0 h1]

theorem plot_spec (buffer : List Nat) (lo : Int) (h0 : 0 ≤ lo) :
    ∀ (k : Nat) (e : Enc), lo + k ≤ buffer.length → 0 ≤ e.nout →
      e.nout + k ≤ e.outbuffer.length →
      ∃ e2, forLoop lo (lo + k) (fun i e => do
          let v ← rd buffer i
          emit e v) e = some e2 ∧ Ext e e2 k ∧
        ∀ j : Int, 0 ≤ j → j < k → ∃ v : Nat, rd buffer (lo + j) = some v ∧
          rd e2.outbuffer (e.nout + j) = some (v % 256) := by
  intro k
  induction k with
  | zero =>
    intro e _ _ _
    exact ⟨e, forLoop_zero _ _ _ _ (by simp), by simpa using Ext.refl e,
      fun j hj0 hj => by omega⟩
  | succ k ih =>
    intro e hb hn hl
    obtain ⟨e1, he1, hx1, hc1⟩ := ih e (by push_cast at hb; omega) hn (by push_cast at hl; omega)
    have hlo : lo + ((k + 1 : Nat) : Int) - 1 = lo + k := by push_cast; ring
    rw [forLoop_succ _ _ _ _ (by push_cast; omega), hlo, he1]
    obtain ⟨v, hv⟩ := rd_lt (a := buffer) (i := lo + k) (by omega) (by push_cast at hb; omega)
    obtain ⟨e2, he2, hx2, hc2⟩ := emit_spec e1 v (by rw [hx1.nout]; omega)
      (by rw [hx1.nout, hx1.len]; push_cast at hl; omega)
    refine ⟨e2, ?_, ?_, ?_⟩
    · simp [hv, he2]
    · have := hx1.trans hx2 (by omega)
      simpa using this
    · intro j hj0 hj
      by_cases hjk : j < k
      · obtain ⟨w, hw1, hw2⟩ := hc1 j hj0 hjk
        exact ⟨w, hw1, by rw [hx2.keep _ (by rw [hx1.nout]; omega), hw2]⟩
      · have : j = k := by push_cast at hj; omega
        subst this
        refine ⟨v, hv, ?_⟩
        rw [← hx1.nout, hc2]
        simp
        omega

/-! ## The run length encoder -/

theorem MIN_le_right (a b : Int) : MIN a b ≤ b := by
  unfold MIN; split_ifs <;> omega

theorem MIN_le_left (a b : Int) : MIN a b ≤ a := by
  unfold MIN; split_ifs <;> omega

theorem MIN_le_64 (a : Int) : MIN a MAX_REPEAT ≤ 64 :=
  MIN_le_right a MAX_REPEAT

theorem MIN_eq (a b : Int) : MIN a b = a ∨ MIN a b = b := by
  unfold MIN; split_ifs <;> simp

theorem uniqueScan_spec (buffer : List Nat) (bpr : Int) (hlen : bpr ≤ buffer.length) :
    ∀ (fuel : Nat) (nbyte ucount : Int), 0 ≤ nbyte → nbyte < buffer.length → 0 ≤ ucount →
      64 ≤ ucount + fuel → 1 ≤ fuel →
      ∃ (o : Nat) (n2 u2 : Int),
        uniqueScan buffer bpr fuel nbyte ucount = some ((o : Int), n2, u2) ∧
        nbyte < n2 ∧ n2 - nbyte = u2 - ucount ∧ (n2 ≤ bpr ∨ n2 = nbyte + 1) ∧
        (u2 ≤ 64 ∨ u2 = ucount + 1) ∧ rd buffer (n2 - 1) = some o ∧
        (n2 < bpr → u2 < MIN bpr MAX_REPEAT → rd buffer n2 = some o) ∧
        (∀ j, nbyte ≤ j → j + 1 < n2 → rd buffer j ≠ rd buffer (j + 1)) := by
  intro fuel
  induction fuel with
  | zero => intro _ _ _ _ _ _ h; omega
  | succ fuel ih =>
    intro nbyte ucount h0 h1 hu hf _
    obtain ⟨o, ho⟩ := rd_lt h0 h1
    by_cases hb : nbyte + 1 < bpr
    · obtain ⟨a, ha⟩ := rd_lt (a := buffer) (i := nbyte + 1) (by omega) (by omega)
      by_cases hc : (o : Int) ≠ (a : Int) ∧ ucount + 1 < MIN bpr MAX_REPEAT
      · have hm := MIN_le_64 bpr
        obtain ⟨o2, n2, u2, hs, p1, p2, p3, p4, p5, p6, p7⟩ :=
          ih (nbyte + 1) (ucount + 1) (by omega) (by omega) (by omega)
            (by push_cast at hf; omega) (by push_cast at hf; omega)
        refine ⟨o2, n2, u2, ?_, by omega, by omega, by omega, by omega, p5, p6, ?_⟩
        · simp only [uniqueScan, ho, ha, Option.bind_eq_bind, Option.some_bind, hb, if_true]
          rw [if_pos hc]
          exact hs
        · intro j hj1 hj2
          by_cases hj : j = nbyte
          · subst hj
            rw [ho, ha]
            intro h
            apply hc.1
            simpa using h
          · exact p7 j (by omega) hj2
      · refine ⟨o, nbyte + 1, ucount + 1, ?_, by omega, by omega, by omega, by omega,
          by simpa using ho, ?_, fun j _ _ => by omega⟩
        · simp only [uniqueScan, ho, ha, Option.bind_eq_bind, Option.some_bind, hb, if_true]
          rw [if_neg hc]
          rfl
        · intro _ hmin
          rw [ha]
          by_contra hne
          apply hc
          exact ⟨fun h => hne (by simpa using h.symm), hmin⟩
    · refine ⟨o, nbyte + 1, ucount + 1, ?_, by omega, by omega, by omega, by omega,
        by simpa using ho, fun h => by omega, fun j _ _ => by omega⟩
      simp only [uniqueScan, ho, Option.bind_eq_bind, Option.some_bind, hb, if_false]
      rfl

theorem equalScan_spec (buffer : List Nat) (bpr : Int) (hlen : bpr ≤ buffer.length) :
    ∀ (fuel : Nat) (nbyte ecount : Int), 0 ≤ nbyte → nbyte < buffer.length → 0 ≤ ecount →
      64 ≤ ecount + fuel → 1 ≤ fuel →
      ∃ (o : Nat) (n2 c2 : Int),
        equalScan buffer bpr fuel nbyte ecount = some ((o : Int), n2, c2) ∧
        nbyte < n2 ∧ n2 - nbyte = c2 - ecount ∧ (n2 ≤ bpr ∨ n2 = nbyte + 1) ∧
        (c2 ≤ 64 ∨ c2 = ecount + 1) ∧
        (∀ j, nbyte ≤ j → j < n2 → rd buffer j = some o) ∧
        (n2 < bpr → c2 < MIN bpr MAX_REPEAT → rd buffer n2 ≠ some o) ∧
        (nbyte + 1 < bpr → rd buffer nbyte = rd buffer (nbyte + 1) →
          ecount + 1 < MIN bpr MAX_REPEAT → nbyte + 2 ≤ n2) := by
  intro fuel
  induction fuel with
  | zero => intro _ _ _ _ _ _ h; omega
  | succ fuel ih =>
    intro nbyte ecount h0 h1 hu hf _
    obtain ⟨o, ho⟩ := rd_lt h0 h1
    by_cases hb : nbyte + 1 < bpr
    · obtain ⟨a, ha⟩ := rd_lt (a := buffer) (i := nbyte + 1) (by omega) (by omega)
      by_cases hc : (o : Int) = (a : Int) ∧ ecount + 1 < MIN bpr MAX_REPEAT
      · have hm := MIN_le_64 bpr
        have hoa : o = a := by exact_mod_cast hc.1
        subst hoa
        obtain ⟨o2, n2, c2, hs, p1, p2, p3, p4, p5, p6, p7⟩ :=
          ih (nbyte + 1) (ecount + 1) (by omega) (by omega) (by omega)
            (by push_cast at hf; omega) (by push_cast at hf; omega)
        have ho2 : o2 = o := by
          have := p5 (nbyte + 1) (by omega) (by omega)
          rw [ha] at this
          exact (Option.some.inj this).symm
        subst ho2
        refine ⟨o2, n2, c2, ?_, by omega, by omega, by omega, by omega, ?_, p6,
          fun _ _ _ => by omega⟩
        · simp only [equalScan, ho, ha, Option.bind_eq_bind, Option.some_bind, hb, if_true]
          rw [if_pos ⟨trivial, hc.2⟩]
          exact hs
        · intro j hj1 hj2
          by_cases hj : j = nbyte
          · subst hj; exact ho
          · exact p5 j (by omega) hj2
      · refine ⟨o, nbyte + 1, ecount + 1, ?_, by omega, by omega, by omega, by omega,
          ?_, ?_, ?_⟩
        · simp only [equalScan, ho, ha, Option.bind_eq_bind, Option.some_bind, hb, if_true]
          rw [if_neg hc]
          rfl
        · intro j hj1 hj2
          have : j = nbyte := by omega
          subst this; exact ho
        · intro _ hmin
          rw [ha]
          intro h
          apply hc
          exact ⟨by rw [Option.some.inj h], hmin⟩
        · intro _ heq hmin
          exfalso
          apply hc
          rw [ho, ha] at heq
          exact ⟨by rw [Option.some.inj heq], hmin⟩
    · refine ⟨o, nbyte + 1, ecount + 1, ?_, by omega, by omega, by omega, by omega,
        ?_, fun h => by omega, fun h => by omega⟩
      · simp only [equalScan, ho, Option.bind_eq_bind, Option.some_bind, hb, if_false]
        rfl
      · intro j hj1 hj2
        have : j = nbyte := by omega
        subst this; exact ho

theorem lor_tag_bounds :
    ∀ n : Nat, n < 64 →
      (Int.lor n 0x40 % 256 = Int.lor n 0x40 ∧ Int.lor n 0x80 % 256 = Int.lor n 0x80 ∧
       Int.lor n 0xc0 % 256 = Int.lor n 0xc0) := by
  decide

theorem lor_mod (c tag : Int) (h0 : 0 ≤ c) (h1 : c ≤ 63)
    (ht : tag = SKIP_AND_PLOT_MASK ∨ tag = REPEAT_PLOT_MASK ∨ tag = PLOT_ARBITRARY_DATA_MASK) :
    (Int.lor c tag % 256).toNat = (Int.lor c tag).toNat := by
  obtain ⟨n, rfl⟩ : ∃ n : Nat, c = n := ⟨c.toNat, by omega⟩
  have h := lor_tag_bounds n (by omega)
  rcases ht with rfl | rfl | rfl
  · exact congrArg Int.toNat h.1
  · exact congrArg Int.toNat h.2.1
  · exact congrArg Int.toNat h.2.2

theorem uniqueOut_spec (buffer : List Nat) (e0 : Enc) (nb uc hv : Int) (r : Run)
    (hu1 : 1 ≤ uc) (hlo : 0 ≤ nb - uc) (hnb : nb ≤ buffer.length)
    (hn : 0 ≤ e0.nout) (hroom : e0.nout + 1 + uc ≤ e0.outbuffer.length) :
    ∃ e1, ((emit e0 hv).bind fun a =>
        (forLoop (nb - uc) nb (fun i e => (rd buffer i).bind fun v => emit e (v : Int)) a).bind
          fun a => pure ({ a with runs := a.runs ++ [r] } : Enc)) = some e1 ∧
      e1.nbyte = e0.nbyte ∧ e1.nout = e0.nout + 1 + uc ∧
      e1.outbuffer.length = e0.outbuffer.length ∧
      (∀ j, j < e0.nout → rd e1.outbuffer j = rd e0.outbuffer j) ∧
      e1.runs = e0.runs ++ [r] ∧
      rd e1.outbuffer e0.nout = some (hv % 256).toNat ∧
      (∀ j : Int, 0 ≤ j → j < uc → ∃ v : Nat, rd buffer (nb - uc + j) = some v ∧
        rd e1.outbuffer (e0.nout + 1 + j) = some (v % 256)) := by
  obtain ⟨ea, hea, hxa, hca⟩ := emit_spec e0 hv hn (by omega)
  obtain ⟨k, hk⟩ : ∃ k : Nat, uc = k := ⟨uc.toNat, by omega⟩
  have hnb2 : nb = nb - uc + (k : Int) := by omega
  obtain ⟨eb, heb, hxb, hcb⟩ := plot_spec buffer (nb - uc) hlo k ea (by omega)
    (by rw [hxa.nout]; omega) (by rw [hxa.nout, hxa.len]; omega)
  rw [← hnb2] at heb
  refine ⟨{ eb with runs := eb.runs ++ [r] }, ?_, ?_, ?_, ?_, ?_, ?_, ?_, ?_⟩
  · simp only [hea, Option.some_bind]
    have : (forLoop (nb - uc) nb (fun i e => (rd buffer i).bind fun v => emit e (v : Int)) ea)
        = some eb := heb
    rw [this]
    rfl
  · show eb.nbyte = _
    rw [hxb.nbyte, hxa.nbyte]
  · show eb.nout = _
    rw [hxb.nout, hxa.nout, hk]
  · show eb.outbuffer.length = _
    rw [hxb.len, hxa.len]
  · intro j hj
    show rd eb.outbuffer j = _
    rw [hxb.keep j (by rw [hxa.nout]; omega), hxa.keep j hj]
  · show eb.runs ++ [r] = _
    rw [hxb.runs, hxa.runs]
  · show rd eb.outbuffer _ = _
    rw [hxb.keep _ (by rw [hxa.nout]; omega), hca]
  · intro j hj0 hj
    obtain ⟨v, hv1, hv2⟩ := hcb j hj0 (by omega)
    refine ⟨v, hv1, ?_⟩
    show rd eb.outbuffer _ = _
    rw [← hxa.nout]
    exact hv2

theorem uniquePart_spec (buffer : List Nat) (bpr : Int) (e : Enc) (hlen : bpr ≤ buffer.length)
    (h0 : 0 ≤ e.nbyte) (h1 : e.nbyte ≤ bpr) (h2 : e.nbyte < buffer.length)
    (hn : 0 ≤ e.nout) (hn2 : e.nout ≤ 2 * e.nbyte) (hcap : 2 * bpr ≤ e.outbuffer.length) :
    ∃ e1, uniquePart buffer bpr e = some e1 ∧ e.nbyte ≤ e1.nbyte ∧ e1.nbyte ≤ bpr ∧
      e1.outbuffer.length = e.outbuffer.length ∧
      (∀ j, j < e.nout → rd e1.outbuffer j = rd e.outbuffer j) ∧
      (e1.nbyte < bpr → e1.nbyte - e.nbyte < 64 →
        e1.nbyte + 1 < bpr ∧ rd buffer e1.nbyte = rd buffer (e1.nbyte + 1)) ∧
      ((e1.nbyte = e.nbyte ∧ e1.nout = e.nout ∧ e1.runs = e.runs) ∨
       (∃ r, e1.runs = e.runs ++ [r] ∧ r.first = e.nbyte ∧ r.next = e1.nbyte ∧
          r.first < r.next ∧ r.hdr = e.nout ∧ e1.nout = e.nout + r.size ∧
          r.size ≤ 2 * (r.next - r.first) ∧
          Run.Sound buffer bpr e1.outbuffer r)) := by
  obtain ⟨o, n2, u2, hs, p1, p2, p3, p4, p5, p6, p7⟩ :=
    uniqueScan_spec buffer bpr hlen scanFuel e.nbyte 0 h0 h2 (by omega) (by simp [scanFuel])
      (by simp [scanFuel])
  have hM : MAX_REPEAT = 64 := rfl
  have hmin : ∀ u : Int, u < 64 → u < bpr → u < MIN bpr MAX_REPEAT := by
    intro u hu1 hu2
    rcases MIN_eq bpr MAX_REPEAT with h | h <;> rw [h] <;> omega
  -- the step that writes the run, for the values of `ucount` and `nbyte` after the step back
  have key : ∀ uc nb : Int, nb - uc = e.nbyte → 0 ≤ uc → uc ≤ 64 → nb ≤ bpr →
      (nb < bpr → uc < 64 → nb + 1 < bpr ∧ rd buffer nb = rd buffer (nb + 1)) →
      (∀ j, e.nbyte ≤ j → j + 1 < nb → rd buffer j ≠ rd buffer (j + 1)) →
      ∃ e1, (if uc > 0 then
          (emit { e with nbyte := nb } (Int.lor (uc - 1) PLOT_ARBITRARY_DATA_MASK)).bind fun a =>
          (forLoop (nb - uc) nb (fun i e => (rd buffer i).bind fun v => emit e (v : Int)) a).bind
            fun a => pure ({ a with runs := a.runs ++
              [⟨PLOT_ARBITRARY_DATA_MASK, uc, nb - uc, nb, e.nout⟩] } : Enc)
          else pure { e with nbyte := nb }) = some e1 ∧ e.nbyte ≤ e1.nbyte ∧ e1.nbyte ≤ bpr ∧
        e1.outbuffer.length = e.outbuffer.length ∧
        (∀ j, j < e.nout → rd e1.outbuffer j = rd e.outbuffer j) ∧
        (e1.nbyte < bpr → e1.nbyte - e.nbyte < 64 →
          e1.nbyte + 1 < bpr ∧ rd buffer e1.nbyte = rd buffer (e1.nbyte + 1)) ∧
        ((e1.nbyte = e.nbyte ∧ e1.nout = e.nout ∧ e1.runs = e.runs) ∨
         (∃ r, e1.runs = e.runs ++ [r] ∧ r.first = e.nbyte ∧ r.next = e1.nbyte ∧
            r.first < r.next ∧ r.hdr = e.nout ∧ e1.nout = e.nout + r.size ∧
            r.size ≤ 2 * (r.next - r.first) ∧
            Run.Sound buffer bpr e1.outbuffer r)) := by
    intro uc nb hlo hu0 hu64 hnb hstop hadj
    by_cases hpos : uc > 0
    · rw [if_pos hpos]
      obtain ⟨e1, he1, q1, q2, q3, q4, q5, q6, q7⟩ :=
        uniqueOut_spec buffer { e with nbyte := nb } nb uc
          (Int.lor (uc - 1) PLOT_ARBITRARY_DATA_MASK)
          ⟨PLOT_ARBITRARY_DATA_MASK, uc, nb - uc, nb, e.nout⟩ (by omega) (by omega) (by omega)
          hn (by show e.nout + 1 + uc ≤ (e.outbuffer.length : Int); omega)
      have hsz : Run.size ⟨PLOT_ARBITRARY_DATA_MASK, uc, nb - uc, nb, e.nout⟩ = uc + 1 := by
        simp [Run.size]
      refine ⟨e1, he1, by rw [q1]; show e.nbyte ≤ nb; omega, by rw [q1]; exact hnb, q3, q4,
        by rw [q1]; exact fun a b => hstop a (by
          show uc < 64
          have : nb - e.nbyte < 64 := b
          omega),
        Or.inr ⟨_, q5, hlo, by rw [q1], by show nb - uc < nb; omega, rfl,
          by rw [q2, hsz]; show e.nout + 1 + uc = e.nout + (uc + 1); ring,
          by rw [hsz]; show uc + 1 ≤ 2 * (nb - (nb - uc)); omega,
          Or.inl ⟨rfl, by show 1 ≤ uc; omega, hu64, by show nb = nb - uc + uc; ring,
            ?_, ?_, ?_⟩⟩⟩
      · show rd e1.outbuffer e.nout = _
        have : rd e1.outbuffer e.nout = _ := q6
        rw [this, lor_mod _ _ (by omega) (by omega) (Or.inr (Or.inr rfl))]
      · intro j hj0 hj
        have := q7 j hj0 hj
        exact this
      · intro j hj1 hj2
        exact hadj j (by have : nb - uc ≤ j := hj1; omega) hj2
    · rw [if_neg hpos]
      have huc : uc = 0 := by omega
      subst huc
      refine ⟨{ e with nbyte := nb }, rfl, by show e.nbyte ≤ nb; omega, hnb, rfl,
        fun _ _ => rfl, fun a _ => hstop a (by omega),
        Or.inl ⟨by show nb = e.nbyte; omega, rfl, rfl⟩⟩
  simp only [uniquePart, hs, Option.bind_eq_bind, Option.some_bind]
  by_cases hc : u2 ≠ MAX_REPEAT ∧ n2 ≠ bpr
  · rw [if_pos hc]
    simp only []
    rw [hM] at hc
    apply key (u2 - 1) (n2 - 1) (by omega) (by omega) (by omega) (by omega)
    · intro hlt _
      have hn2 : n2 < bpr := by omega
      have := p6 hn2 (hmin u2 (by omega) (by omega))
      refine ⟨by omega, ?_⟩
      rw [p5]
      have h : n2 - 1 + 1 = n2 := by ring
      rw [h, this]
    · intro j hj1 hj2
      exact p7 j hj1 (by omega)
  · rw [if_neg hc]
    simp only []
    rw [hM] at hc
    have hc2 : u2 = 64 ∨ n2 = bpr := by
      by_contra h
      push_neg at h
      exact hc ⟨h.1, h.2⟩
    apply key u2 n2 (by omega) (by omega) (by omega) (by omega)
    · intro hlt hu
      omega
    · intro j hj1 hj2
      exact p7 j hj1 hj2

theorem emit2_spec (e : Enc) (a b nb : Int) (r : Run) (hn : 0 ≤ e.nout)
    (hroom : e.nout + 2 ≤ e.outbuffer.length) :
    ∃ e2, ((emit e a).bind fun x => (emit x b).bind fun y =>
        pure ({ y with nbyte := nb, runs := y.runs ++ [r] } : Enc)) = some e2 ∧
      e2.nbyte = nb ∧ e2.nout = e.nout + 2 ∧ e2.runs = e.runs ++ [r] ∧
      e2.outbuffer.length = e.outbuffer.length ∧
      (∀ j, j < e.nout → rd e2.outbuffer j = rd e.outbuffer j) ∧
      rd e2.outbuffer e.nout = some (a % 256).toNat ∧
      rd e2.outbuffer (e.nout + 1) = some (b % 256).toNat := by
  obtain ⟨x, hx, hxx, hxc⟩ := emit_spec e a hn (by omega)
  obtain ⟨y, hy, hyx, hyc⟩ := emit_spec x b (by rw [hxx.nout]; omega)
    (by rw [hxx.nout, hxx.len]; omega)
  refine ⟨{ y with nbyte := nb, runs := y.runs ++ [r] }, by simp [hx, hy], rfl, ?_, ?_, ?_,
    ?_, ?_, ?_⟩
  · show y.nout = _
    rw [hyx.nout, hxx.nout]; ring
  · show y.runs ++ [r] = _
    rw [hyx.runs, hxx.runs]
  · show y.outbuffer.length = _
    rw [hyx.len, hxx.len]
  · intro j hj
    show rd y.outbuffer j = _
    rw [hyx.keep j (by rw [hxx.nout]; omega), hxx.keep j hj]
  · show rd y.outbuffer _ = _
    rw [hyx.keep _ (by rw [hxx.nout]; omega), hxc]
  · show rd y.outbuffer _ = _
    rw [← hxx.nout, hyc]

theorem equalPart_spec (buffer : List Nat) (bpr : Int) (e : Enc) (hlen : bpr ≤ buffer.length)
    (h0 : 0 ≤ e.nbyte) (h1 : e.nbyte < bpr)
    (hn : 0 ≤ e.nout) (hn2 : e.nout ≤ 2 * e.nbyte) (hcap : 2 * bpr ≤ e.outbuffer.length) :
    ∃ e2, equalPart buffer bpr e = some e2 ∧ e.nbyte ≤ e2.nbyte ∧ e2.nbyte ≤ bpr ∧
      e2.outbuffer.length = e.outbuffer.length ∧
      (∀ j, j < e.nout → rd e2.outbuffer j = rd e.outbuffer j) ∧
      ((e2.nbyte = e.nbyte ∧ e2.nout = e.nout ∧ e2.runs = e.runs ∧
          ¬ (e.nbyte + 1 < bpr ∧ rd buffer e.nbyte = rd buffer (e.nbyte + 1))) ∨
       (∃ r, e2.runs = e.runs ++ [r] ∧ r.first = e.nbyte ∧ r.next = e2.nbyte ∧
          r.first < r.next ∧ r.hdr = e.nout ∧ e2.nout = e.nout + r.size ∧
          r.size ≤ 2 * (r.next - r.first) ∧
          Run.Sound buffer bpr e2.outbuffer r)) := by
  obtain ⟨o, n2, c2, hs, p1, p2, p3, p4, p5, p6, p7⟩ :=
    equalScan_spec buffer bpr hlen scanFuel e.nbyte 0 h0 (by omega) (by omega)
      (by simp [scanFuel]) (by simp [scanFuel])
  have hM : MAX_REPEAT = 64 := rfl
  simp only [equalPart, hs, Option.bind_eq_bind, Option.some_bind]
  by_cases hc : c2 > 1
  · rw [if_pos hc]
    have ho1 : rd buffer (n2 - 1) = some o := p5 _ (by omega) (by omega)
    by_cases hz : (o : Int) = 0
    · rw [if_pos hz]
      have hz2 : o = 0 := by exact_mod_cast hz
      subst hz2
      by_cases hend : n2 ≥ bpr - 1
      · rw [if_pos hend]
        simp only [ho1, Option.some_bind]
        obtain ⟨e2, he2, q1, q2, q3, q4, q5, q6, q7⟩ := emit2_spec e
          (Int.lor (c2 - 2) SKIP_AND_PLOT_MASK) ((0 : Nat) : Int) n2
          ⟨SKIP_AND_PLOT_MASK, c2, e.nbyte, n2, e.nout⟩ hn (by omega)
        refine ⟨e2, he2, by omega, by omega, q4, q5, Or.inr ⟨_, q3, rfl, q1.symm, p1, rfl,
          by rw [q2]; simp [Run.size, SKIP_AND_PLOT_MASK, PLOT_ARBITRARY_DATA_MASK],
          by simp [Run.size, SKIP_AND_PLOT_MASK, PLOT_ARBITRARY_DATA_MASK]; omega,
          Or.inr (Or.inr (Or.inl ⟨rfl, by show 2 ≤ c2; omega, by show c2 ≤ 64; omega,
            by show n2 = e.nbyte + c2; omega, hend, ?_, p5, ?_⟩))⟩⟩
        · show rd e2.outbuffer e.nout = _
          rw [q6, lor_mod _ _ (by omega) (by omega) (Or.inl rfl)]
        · show rd e2.outbuffer (e.nout + 1) = _
          rw [q7]
          rfl
      · rw [if_neg hend]
        obtain ⟨v, hv⟩ := rd_lt (a := buffer) (i := n2) (by omega) (by omega)
        simp only [hv, Option.some_bind]
        obtain ⟨e2, he2, q1, q2, q3, q4, q5, q6, q7⟩ := emit2_spec e
          (Int.lor (c2 - 1) SKIP_AND_PLOT_MASK) (v : Int) (n2 + 1)
          ⟨SKIP_AND_PLOT_MASK, c2, e.nbyte, n2 + 1, e.nout⟩ hn (by omega)
        refine ⟨e2, he2, by omega, by omega, q4, q5, Or.inr ⟨_, q3, rfl, q1.symm,
          by show e.nbyte < n2 + 1; omega, rfl,
          by rw [q2]; simp [Run.size, SKIP_AND_PLOT_MASK, PLOT_ARBITRARY_DATA_MASK],
          by simp [Run.size, SKIP_AND_PLOT_MASK, PLOT_ARBITRARY_DATA_MASK]; omega,
          Or.inr (Or.inr (Or.inr ⟨rfl, by show 2 ≤ c2; omega, by show c2 ≤ 64; omega,
            by show n2 + 1 = e.nbyte + c2 + 1; omega, by show n2 + 1 < bpr + 1; omega, ?_,
            fun j hj1 hj2 => p5 j hj1 (by have : j < e.nbyte + c2 := hj2; omega),
            ⟨v, by show rd buffer (n2 + 1 - 1) = _; rw [← hv]; congr 1; ring, ?_⟩⟩))⟩⟩
        · show rd e2.outbuffer e.nout = _
          rw [q6, lor_mod _ _ (by omega) (by omega) (Or.inl rfl)]
        · show rd e2.outbuffer (e.nout + 1) = _
          rw [q7]
          congr 1
    · rw [if_neg hz]
      obtain ⟨e2, he2, q1, q2, q3, q4, q5, q6, q7⟩ := emit2_spec e
        (Int.lor (c2 - 1) REPEAT_PLOT_MASK) (o : Int) n2
        ⟨REPEAT_PLOT_MASK, c2, e.nbyte, n2, e.nout⟩ hn (by omega)
      refine ⟨e2, he2, by omega, by omega, q4, q5, Or.inr ⟨_, q3, rfl, q1.symm, p1, rfl,
        by rw [q2]; simp [Run.size, REPEAT_PLOT_MASK, PLOT_ARBITRARY_DATA_MASK],
        by simp [Run.size, REPEAT_PLOT_MASK, PLOT_ARBITRARY_DATA_MASK]; omega,
        Or.inr (Or.inl ⟨rfl, by show 2 ≤ c2; omega, by show c2 ≤ 64; omega,
          by show n2 = e.nbyte + c2; omega, ?_, o, fun h => hz (by simp [h]), p5, ?_⟩)⟩⟩
      · show rd e2.outbuffer e.nout = _
        rw [q6, lor_mod _ _ (by omega) (by omega) (Or.inr (Or.inl rfl))]
      · show rd e2.outbuffer (e.nout + 1) = _
        rw [q7]
        congr 1
  · rw [if_neg hc]
    have hc1 : c2 = 1 := by omega
    refine ⟨{ e with nbyte := n2 - 1 }, rfl, by show e.nbyte ≤ n2 - 1; omega,
      by show n2 - 1 ≤ bpr; omega, rfl, fun _ _ => rfl,
      Or.inl ⟨by show n2 - 1 = e.nbyte; omega, rfl, rfl, ?_⟩⟩
    rintro ⟨ha, hb⟩
    have hm : (0 : Int) + 1 < MIN bpr MAX_REPEAT := by
      rcases MIN_eq bpr MAX_REPEAT with h | h <;> rw [h] <;> omega
    have := p7 ha hb hm
    omega

theorem Linked.snoc {lo hi : Run → Int} {r : Run} :
    ∀ {rs : List Run} {a b : Int}, Linked lo hi a rs b → lo r = b → lo r < hi r →
      Linked lo hi a (rs ++ [r]) (hi r)
  | [], a, b, h, h1, h2 => by
    have hab : a = b := h
    exact ⟨by rw [h1, hab], h2, rfl⟩
  | x :: xs, a, b, h, h1, h2 => by
    obtain ⟨q1, q2, q3⟩ := h
    exact ⟨q1, q2, Linked.snoc q3 h1 h2⟩

theorem Run.size_pos (r : Run) (h : 0 ≤ r.count) : 1 ≤ r.size := by
  unfold Run.size; split_ifs <;> omega

theorem Run.Sound.count_pos {buffer : List Nat} {bpr : Int} {out : List Nat} {r : Run}
    (h : Run.Sound buffer bpr out r) : 1 ≤ r.count ∧ r.count ≤ 64 := by
  rcases h with h | h | h | h <;> exact ⟨by omega, by omega⟩

theorem Run.Sound.size_eq {buffer : List Nat} {bpr : Int} {out : List Nat} {r : Run}
    (h : Run.Sound buffer bpr out r) :
    (r.tag = PLOT_ARBITRARY_DATA_MASK ∧ r.size = r.count + 1) ∨
    (r.tag ≠ PLOT_ARBITRARY_DATA_MASK ∧ r.size = 2) := by
  rcases h with h | h | h | h
  · exact Or.inl ⟨h.1, by simp [Run.size, h.1]⟩
  all_goals
    refine Or.inr ⟨by rw [h.1]; decide, ?_⟩
    have : r.tag ≠ PLOT_ARBITRARY_DATA_MASK := by rw [h.1]; decide
    simp [Run.size, this]

theorem Run.Sound.keep {buffer : List Nat} {bpr : Int} {out out2 : List Nat} {r : Run} {n : Int}
    (h : Run.Sound buffer bpr out r) (hn : r.hdr + r.size ≤ n)
    (hk : ∀ j, j < n → rd out2 j = rd out j) : Run.Sound buffer bpr out2 r := by
  have hsz := h.size_eq
  rcases h with h | h | h | h
  · obtain ⟨t, c1, c2, nx, hh, lit, adj⟩ := h
    have hs : r.size = r.count + 1 := by
      rcases hsz with hsz | hsz
      · exact hsz.2
      · exact absurd t hsz.1
    refine Or.inl ⟨t, c1, c2, nx, by rw [hk _ (by omega)]; exact hh, ?_, adj⟩
    intro j hj0 hj
    obtain ⟨v, hv1, hv2⟩ := lit j hj0 hj
    exact ⟨v, hv1, by rw [hk _ (by omega)]; exact hv2⟩
  · obtain ⟨t, c1, c2, nx, hh, v, hv0, hall, hl⟩ := h
    have hs : r.size = 2 := by
      rcases hsz with hsz | hsz
      · rw [t] at hsz; exact absurd hsz.1 (by decide)
      · exact hsz.2
    exact Or.inr (Or.inl ⟨t, c1, c2, nx, by rw [hk _ (by omega)]; exact hh, v, hv0, hall,
      by rw [hk _ (by omega)]; exact hl⟩)
  · obtain ⟨t, c1, c2, nx, he, hh, hall, hl⟩ := h
    have hs : r.size = 2 := by
      rcases hsz with hsz | hsz
      · rw [t] at hsz; exact absurd hsz.1 (by decide)
      · exact hsz.2
    exact Or.inr (Or.inr (Or.inl ⟨t, c1, c2, nx, he, by rw [hk _ (by omega)]; exact hh, hall,
      by rw [hk _ (by omega)]; exact hl⟩))
  · obtain ⟨t, c1, c2, nx, he, hh, hall, v, hv, hl⟩ := h
    have hs : r.size = 2 := by
      rcases hsz with hsz | hsz
      · rw [t] at hsz; exact absurd hsz.1 (by decide)
      · exact hsz.2
    exact Or.inr (Or.inr (Or.inr ⟨t, c1, c2, nx, he, by rw [hk _ (by omega)]; exact hh, hall,
      v, hv, by rw [hk _ (by omega)]; exact hl⟩))

theorem EncInv.step {buffer : List Nat} {bpr : Int} {e e1 : Enc} (h : EncInv buffer bpr e)
    (hle : e1.nbyte ≤ bpr)
    (hk : ∀ j, j < e.nout → rd e1.outbuffer j = rd e.outbuffer j)
    (hc : (e1.nbyte = e.nbyte ∧ e1.nout = e.nout ∧ e1.runs = e.runs) ∨
       (∃ r, e1.runs = e.runs ++ [r] ∧ r.first = e.nbyte ∧ r.next = e1.nbyte ∧
          r.first < r.next ∧ r.hdr = e.nout ∧ e1.nout = e.nout + r.size ∧
          r.size ≤ 2 * (r.next - r.first) ∧
          Run.Sound buffer bpr e1.outbuffer r)) : EncInv buffer bpr e1 := by
  rcases hc with ⟨c1, c2, c3⟩ | ⟨r, c1, c2, c3, c4, c5, c6, c7, c8⟩
  · refine ⟨by rw [c1]; exact h.nbyte_nonneg, hle, by rw [c2]; exact h.nout_nonneg,
      by rw [c1, c2]; exact h.nout_le, by rw [c1, c3]; exact h.spans,
      by rw [c2, c3]; exact h.places, ?_⟩
    intro r hr
    rw [c3] at hr
    obtain ⟨s1, s2⟩ := h.sound r hr
    exact ⟨by rw [c2]; exact s1, s2.keep s1 hk⟩
  · have hsz := Run.size_pos r (by have := c8.count_pos; omega)
    have h1 := h.nbyte_nonneg
    have h2 := h.nout_nonneg
    have h3 := h.nout_le
    refine ⟨by omega, hle, by omega, by omega, ?_, ?_, ?_⟩
    · rw [c1, ← c3]
      exact h.spans.snoc c2 c4
    · rw [c1, c6, ← c5]
      exact h.places.snoc (r := r) c5 (by omega)
    · intro x hx
      rw [c1] at hx
      rcases List.mem_append.mp hx with hx | hx
      · obtain ⟨s1, s2⟩ := h.sound x hx
        exact ⟨by omega, s2.keep s1 hk⟩
      · have : x = r := by simpa using hx
        subst this
        exact ⟨by omega, c8⟩

theorem encodePass_spec (buffer : List Nat) (bpr : Int) (e : Enc) (hlen : bpr ≤ buffer.length)
    (h : EncInv buffer bpr e) (h2 : e.nbyte < buffer.length)
    (hcap : 2 * bpr ≤ e.outbuffer.length) :
    ∃ done e2, encodePass buffer bpr e = some (done, e2) ∧ EncInv buffer bpr e2 ∧
      e2.outbuffer.length = e.outbuffer.length ∧
      (e.nbyte < bpr → e.nbyte < e2.nbyte) ∧ (done = true ↔ bpr ≤ e2.nbyte) ∧
      (∀ j, j < e.nout → rd e2.outbuffer j = rd e.outbuffer j) ∧
      e.nout ≤ e2.nout ∧ ∃ rs, e2.runs = e.runs ++ rs := by
  obtain ⟨e1, he1, a1, a2, a3, a4, a5, a6⟩ := uniquePart_spec buffer bpr e hlen h.nbyte_nonneg
    h.nbyte_le h2 h.nout_nonneg h.nout_le hcap
  have i1 : EncInv buffer bpr e1 := h.step a2 a4 a6
  have n1 : e.nout ≤ e1.nout := by
    rcases a6 with a6 | ⟨r, _, _, _, _, _, c6, _, c8⟩
    · omega
    · have := Run.size_pos r (by have := c8.count_pos; omega)
      omega
  have r1 : ∃ rs, e1.runs = e.runs ++ rs := by
    rcases a6 with a6 | ⟨r, c1, _⟩
    · exact ⟨[], by simp [a6.2.2]⟩
    · exact ⟨[r], c1⟩
  simp only [encodePass, he1, Option.bind_eq_bind, Option.some_bind]
  by_cases hd : e1.nbyte ≥ bpr
  · rw [if_pos hd]
    exact ⟨true, e1, rfl, i1, a3, fun _ => by omega, by simp; omega, a4, n1, r1⟩
  · rw [if_neg hd]
    obtain ⟨e2, he2, b1, b2, b3, b4, b5⟩ := equalPart_spec buffer bpr e1 hlen i1.nbyte_nonneg
      (by omega) i1.nout_nonneg i1.nout_le (by rw [a3]; exact hcap)
    have i2 : EncInv buffer bpr e2 := i1.step b2 b4 (by
      rcases b5 with ⟨c1, c2, c3, _⟩ | b5
      · exact Or.inl ⟨c1, c2, c3⟩
      · exact Or.inr b5)
    have n2 : e1.nout ≤ e2.nout := by
      rcases b5 with b5 | ⟨r, _, _, _, _, _, c6, _, c8⟩
      · omega
      · have := Run.size_pos r (by have := c8.count_pos; omega)
        omega
    have r2 : ∃ rs, e2.runs = e.runs ++ rs := by
      obtain ⟨rs, hrs⟩ := r1
      rcases b5 with b5 | ⟨r, c1, _⟩
      · exact ⟨rs, by rw [b5.2.2.1, hrs]⟩
      · exact ⟨rs ++ [r], by rw [c1, hrs, List.append_assoc]⟩
    have prog : e.nbyte < bpr → e.nbyte < e2.nbyte := by
      intro _
      by_cases hq : e.nbyte < e1.nbyte
      · omega
      · have heq : e1.nbyte = e.nbyte := by omega
        obtain ⟨s1, s2⟩ := a5 (by omega) (by omega)
        rcases b5 with ⟨_, _, _, c4⟩ | ⟨r, _, c2, c3, c4, _⟩
        · exact absurd ⟨s1, s2⟩ c4
        · omega
    have keep : ∀ j, j < e.nout → rd e2.outbuffer j = rd e.outbuffer j := fun j hj => by
      rw [b4 j (by omega), a4 j hj]
    simp only [he2, Option.some_bind]
    by_cases hd2 : e2.nbyte ≥ bpr
    · rw [if_pos hd2]
      exact ⟨true, e2, rfl, i2, by rw [b3, a3], prog, by simp; omega, keep, by omega, r2⟩
    · rw [if_neg hd2]
      exact ⟨false, e2, rfl, i2, by rw [b3, a3], prog, by simp; omega, keep, by omega, r2⟩

theorem encodeLoop_spec (buffer : List Nat) (bpr : Int) (hlen : bpr ≤ buffer.length) :
    ∀ (fuel : Nat) (e : Enc), EncInv buffer bpr e → e.nbyte < buffer.length →
      2 * bpr ≤ e.outbuffer.length → (bpr - e.nbyte).toNat + 1 ≤ fuel →
      ∃ e2, encodeLoop buffer bpr fuel e = some e2 ∧ EncInv buffer bpr e2 ∧ e2.nbyte = bpr ∧
        e2.outbuffer.length = e.outbuffer.length ∧
        (∀ j, j < e.nout → rd e2.outbuffer j = rd e.outbuffer j) ∧
        ∃ rs, e2.runs = e.runs ++ rs := by
  intro fuel
  induction fuel with
  | zero => intro _ _ _ _ h; omega
  | succ fuel ih =>
    intro e hi h2 hcap hf
    obtain ⟨done, e1, he1, i1, l1, pr, dn, kp, nn, rs, hrs⟩ :=
      encodePass_spec buffer bpr e hlen hi h2 hcap
    simp only [encodeLoop, he1, Option.bind_eq_bind, Option.some_bind]
    cases done with
    | true =>
      have := dn.mp rfl
      have := i1.nbyte_le
      exact ⟨e1, by simp, i1, by omega, l1, kp, rs, hrs⟩
    | false =>
      have hnd : ¬ bpr ≤ e1.nbyte := fun hh => by simpa using dn.mpr hh
      have hle := hi.nbyte_le
      have hlt : e.nbyte < bpr := by
        by_contra hc
        have heq : e.nbyte = bpr := by omega
        -- a pass that starts at the end of the line leaves at once
        have := i1.spans
        have := hi.nbyte_nonneg
        obtain ⟨e1b, he1b, a1, a2, a3, a4, a5, a6⟩ := uniquePart_spec buffer bpr e hlen
          hi.nbyte_nonneg hi.nbyte_le h2 hi.nout_nonneg hi.nout_le hcap
        simp only [encodePass, he1b, Option.bind_eq_bind, Option.some_bind] at he1
        rw [if_pos (by omega)] at he1
        simp at he1
      have := pr hlt
      obtain ⟨e2, he2, i2, q1, q2, q3, rs2, hrs2⟩ := ih e1 i1 (by omega) (by rw [l1]; exact hcap)
        (by omega)
      refine ⟨e2, by simpa using he2, i2, q1, by rw [q2, l1],
        fun j hj => by rw [q3 j (by omega), kp j hj], rs ++ rs2, by
          rw [hrs2, hrs, List.append_assoc]⟩

theorem encode_spec (buffer : List Nat) (bpr : Int) (out : List Nat) (h0 : 0 ≤ bpr)
    (hlen : bpr ≤ buffer.length) (hpos : 0 < buffer.length) (hcap : 2 * bpr ≤ out.length) :
    ∃ e, encode buffer bpr out = some e ∧ EncInv buffer bpr e ∧ e.nbyte = bpr ∧
      e.outbuffer.length = out.length := by
  have hi : EncInv buffer bpr ⟨0, 0, out, []⟩ :=
    ⟨le_refl 0, h0, le_refl 0, by simp, rfl, rfl, by simp⟩
  obtain ⟨e, he, i, q1, q2, _, _⟩ := encodeLoop_spec buffer bpr hlen (bpr + 1).toNat
    ⟨0, 0, out, []⟩ hi (by simpa using hpos) hcap (by simp; omega)
  exact ⟨e, he, i, q1, q2⟩

/-! ## The bit packer -/

theorem bitVal_le (b : Nat) : bitVal b ≤ 1 := by
  unfold bitVal; split_ifs <;> omega

theorem packedBits_bound (g : Nat → Nat) (j : Nat) :
    ∀ t, t ≤ 8 → packedBits g j t + 2 ^ (8 - t) ≤ 256
  | 0, _ => by simp [packedBits]
  | t + 1, h => by
    have ih := packedBits_bound g j t (by omega)
    have hb := bitVal_le (g (8 * j + t))
    have h2 : (2 : Nat) ^ (8 - t) = 2 * 2 ^ (7 - t) := by
      rw [← pow_succ']
      congr 1
      omega
    have h3 : 8 - (t + 1) = 7 - t := by omega
    have h4 : bitVal (g (8 * j + t)) * 2 ^ (7 - t) ≤ 2 ^ (7 - t) := by
      calc bitVal (g (8 * j + t)) * 2 ^ (7 - t) ≤ 1 * 2 ^ (7 - t) :=
            Nat.mul_le_mul_right _ hb
        _ = 2 ^ (7 - t) := by simp
    rw [packedBits, h3]
    omega

theorem packedBits_lt (g : Nat → Nat) (j : Nat) : packedBits g j 8 < 256 := by
  have := packedBits_bound g j 8 (le_refl 8)
  simp at this
  omega

theorem addBit_eq (s : State) (b : Nat) (h0 : 0 ≤ s.bitshift) (h1 : s.bitshift < 31) :
    (if b = PBM_BLACK then (shl1 s.bitshift).bind fun x => some { s with item := s.item + x }
      else some s) = some { s with item := s.item + (bitVal b : Int) * 2 ^ s.bitshift.toNat } := by
  unfold bitVal
  split_ifs
  · simp [shl1, h0, h1]
  · simp

theorem putbit_step (g : Nat → Nat) (s0 s : State) (m : Nat) (h : PackInv g s0 s m)
    (hroom : m / 8 < s0.newscanline.length) :
    ∃ s2, putbit (g m) s = some s2 ∧ PackInv g s0 s2 (m + 1) := by
  obtain ⟨hi, hb, hsft, hp, hl, hby, hr, hf⟩ := h
  have ht : m % 8 < 8 := Nat.mod_lt _ (by norm_num)
  have hm : m = 8 * (m / 8) + m % 8 := (Nat.div_add_mod m 8).symm
  have hsn : s.bitshift.toNat = 7 - m % 8 := by omega
  have hitem : s.item + (bitVal (g m) : Int) * 2 ^ s.bitshift.toNat
      = ((packedBits g (m / 8) (m % 8 + 1) : Nat) : Int) := by
    rw [packedBits, hi, ← hm, hsn]
    push_cast
    rfl
  have hlt := packedBits_lt g (m / 8)
  have f1 : s.oldscanline = s0.oldscanline := by rw [hf]
  have f2 : s.diff = s0.diff := by rw [hf]
  have f3 : s.buffer = s0.buffer := by rw [hf]
  have f4 : s.outbuffer = s0.outbuffer := by rw [hf]
  have f5 : s.nout = s0.nout := by rw [hf]
  have f6 : s.linerepeat = s0.linerepeat := by rw [hf]
  have f7 : s.stdout = s0.stdout := by rw [hf]
  have f8 : s.runs = s0.runs := by rw [hf]
  unfold putbit
  simp only [Option.bind_eq_bind, Option.pure_def]
  rw [addBit_eq s (g m) (by omega) (by omega), hitem]
  simp only [Option.some_bind]
  by_cases h7 : m % 8 = 7
  · have hd : (m + 1) / 8 = m / 8 + 1 := by omega
    have hmod : (m + 1) % 8 = 0 := by omega
    have hX : packedBits g (m / 8) (m % 8 + 1) = packedBits g (m / 8) 8 := by rw [h7]
    have h8 : s.bitsperitem = 8 := by omega
    have hw : wr s.newscanline ((m / 8 : Nat) : Int) ((packedBits g (m / 8) 8 : Nat) : Int)
        = some (s.newscanline.set (m / 8) (packedBits g (m / 8) 8)) := by
      have e1 : ((m / 8 : Nat) : Int).toNat = m / 8 := Int.toNat_ofNat _
      have e2 : (((packedBits g (m / 8) 8 : Nat) : Int) % 256).toNat = packedBits g (m / 8) 8 := by
        omega
      rw [wr_lt (by omega) (by rw [hl]; exact_mod_cast hroom), e1, e2]
    rw [if_pos h8, hX]
    simp only [putitem, hp, Option.bind_eq_bind, Option.pure_def, Option.some_bind, hw]
    refine ⟨_, rfl, ⟨?_, ?_, ?_, ?_, ?_, ?_, ?_, ?_⟩⟩
    · simp [hmod, packedBits]
    · simp [hmod]
    · simp [hmod]
    · simp [hd]
    · simp [hl]
    · intro j hj
      have hset := rd_set s.newscanline ((m / 8 : Nat) : Int) (j : Int) (packedBits g (m / 8) 8)
        (by omega) (by rw [hl]; exact_mod_cast hroom)
      simp only [Int.toNat_ofNat] at hset
      show rd (s.newscanline.set (m / 8) (packedBits g (m / 8) 8)) j = _
      rw [hset]
      by_cases hj2 : j = m / 8
      · subst hj2; simp
      · rw [if_neg (by exact_mod_cast hj2)]
        exact hby j (by omega)
    · intro j hj
      have hset := rd_set s.newscanline ((m / 8 : Nat) : Int) j (packedBits g (m / 8) 8)
        (by omega) (by rw [hl]; exact_mod_cast hroom)
      simp only [Int.toNat_ofNat] at hset
      show rd (s.newscanline.set (m / 8) (packedBits g (m / 8) 8)) j = _
      rw [hset, if_neg (by rw [hd] at hj; push_cast at hj; omega)]
      exact hr j (by rw [hd] at hj; push_cast at hj; omega)
    · simp only [f1, f2, f3, f4, f5, f6, f7, f8]
  · have hd : (m + 1) / 8 = m / 8 := by omega
    have hmod : (m + 1) % 8 = m % 8 + 1 := by omega
    have hne : ¬ s.bitsperitem = 8 := by omega
    rw [if_neg hne]
    simp only [Option.some_bind]
    refine ⟨_, rfl, ⟨?_, ?_, ?_, ?_, ?_, ?_, ?_, ?_⟩⟩
    · simp [hmod, hd]
    · simp [hmod, hb]
    · simp [hmod, hsft]; ring
    · simp [hd, hp]
    · simp [hl]
    · intro j hj
      exact hby j (by omega)
    · intro j hj
      exact hr j (by rw [hd] at hj; exact hj)
    · simp only [f1, f2, f3, f4, f5, f6, f7, f8]

theorem putbit_loop (g : Nat → Nat) (s0 : State) (v : Int → Nat) (m0 : Nat) :
    ∀ (n : Nat) (s : State), PackInv g s0 s m0 → (∀ i : Nat, i < n → v i = g (m0 + i)) →
      m0 + n ≤ 8 * s0.newscanline.length →
      ∃ s2, forLoop 0 (n : Int) (fun col s => putbit (v col) s) s = some s2 ∧
        PackInv g s0 s2 (m0 + n) := by
  intro n
  induction n with
  | zero =>
    intro s h _ _
    exact ⟨s, forLoop_zero _ _ _ _ (by simp), h⟩
  | succ n ih =>
    intro s h hv hroom
    obtain ⟨s1, hs1, i1⟩ := ih s h (fun i hi => hv i (by omega)) (by omega)
    have e : ((n + 1 : Nat) : Int) - 1 = n := by push_cast; ring
    rw [forLoop_succ _ _ _ _ (by push_cast; omega), e, hs1]
    obtain ⟨s2, hs2, i2⟩ := putbit_step g s0 s1 (m0 + n) i1 (by omega)
    refine ⟨s2, ?_, i2⟩
    rw [Option.some_bind, hv n (by omega)]
    exact hs2

theorem mkCfg_bytesperrow (cols : Nat) : (mkCfg cols).bytesperrow = ((cols + 7) / 8 : Nat) := by
  simp [mkCfg]

theorem mkCfg_padright (cols : Nat) :
    (mkCfg cols).padright = ((8 * ((cols + 7) / 8) - cols : Nat) : Int) := by
  simp [mkCfg]
  omega

theorem mkCfg_cols (cols : Nat) : (mkCfg cols).cols = cols := rfl

theorem packRow_spec (cols : Nat) (bitrow : Nat → Nat) (s : State) (h1 : s.item = 0)
    (h2 : s.bitsperitem = 1) (h3 : s.bitshift = 7)
    (hroom : (cols + 7) / 8 ≤ s.newscanline.length) :
    ∃ new, packRow (mkCfg cols) bitrow s
        = some { s with scanlineptr := some (((cols + 7) / 8 : Nat) : Int), newscanline := new } ∧
      new.length = s.newscanline.length ∧
      (∀ j : Nat, j < (cols + 7) / 8 → rd new j = some (packedByte cols bitrow j)) ∧
      (∀ j : Int, ((cols + 7) / 8 : Nat) ≤ j → rd new j = rd s.newscanline j) := by
  have i0 : PackInv (rowBit cols bitrow) { s with scanlineptr := some 0 }
      { s with scanlineptr := some 0 } 0 :=
    ⟨by simp [packedBits, h1], by simp [h2], by simp [h3], by simp, rfl,
     fun j hj => by omega, fun _ _ => rfl, rfl⟩
  obtain ⟨s1, hs1, i1⟩ := putbit_loop (rowBit cols bitrow) { s with scanlineptr := some 0 }
    (fun col => bitrow col.toNat) 0 cols _ i0
    (fun i hi => by simp [rowBit, hi]) (by show 0 + cols ≤ 8 * s.newscanline.length; omega)
  obtain ⟨s2, hs2, i2⟩ := putbit_loop (rowBit cols bitrow) { s with scanlineptr := some 0 }
    (fun _ => 0) (0 + cols) (8 * ((cols + 7) / 8) - cols) _ i1
    (fun i hi => by simp [rowBit]) (by show _ ≤ 8 * s.newscanline.length; omega)
  have e : 0 + cols + (8 * ((cols + 7) / 8) - cols) = 8 * ((cols + 7) / 8) := by omega
  rw [e] at i2
  have ed : 8 * ((cols + 7) / 8) / 8 = (cols + 7) / 8 := by omega
  have em : 8 * ((cols + 7) / 8) % 8 = 0 := by omega
  obtain ⟨q1, q2, q3, q4, q5, q6, q7, q8⟩ := i2
  rw [ed] at q4 q6 q7
  rw [ed, em] at q1
  rw [em] at q2 q3
  refine ⟨s2.newscanline, ?_, q5, fun j hj => q6 j hj, fun j hj => q7 j hj⟩
  simp only [packRow, mkCfg_cols, mkCfg_padright, Option.bind_eq_bind, hs1, Option.some_bind, hs2]
  rw [q8]
  simp only [q1, q2, q3, q4, packedBits, h1, h2, h3]
  simp

set_option maxRecDepth 100000 in
theorem testBit_bits :
    ∀ b0 b1 b2 b3 b4 b5 b6 b7 : Bool,
      let v := b0.toNat * 128 + b1.toNat * 64 + b2.toNat * 32 + b3.toNat * 16 + b4.toNat * 8 +
        b5.toNat * 4 + b6.toNat * 2 + b7.toNat * 1
      v.testBit 7 = b0 ∧ v.testBit 6 = b1 ∧ v.testBit 5 = b2 ∧ v.testBit 4 = b3 ∧
      v.testBit 3 = b4 ∧ v.testBit 2 = b5 ∧ v.testBit 1 = b6 ∧ v.testBit 0 = b7 := by
  decide

theorem bitVal_eq (b : Nat) : bitVal b = (decide (b = PBM_BLACK)).toNat := by
  unfold bitVal
  split_ifs with h <;> simp [h]

theorem packedBits_testBit (g : Nat → Nat) (j t : Nat) (ht : t < 8) :
    (packedBits g j 8).testBit (7 - t) = decide (g (8 * j + t) = PBM_BLACK) := by
  have h := testBit_bits (decide (g (8 * j + 0) = PBM_BLACK)) (decide (g (8 * j + 1) = PBM_BLACK))
    (decide (g (8 * j + 2) = PBM_BLACK)) (decide (g (8 * j + 3) = PBM_BLACK))
    (decide (g (8 * j + 4) = PBM_BLACK)) (decide (g (8 * j + 5) = PBM_BLACK))
    (decide (g (8 * j + 6) = PBM_BLACK)) (decide (g (8 * j + 7) = PBM_BLACK))
  have e : packedBits g j 8 = (decide (g (8 * j + 0) = PBM_BLACK)).toNat * 128 +
      (decide (g (8 * j + 1) = PBM_BLACK)).toNat * 64 +
      (decide (g (8 * j + 2) = PBM_BLACK)).toNat * 32 +
      (decide (g (8 * j + 3) = PBM_BLACK)).toNat * 16 +
      (decide (g (8 * j + 4) = PBM_BLACK)).toNat * 8 +
      (decide (g (8 * j + 5) = PBM_BLACK)).toNat * 4 +
      (decide (g (8 * j + 6) = PBM_BLACK)).toNat * 2 +
      (decide (g (8 * j + 7) = PBM_BLACK)).toNat * 1 := by
    simp only [packedBits, bitVal_eq]
    norm_num
  rw [e]
  simp only at h
  obtain ⟨h0, h1, h2, h3, h4, h5, h6, h7⟩ := h
  interval_cases t
  · exact h0
  · exact h1
  · exact h2
  · exact h3
  · exact h4
  · exact h5
  · exact h6
  · exact h7

/-! ## The body of the row loop -/

theorem rd_getD {a : List Nat} {i : Int} (h0 : 0 ≤ i) (h1 : i < a.length) :
    rd a i = some (a.getD i.toNat 0) := by
  have : i.toNat < a.length := by omega
  simp [rd, h0, List.getElem?_eq_getElem this, List.getD_eq_getElem?_getD]

theorem rd_natCast (a : List Nat) (n : Nat) : rd a (n : Int) = a[n]? := by
  simp [rd]

theorem forLoop_fill (val : Int → Int) (body : Int → List Nat → Option (List Nat))
    (d : List Nat) :
    ∀ (n : Nat), (∀ (i : Nat) (x : List Nat), i < n → x.length = d.length →
        body i x = wr x i (val i)) → n ≤ d.length →
      ∃ d2, forLoop 0 (n : Int) body d = some d2 ∧ d2.length = d.length ∧
        (∀ j : Nat, j < n → rd d2 j = some (val j % 256).toNat) ∧
        (∀ j : Int, (n : Int) ≤ j → rd d2 j = rd d j) := by
  intro n
  induction n with
  | zero =>
    intro _ _
    exact ⟨d, forLoop_zero _ _ _ _ (by simp), rfl, fun j hj => by omega, fun _ _ => rfl⟩
  | succ n ih =>
    intro hb hn
    obtain ⟨d1, hd1, l1, a1, b1⟩ := ih (fun i x hi hx => hb i x (by omega) hx) (by omega)
    have e : ((n + 1 : Nat) : Int) - 1 = n := by push_cast; ring
    rw [forLoop_succ _ _ _ _ (by push_cast; omega), e, hd1, Option.some_bind,
      hb n d1 (by omega) l1, wr_lt (by omega) (by rw [l1]; exact_mod_cast hn)]
    refine ⟨_, rfl, by simp [l1], ?_, ?_⟩
    · intro j hj
      rw [rd_set _ _ _ _ (by omega) (by rw [l1]; exact_mod_cast hn)]
      by_cases hjn : j = n
      · subst hjn; simp
      · rw [if_neg (by exact_mod_cast hjn)]
        exact a1 j (by omega)
    · intro j hj
      rw [rd_set _ _ _ _ (by omega) (by rw [l1]; exact_mod_cast hn),
        if_neg (by push_cast at hj; omega)]
      exact b1 j (by push_cast at hj; omega)

theorem memcmp_eq_zero : ∀ (a b : List Nat) (n : Nat), n ≤ a.length → n ≤ b.length →
    (memcmp a b n = 0 ↔ ∀ j : Nat, j < n → rd a j = rd b j)
  | _, _, 0, _, _ => by simp [memcmp]
  | [], _, n + 1, h, _ => by simp at h
  | _ :: _, [], n + 1, _, h => by simp at h
  | x :: xs, y :: ys, n + 1, ha, hb => by
    have ih := memcmp_eq_zero xs ys n (by simpa using ha) (by simpa using hb)
    simp only [rd_natCast] at ih ⊢
    unfold memcmp
    by_cases hxy : x = y
    · subst hxy
      rw [if_pos rfl, ih]
      constructor
      · intro h j hj
        cases j with
        | zero => simp
        | succ j => simpa using h j (by omega)
      · intro h j hj
        simpa using h (j + 1) (by omega)
    · rw [if_neg hxy]
      constructor
      · intro h
        exfalso
        apply hxy
        omega
      · intro h
        exfalso
        apply hxy
        simpa using h 0 (by omega)

theorem xorRow_spec (cols : Nat) (s : State) (h1 : s.oldscanline.length = 132)
    (h2 : s.newscanline.length = 132) (h3 : s.diff.length = 132) (hB : (cols + 7) / 8 ≤ 132) :
    ∃ d, xorRow (mkCfg cols) s = some { s with diff := d } ∧ d.length = 132 ∧
      (∀ (j : Nat) (a b : Nat), j < (cols + 7) / 8 → rd s.oldscanline j = some a →
        rd s.newscanline j = some b → rd d j = some ((a ^^^ b) % 256)) ∧
      (∀ j : Int, ((cols + 7) / 8 : Nat) ≤ j → rd d j = rd s.diff j) := by
  obtain ⟨d, hd, l, a, b⟩ := forLoop_fill
    (fun i => (((s.oldscanline.getD i.toNat 0) ^^^ (s.newscanline.getD i.toNat 0) : Nat) : Int))
    (fun i d => (rd s.oldscanline i).bind fun a => (rd s.newscanline i).bind fun b =>
      wr d i ((a ^^^ b : Nat) : Int)) s.diff ((cols + 7) / 8)
    (fun i x hi _ => by
      beta_reduce
      rw [rd_getD (by omega) (by omega), rd_getD (by omega) (by omega)]
      rfl) (by omega)
  refine ⟨d, ?_, by rw [l, h3], ?_, b⟩
  · simp only [xorRow, mkCfg_bytesperrow, Option.bind_eq_bind, Option.pure_def]
    rw [hd]
    rfl
  · intro j x y hj hx hy
    rw [a j hj]
    rw [rd_getD (by omega) (by omega)] at hx hy
    simp only [Int.toNat_ofNat, Option.some.injEq] at hx hy
    simp only [Int.toNat_ofNat, hx, hy]
    congr 1

theorem saveRow_spec (cols : Nat) (s : State) (h1 : s.oldscanline.length = 132)
    (h2 : s.newscanline.length = 132) (hB : (cols + 7) / 8 ≤ 132) :
    ∃ o, saveRow (mkCfg cols) s = some { s with oldscanline := o } ∧ o.length = 132 ∧
      (∀ (j : Nat) (v : Nat), j < (cols + 7) / 8 → rd s.newscanline j = some v →
        rd o j = some (v % 256)) ∧
      (∀ j : Int, ((cols + 7) / 8 : Nat) ≤ j → rd o j = rd s.oldscanline j) := by
  obtain ⟨d, hd, l, a, b⟩ := forLoop_fill
    (fun i => ((s.newscanline.getD i.toNat 0 : Nat) : Int))
    (fun i o => (rd s.newscanline i).bind fun v => wr o i (v : Int)) s.oldscanline
    ((cols + 7) / 8)
    (fun i x hi _ => by
      beta_reduce
      rw [rd_getD (by omega) (by omega)]
      rfl) (by omega)
  refine ⟨d, ?_, by rw [l, h1], ?_, b⟩
  · simp only [saveRow, mkCfg_bytesperrow, Option.bind_eq_bind, Option.pure_def]
    rw [hd]
    rfl
  · intro j x hj hx
    rw [a j hj]
    rw [rd_getD (by omega) (by omega)] at hx
    simp only [Int.toNat_ofNat, Option.some.injEq] at hx
    simp only [Int.toNat_ofNat, hx]
    congr 1

theorem encodeBranch_spec (cols : Nat) (s : State) (h1 : s.buffer.length = 132)
    (h2 : s.diff.length = 132) (h3 : s.outbuffer.length = 266) (hB : (cols + 7) / 8 ≤ 132) :
    ∃ buf e, encodeBranch (mkCfg cols) s = some { s with
        stdout := s.stdout ++ unitCalls s.linerepeat e.outbuffer e.nout
        buffer := buf, outbuffer := e.outbuffer, nout := e.nout, runs := e.runs
        linerepeat := 0 } ∧
      encode buf (((cols + 7) / 8 : Nat) : Int) s.outbuffer = some e ∧
      EncInv buf (((cols + 7) / 8 : Nat) : Int) e ∧ e.nbyte = (((cols + 7) / 8 : Nat) : Int) ∧
      e.outbuffer.length = 266 ∧ buf.length = 132 ∧
      (∀ (j : Nat) (v : Nat), j < (cols + 7) / 8 → rd s.diff j = some v →
        rd buf j = some (v % 256)) ∧
      (∀ j : Int, ((cols + 7) / 8 : Nat) ≤ j → rd buf j = rd s.buffer j) := by
  obtain ⟨d, hd, l, a, b⟩ := forLoop_fill
    (fun i => ((s.diff.getD i.toNat 0 : Nat) : Int))
    (fun i o => (rd s.diff i).bind fun v => wr o i (v : Int)) s.buffer
    ((cols + 7) / 8)
    (fun i x hi _ => by
      beta_reduce
      rw [rd_getD (by omega) (by omega)]
      rfl) (by omega)
  obtain ⟨e, he, ie, nb, le⟩ := encode_spec d (((cols + 7) / 8 : Nat) : Int) s.outbuffer
    (by omega) (by omega) (by omega) (by omega)
  have hw : fwriteOut e.outbuffer e.nout = some (Out.fwrite (e.outbuffer.take e.nout.toNat)) := by
    have := ie.nout_nonneg
    have := ie.nout_le
    simp only [fwriteOut]
    rw [if_pos (by omega)]
  refine ⟨d, e, ?_, he, ie, nb, by rw [le, h3], by rw [l, h1], ?_, b⟩
  · simp only [encodeBranch, mkCfg_bytesperrow, Option.bind_eq_bind, Option.pure_def]
    rw [hd]
    simp only [Option.some_bind, he, hw, unitCalls, List.append_assoc, List.singleton_append,
      List.cons_append, List.nil_append]
  · intro j x hj hx
    rw [a j hj]
    rw [rd_getD (by omega) (by omega)] at hx
    simp only [Int.toNat_ofNat, Option.some.injEq] at hx
    simp only [Int.toNat_ofNat, hx]
    congr 1

theorem repeatBranch_spec (s : State) (h0 : 0 ≤ s.nout) (h1 : s.nout ≤ s.outbuffer.length) :
    repeatBranch s = some (if s.linerepeat + 1 = 62 then
        { s with stdout := s.stdout ++ unitCalls 62 s.outbuffer s.nout, linerepeat := 0 }
      else { s with linerepeat := s.linerepeat + 1 }) := by
  have hw : fwriteOut s.outbuffer s.nout = some (Out.fwrite (s.outbuffer.take s.nout.toNat)) := by
    simp only [fwriteOut]
    rw [if_pos ⟨h0, h1⟩]
  simp only [repeatBranch, Option.bind_eq_bind, Option.pure_def]
  split_ifs with h
  · simp only [hw, Option.some_bind, unitCalls, h, List.append_assoc, List.singleton_append,
      List.cons_append, List.nil_append]
  · rfl

theorem aggregate_spec (cols : Nat) (row : Nat) (s : State)
    (hi : Inv (((cols + 7) / 8 : Nat) : Int) s) (hB : (cols + 7) / 8 ≤ 132) :
    ((memcmp s.buffer s.diff ((cols + 7) / 8) ≠ 0 ∨ row = 0) ∧
      ∃ buf e, aggregate (mkCfg cols) row s = some { s with
          stdout := s.stdout ++ unitCalls s.linerepeat e.outbuffer e.nout
          buffer := buf, outbuffer := e.outbuffer, nout := e.nout, runs := e.runs
          linerepeat := 0 } ∧
        encode buf (((cols + 7) / 8 : Nat) : Int) s.outbuffer = some e ∧
        EncInv buf (((cols + 7) / 8 : Nat) : Int) e ∧
        e.nbyte = (((cols + 7) / 8 : Nat) : Int) ∧
        e.outbuffer.length = 266 ∧ buf.length = 132 ∧
        (∀ (j : Nat) (v : Nat), j < (cols + 7) / 8 → rd s.diff j = some v →
          rd buf j = some (v % 256)) ∧
        (∀ j : Int, ((cols + 7) / 8 : Nat) ≤ j → rd buf j = rd s.buffer j)) ∨
    ((memcmp s.buffer s.diff ((cols + 7) / 8) = 0 ∧ row ≠ 0) ∧
      aggregate (mkCfg cols) row s = some (if s.linerepeat + 1 = 62 then
        { s with stdout := s.stdout ++ unitCalls 62 s.outbuffer s.nout, linerepeat := 0 }
      else { s with linerepeat := s.linerepeat + 1 })) := by
  have hbpr : (mkCfg cols).bytesperrow.toNat = (cols + 7) / 8 := by
    rw [mkCfg_bytesperrow]
    exact Int.toNat_ofNat _
  by_cases h : memcmp s.buffer s.diff ((cols + 7) / 8) ≠ 0 ∨ row = 0
  · left
    refine ⟨h, ?_⟩
    obtain ⟨buf, e, q⟩ := encodeBranch_spec cols s hi.buffer_len hi.diff_len hi.out_len hB
    refine ⟨buf, e, ?_, q.2⟩
    rw [aggregate, hbpr, if_pos h]
    exact q.1
  · right
    have h2 : memcmp s.buffer s.diff ((cols + 7) / 8) = 0 ∧ row ≠ 0 := by
      push_neg at h
      exact h
    refine ⟨h2, ?_⟩
    rw [aggregate, hbpr, if_neg h]
    have := hi.nout_le
    exact repeatBranch_spec s hi.nout_nonneg (by rw [hi.out_len]; push_cast; omega)

theorem aggregate_inv (cols : Nat) (row : Nat) (s : State)
    (hi : Inv (((cols + 7) / 8 : Nat) : Int) s) (hB : (cols + 7) / 8 ≤ 132) :
    ∃ s3, aggregate (mkCfg cols) row s = some s3 ∧ Inv (((cols + 7) / 8 : Nat) : Int) s3 ∧
      s3.oldscanline = s.oldscanline ∧ s3.newscanline = s.newscanline ∧ s3.diff = s.diff ∧
      s3.scanlineptr = s.scanlineptr := by
  rcases aggregate_spec cols row s hi hB with ⟨_, buf, e, h, _, ie, nb, le, lb, _⟩ | ⟨_, h⟩
  · refine ⟨_, h, ⟨hi.item, hi.bitsperitem, hi.bitshift, hi.old_len, hi.new_len, hi.diff_len,
      lb, le, ie.nout_nonneg, ?_⟩, rfl, rfl, rfl, rfl⟩
    have := ie.nout_le
    show e.nout ≤ _
    rw [← nb]
    exact this
  · refine ⟨_, h, ?_⟩
    split_ifs
    · exact ⟨⟨hi.item, hi.bitsperitem, hi.bitshift, hi.old_len, hi.new_len, hi.diff_len,
        hi.buffer_len, hi.out_len, hi.nout_nonneg, hi.nout_le⟩, rfl, rfl, rfl, rfl⟩
    · exact ⟨⟨hi.item, hi.bitsperitem, hi.bitshift, hi.old_len, hi.new_len, hi.diff_len,
        hi.buffer_len, hi.out_len, hi.nout_nonneg, hi.nout_le⟩, rfl, rfl, rfl, rfl⟩

theorem packedByte_lt (cols : Nat) (bitrow : Nat → Nat) (j : Nat) :
    packedByte cols bitrow j < 256 :=
  packedBits_lt _ _

theorem rowBody_spec (cols : Nat) (pix : Nat → Nat → Nat) (row : Nat) (s : State)
    (hc : cols ≤ 1056) (hi : Inv (((cols + 7) / 8 : Nat) : Int) s) :
    ∃ new diff old s3,
      rowBody (mkCfg cols) pix row s = some { s3 with oldscanline := old } ∧
      aggregate (mkCfg cols) row
        { s with scanlineptr := some (((cols + 7) / 8 : Nat) : Int), newscanline := new,
                 diff := diff } = some s3 ∧
      Inv (((cols + 7) / 8 : Nat) : Int) { s3 with oldscanline := old } ∧
      s3.newscanline = new ∧ s3.diff = diff ∧
      s3.scanlineptr = some (((cols + 7) / 8 : Nat) : Int) ∧
      (∀ j : Nat, j < (cols + 7) / 8 → rd new j = some (packedByte cols (pix row) j)) ∧
      (∀ (j : Nat) (a : Nat), j < (cols + 7) / 8 → rd s.oldscanline j = some a →
        rd diff j = some ((a ^^^ packedByte cols (pix row) j) % 256)) ∧
      (∀ j : Nat, j < (cols + 7) / 8 → rd old j = some (packedByte cols (pix row) j)) := by
  have hB : (cols + 7) / 8 ≤ 132 := by omega
  obtain ⟨new, hp, ln, pn, _⟩ := packRow_spec cols (pix row) s hi.item hi.bitsperitem hi.bitshift
    (by rw [hi.new_len]; exact hB)
  obtain ⟨d, hx, ld, pd, _⟩ := xorRow_spec cols
    { s with scanlineptr := some (((cols + 7) / 8 : Nat) : Int), newscanline := new }
    hi.old_len (by rw [← hi.new_len]; exact ln) hi.diff_len hB
  have i2 : Inv (((cols + 7) / 8 : Nat) : Int)
      { s with scanlineptr := some (((cols + 7) / 8 : Nat) : Int), newscanline := new,
               diff := d } :=
    ⟨hi.item, hi.bitsperitem, hi.bitshift, hi.old_len, by rw [← hi.new_len]; exact ln, ld,
     hi.buffer_len, hi.out_len, hi.nout_nonneg, hi.nout_le⟩
  obtain ⟨s3, ha, i3, o3, n3, d3, p3⟩ := aggregate_inv cols row _ i2 hB
  obtain ⟨o, hs, lo, po, _⟩ := saveRow_spec cols s3 i3.old_len i3.new_len hB
  have hle : (mkCfg cols).bytesperrow ≤ GRAPHON_WIDTH_BYTES := by
    rw [mkCfg_bytesperrow]
    show _ ≤ (132 : Int)
    exact_mod_cast hB
  refine ⟨new, d, o, s3, ?_, ha, ?_, n3, d3, p3, pn, ?_, ?_⟩
  · simp only [rowBody, hp, Option.bind_eq_bind, Option.some_bind]
    rw [if_neg (not_not.mpr hle)]
    simp only [hx, Option.some_bind, ha, hs]
  · exact ⟨i3.item, i3.bitsperitem, i3.bitshift, lo, i3.new_len, i3.diff_len, i3.buffer_len,
      i3.out_len, i3.nout_nonneg, i3.nout_le⟩
  · intro j a hj hja
    exact pd j a _ hj hja (pn j hj)
  · intro j hj
    have := po j _ hj (by rw [n3]; exact pn j hj)
    rw [this, Nat.mod_eq_of_lt (packedByte_lt _ _ _)]

/-! ## The row loop and main -/

theorem Indet.arr_length (f : Nat → Nat) (n : Int) : (Indet.arr f n).length = n.toNat := by
  simp [Indet.arr]

theorem clear_loop (b0 o0 : List Nat) :
    ∀ (n : Nat), n ≤ b0.length → n ≤ o0.length →
      ∃ b o, forLoop 0 (n : Int) (fun i (bo : List Nat × List Nat) =>
          (wr bo.2 i 0).bind fun o => (wr bo.1 i 0).bind fun b => some (b, o)) (b0, o0)
          = some (b, o) ∧ b.length = b0.length ∧ o.length = o0.length ∧
        (∀ j : Nat, j < n → rd b j = some 0 ∧ rd o j = some 0) := by
  intro n
  induction n with
  | zero =>
    intro _ _
    exact ⟨b0, o0, forLoop_zero _ _ _ _ (by simp), rfl, rfl, fun j hj => by omega⟩
  | succ n ih =>
    intro hb ho
    obtain ⟨b, o, h, lb, lo, hz⟩ := ih (by omega) (by omega)
    have e : ((n + 1 : Nat) : Int) - 1 = n := by push_cast; ring
    rw [forLoop_succ _ _ _ _ (by push_cast; omega), e, h, Option.some_bind]
    rw [wr_lt (by omega) (by rw [lo]; exact_mod_cast ho),
      wr_lt (by omega) (by rw [lb]; exact_mod_cast hb)]
    refine ⟨_, _, rfl, by simp [lb], by simp [lo], ?_⟩
    intro j hj
    rw [rd_set _ _ _ _ (by omega) (by rw [lb]; exact_mod_cast hb),
      rd_set _ _ _ _ (by omega) (by rw [lo]; exact_mod_cast ho)]
    by_cases hjn : j = n
    · subst hjn; simp
    · rw [if_neg (by exact_mod_cast hjn), if_neg (by exact_mod_cast hjn)]
      exact hz j (by omega)

theorem setup_spec (cols rows : Nat) (u : Indet) :
    ∃ s, setup (mkCfg cols) rows (startState u) = some s ∧
      Inv (((cols + 7) / 8 : Nat) : Int) s ∧ s.linerepeat = 63 ∧
      s.stdout = prologue cols rows ∧ s.nout = 0 ∧
      (∀ j : Nat, j < 132 → rd s.buffer j = some 0 ∧ rd s.oldscanline j = some 0) := by
  obtain ⟨b, o, h, lb, lo, hz⟩ := clear_loop (startState u).buffer (startState u).oldscanline 132
    (by simp [startState, Indet.arr_length, GRAPHON_WIDTH_BYTES, GRAPHON_WIDTH])
    (by simp [startState, Indet.arr_length, GRAPHON_WIDTH_BYTES, GRAPHON_WIDTH])
  have hW : GRAPHON_WIDTH_BYTES = ((132 : Nat) : Int) := by decide
  simp only [setup, Option.bind_eq_bind, Option.pure_def, hW]
  rw [h]
  simp only [Option.some_bind]
  refine ⟨_, rfl, ⟨?_, ?_, ?_, ?_, ?_, ?_, ?_, ?_, ?_, ?_⟩, ?_, ?_, ?_, ?_⟩
  · rfl
  · rfl
  · rfl
  · show o.length = 132
    rw [lo]
    simp [startState, Indet.arr_length, GRAPHON_WIDTH_BYTES, GRAPHON_WIDTH]
  · show (startState u).newscanline.length = 132
    simp [startState, Indet.arr_length, GRAPHON_WIDTH_BYTES, GRAPHON_WIDTH]
  · show (startState u).diff.length = 132
    simp [startState, Indet.arr_length, GRAPHON_WIDTH_BYTES, GRAPHON_WIDTH]
  · show b.length = 132
    rw [lb]
    simp [startState, Indet.arr_length, GRAPHON_WIDTH_BYTES, GRAPHON_WIDTH]
  · show (startState u).outbuffer.length = 266
    simp [startState, Indet.arr_length, GRAPHON_WIDTH_BYTES, GRAPHON_WIDTH]
  · exact le_refl _
  · show (0 : Int) ≤ 2 * _
    omega
  · rfl
  · rfl
  · rfl
  · exact hz

theorem rowLoop_succ (c : Cfg) (pix : Nat → Nat → Nat) :
    ∀ (n row : Nat) (s : State),
      rowLoop c pix (n + 1) row s = (rowLoop c pix n row s).bind (rowBody c pix (row + n))
  | 0, row, s => by
    simp only [rowLoop, Option.bind_eq_bind, Option.some_bind, Nat.add_zero]
    cases rowBody c pix row s <;> rfl
  | n + 1, row, s => by
    have ih := fun s2 => rowLoop_succ c pix n (row + 1) s2
    rw [rowLoop]
    conv_rhs => rw [rowLoop]
    cases h : rowBody c pix row s with
    | none => rfl
    | some s2 =>
      simp only [Option.bind_eq_bind, Option.some_bind]
      rw [ih s2]
      have e : row + 1 + n = row + (n + 1) := by omega
      rw [e]

theorem afterRows_succ (cols rows : Nat) (pix : Nat → Nat → Nat) (u : Indet) (r : Nat) :
    afterRows cols rows pix u (r + 1)
      = (afterRows cols rows pix u r).bind (rowBody (mkCfg cols) pix r) := by
  unfold afterRows
  cases setup (mkCfg cols) rows (startState u) with
  | none => rfl
  | some s =>
    simp only [Option.some_bind]
    rw [rowLoop_succ]
    simp

theorem afterRows_induct (cols rows : Nat) (pix : Nat → Nat → Nat) (u : Indet)
    (hc : cols ≤ 1056) (P : Nat → State → Prop)
    (h0 : ∀ s, setup (mkCfg cols) rows (startState u) = some s → P 0 s)
    (hstep : ∀ r s s2, afterRows cols rows pix u r = some s →
      Inv (((cols + 7) / 8 : Nat) : Int) s → P r s →
      rowBody (mkCfg cols) pix r s = some s2 → P (r + 1) s2) :
    ∀ r, ∃ s, afterRows cols rows pix u r = some s ∧ Inv (((cols + 7) / 8 : Nat) : Int) s ∧
      P r s := by
  intro r
  induction r with
  | zero =>
    obtain ⟨s, hs, hi, _⟩ := setup_spec cols rows u
    exact ⟨s, by simp [afterRows, hs, rowLoop], hi, h0 s hs⟩
  | succ r ih =>
    obtain ⟨s, hs, hi, hp⟩ := ih
    obtain ⟨new, d, old, s3, hb, _, i3, _⟩ := rowBody_spec cols pix r s hc hi
    exact ⟨_, by rw [afterRows_succ, hs, Option.some_bind, hb], i3, hstep r s _ hs hi hp hb⟩

theorem main_spec (cols rows : Nat) (pix : Nat → Nat → Nat) (u : Indet) (hc : cols ≤ 1056) :
    ∃ s, afterRows cols rows pix u rows = some s ∧
      main cols rows pix u
        = some (Outcome.returned 0 (s.stdout ++ [Out.putchar s.linerepeat] ++ epilogue)) := by
  obtain ⟨s, hs, hi, _⟩ := afterRows_induct cols rows pix u hc (fun _ _ => True)
    (fun _ _ => trivial) (fun _ _ _ _ _ _ _ => trivial) rows
  refine ⟨s, hs, ?_⟩
  have hw : ¬ ((cols : Int) > GRAPHON_WIDTH) := by
    show ¬ ((cols : Int) > 1056)
    omega
  have hs2 := hs
  unfold afterRows at hs2
  unfold main
  simp only []
  rw [if_neg hw]
  cases h : setup (mkCfg cols) rows (startState u) with
  | none => rw [h] at hs2; simp at hs2
  | some s0 =>
    rw [h] at hs2
    simp only [Option.some_bind] at hs2
    simp only [Option.bind_eq_bind, Option.some_bind, hs2, putrest, hi.bitsperitem,
      Option.pure_def, epilogue]
    simp

theorem rowBody_cases (cols : Nat) (pix : Nat → Nat → Nat) (row : Nat) (s : State)
    (hc : cols ≤ 1056) (hi : Inv (((cols + 7) / 8 : Nat) : Int) s) :
    ∃ s2, rowBody (mkCfg cols) pix row s = some s2 ∧ Inv (((cols + 7) / 8 : Nat) : Int) s2 ∧
      s2.scanlineptr = some (((cols + 7) / 8 : Nat) : Int) ∧
      (∀ j : Nat, j < (cols + 7) / 8 →
        rd s2.newscanline j = some (packedByte cols (pix row) j)) ∧
      (∀ (j : Nat) (a : Nat), j < (cols + 7) / 8 → rd s.oldscanline j = some a →
        rd s2.diff j = some ((a ^^^ packedByte cols (pix row) j) % 256)) ∧
      (∀ j : Nat, j < (cols + 7) / 8 →
        rd s2.oldscanline j = some (packedByte cols (pix row) j)) ∧
      (((memcmp s.buffer s2.diff ((cols + 7) / 8) ≠ 0 ∨ row = 0) ∧
          ∃ e, encode s2.buffer (((cols + 7) / 8 : Nat) : Int) s.outbuffer = some e ∧
            EncInv s2.buffer (((cols + 7) / 8 : Nat) : Int) e ∧
            e.nbyte = (((cols + 7) / 8 : Nat) : Int) ∧
            s2.outbuffer = e.outbuffer ∧ s2.nout = e.nout ∧ s2.runs = e.runs ∧
            s2.linerepeat = 0 ∧
            s2.stdout = s.stdout ++ unitCalls s.linerepeat e.outbuffer e.nout ∧
            (∀ (j : Nat) (v : Nat), j < (cols + 7) / 8 → rd s2.diff j = some v →
              rd s2.buffer j = some (v % 256)) ∧
            (∀ j : Int, ((cols + 7) / 8 : Nat) ≤ j → rd s2.buffer j = rd s.buffer j)) ∨
       ((memcmp s.buffer s2.diff ((cols + 7) / 8) = 0 ∧ row ≠ 0) ∧
          s2.buffer = s.buffer ∧ s2.outbuffer = s.outbuffer ∧ s2.nout = s.nout ∧
          s2.runs = s.runs ∧
          ((s.linerepeat + 1 = 62 ∧ s2.linerepeat = 0 ∧
              s2.stdout = s.stdout ++ unitCalls 62 s.outbuffer s.nout) ∨
           (s.linerepeat + 1 ≠ 62 ∧ s2.linerepeat = s.linerepeat + 1 ∧
              s2.stdout = s.stdout)))) := by
  have hB : (cols + 7) / 8 ≤ 132 := by omega
  obtain ⟨new, d, old, s3, hb, ha, i3, n3, d3, p3, pn, pd, po⟩ := rowBody_spec cols pix row s hc hi
  have ln : new.length = 132 := by rw [← n3]; exact i3.new_len
  have ld : d.length = 132 := by rw [← d3]; exact i3.diff_len
  have i2 : Inv (((cols + 7) / 8 : Nat) : Int)
      { s with scanlineptr := some (((cols + 7) / 8 : Nat) : Int), newscanline := new,
               diff := d } :=
    ⟨hi.item, hi.bitsperitem, hi.bitshift, hi.old_len, ln, ld,
     hi.buffer_len, hi.out_len, hi.nout_nonneg, hi.nout_le⟩
  refine ⟨_, hb, i3, p3, fun j hj => by show rd s3.newscanline j = _; rw [n3]; exact pn j hj,
    fun j a hj h => by show rd s3.diff j = _; rw [d3]; exact pd j a hj h, po, ?_⟩
  have hd3 : ({ s3 with oldscanline := old } : State).diff = d := d3
  rw [hd3]
  rcases aggregate_spec cols row _ i2 hB with ⟨hm, buf, e, h, he, ie, nb, le, lb, pb, rb⟩ | ⟨hm, h⟩
  · left
    rw [ha] at h
    have h3 := Option.some.inj h
    subst h3
    exact ⟨hm, e, he, ie, nb, rfl, rfl, rfl, rfl, rfl, pb, rb⟩
  · right
    rw [ha] at h
    have h3 := Option.some.inj h
    refine ⟨hm, ?_⟩
    split_ifs at h3 with hq
    · subst h3
      exact ⟨rfl, rfl, rfl, rfl, Or.inl ⟨hq, rfl, rfl⟩⟩
    · subst h3
      exact ⟨rfl, rfl, rfl, rfl, Or.inr ⟨hq, rfl, rfl⟩⟩

theorem rowLoop_add (c : Cfg) (pix : Nat → Nat → Nat) :
    ∀ (a b row : Nat) (s : State),
      rowLoop c pix (a + b) row s = (rowLoop c pix a row s).bind (rowLoop c pix b (row + a))
  | 0, b, row, s => by simp [rowLoop]
  | a + 1, b, row, s => by
    have e : a + 1 + b = (a + b) + 1 := by omega
    rw [e, rowLoop, rowLoop]
    cases h : rowBody c pix row s with
    | none => rfl
    | some s2 =>
      simp only [Option.bind_eq_bind, Option.some_bind]
      rw [rowLoop_add c pix a b (row + 1) s2]
      have e2 : row + 1 + a = row + (a + 1) := by omega
      rw [e2]

/-- The state `afterRows .. r` is the state `main` is in when its loop has gone through
`r` of the rows: `main` is the rest of the loop and the end of the program run from
there. -/
theorem main_through (cols rows : Nat) (pix : Nat → Nat → Nat) (u : Indet) (r : Nat)
    (hc : (cols : Int) ≤ GRAPHON_WIDTH) (hr : r ≤ rows) :
    main cols rows pix u = (afterRows cols rows pix u r).bind fun s =>
      (rowLoop (mkCfg cols) pix (rows - r) r s).bind fun s =>
        (putrest { s with stdout := s.stdout ++ [Out.putchar s.linerepeat] }).bind fun s =>
          some (Outcome.returned 0 s.stdout) := by
  have hw : ¬ ((cols : Int) > GRAPHON_WIDTH) := by omega
  have e : rows = r + (rows - r) := by omega
  unfold main afterRows
  simp only []
  rw [if_neg hw]
  cases h : setup (mkCfg cols) rows (startState u) with
  | none => rfl
  | some s0 =>
    simp only [Option.bind_eq_bind, Option.some_bind, Option.pure_def]
    conv_lhs => rw [e, rowLoop_add]
    simp only [Nat.zero_add]
    cases rowLoop (mkCfg cols) pix r 0 s0 <;> rfl

/-! ## Claims on the encoder: C1 and C5 -/

theorem Linked.sum {lo hi : Run → Int} :
    ∀ {rs : List Run} {a b : Int}, Linked lo hi a rs b →
      (rs.map fun r => hi r - lo r).sum = b - a
  | [], a, b, h => by
    have : a = b := h
    simp [this]
  | x :: xs, a, b, h => by
    obtain ⟨q1, _, q3⟩ := h
    have ih := Linked.sum q3
    simp only [List.map_cons, List.sum_cons, ih]
    omega

/-- C1 (run coverage): for every buffer of 132 bytes of which the first `n` are the
difference map, `1 ≤ n ≤ 132`, the encoder loop leaves with `nbyte = n`; the spans of
the runs it emitted follow one another from 0 to `n`, each starting where the one before
ended and none empty, and their lengths add up to `n`.  Each span is the part of the
buffer its run encodes (`Run.Sound`). -/
theorem run_coverage (buffer out : List Nat) (n : Int)
    (hb : (buffer.length : Int) = GRAPHON_WIDTH_BYTES)
    (ho : (out.length : Int) = 2 * (GRAPHON_WIDTH_BYTES + 1))
    (h1 : 1 ≤ n) (h2 : n ≤ GRAPHON_WIDTH_BYTES) :
    ∃ e, encode buffer n out = some e ∧ e.nbyte = n ∧
      Linked Run.first Run.next 0 e.runs n ∧
      (e.runs.map fun r => r.next - r.first).sum = n ∧
      ∀ r ∈ e.runs, Run.Sound buffer n e.outbuffer r := by
  have hW : GRAPHON_WIDTH_BYTES = 132 := by decide
  rw [hW] at hb ho h2
  obtain ⟨e, he, ie, nb, _⟩ := encode_spec buffer n out (by omega) (by omega) (by omega)
    (by omega)
  have hs := ie.spans
  rw [nb] at hs
  exact ⟨e, he, nb, hs, by rw [Linked.sum hs]; simp, fun r hr => (ie.sound r hr).2⟩

set_option maxRecDepth 100000 in
theorem run_coverage_witness :
    ∃ e, encode sampleBuffer 12 sampleOut = some e ∧ e.nbyte = 12 ∧
      Linked Run.first Run.next 0 e.runs 12 ∧
      (e.runs.map fun r => r.next - r.first).sum = 12 ∧
      ∀ r ∈ e.runs, Run.Sound sampleBuffer 12 e.outbuffer r :=
  run_coverage sampleBuffer sampleOut 12 (by rfl) (by rfl) (by decide) (by decide)

theorem lor_tag_form :
    ∀ n : Nat, n < 64 →
      (0 ≤ Int.lor n 0x40 ∧ Int.lor n 0x40 % 64 = n ∧ Int.lor n 0x40 / 64 * 64 = 0x40) ∧
      (0 ≤ Int.lor n 0x80 ∧ Int.lor n 0x80 % 64 = n ∧ Int.lor n 0x80 / 64 * 64 = 0x80) ∧
      (0 ≤ Int.lor n 0xc0 ∧ Int.lor n 0xc0 % 64 = n ∧ Int.lor n 0xc0 / 64 * 64 = 0xc0) := by
  decide

theorem header_form (out : List Nat) (hdr c tag : Int) (h0 : 0 ≤ c) (h1 : c ≤ 63)
    (ht : tag = SKIP_AND_PLOT_MASK ∨ tag = REPEAT_PLOT_MASK ∨ tag = PLOT_ARBITRARY_DATA_MASK)
    (h : rd out hdr = some (Int.lor c tag).toNat) :
    ∃ b : Nat, rd out hdr = some b ∧ (b : Int) = Int.lor c tag ∧ (b : Int) % 64 = c ∧
      (b : Int) / 64 * 64 = tag := by
  obtain ⟨n, rfl⟩ : ∃ n : Nat, c = n := ⟨c.toNat, by omega⟩
  have hf := lor_tag_form n (by omega)
  have e1 : SKIP_AND_PLOT_MASK = 0x40 := rfl
  have e2 : REPEAT_PLOT_MASK = 0x80 := rfl
  have e3 : PLOT_ARBITRARY_DATA_MASK = 0xc0 := rfl
  rcases ht with rfl | rfl | rfl
  · obtain ⟨a1, a2, a3⟩ := hf.1
    rw [e1] at h ⊢
    exact ⟨_, h, Int.toNat_of_nonneg a1, by rw [Int.toNat_of_nonneg a1]; exact a2,
      by rw [Int.toNat_of_nonneg a1]; exact a3⟩
  · obtain ⟨a1, a2, a3⟩ := hf.2.1
    rw [e2] at h ⊢
    exact ⟨_, h, Int.toNat_of_nonneg a1, by rw [Int.toNat_of_nonneg a1]; exact a2,
      by rw [Int.toNat_of_nonneg a1]; exact a3⟩
  · obtain ⟨a1, a2, a3⟩ := hf.2.2
    rw [e3] at h ⊢
    exact ⟨_, h, Int.toNat_of_nonneg a1, by rw [Int.toNat_of_nonneg a1]; exact a2,
      by rw [Int.toNat_of_nonneg a1]; exact a3⟩

/-- C5 (count bounds): for every buffer of 132 bytes of which the first `n` are the
difference map, `1 ≤ n ≤ 132`, the headers of the runs the encoder emitted lie one run
after the other in `outbuffer[0 .. nout)`, and every header byte is `c | tag` with `tag`
one of 0x40, 0x80, 0xC0 and `0 ≤ c ≤ 63`, so that its low six bits are `c` and its two
high bits are those of `tag`; a run of unique patterns has `ucount` in 1..64, a run of
equal patterns (white or not) has `ecount` in 2..64. -/
theorem count_bounds (buffer out : List Nat) (n : Int)
    (hb : (buffer.length : Int) = GRAPHON_WIDTH_BYTES)
    (ho : (out.length : Int) = 2 * (GRAPHON_WIDTH_BYTES + 1))
    (h1 : 1 ≤ n) (h2 : n ≤ GRAPHON_WIDTH_BYTES) :
    ∃ e, encode buffer n out = some e ∧
      Linked Run.hdr (fun r => r.hdr + r.size) 0 e.runs e.nout ∧
      ∀ r ∈ e.runs,
        (r.tag = SKIP_AND_PLOT_MASK ∨ r.tag = REPEAT_PLOT_MASK ∨
          r.tag = PLOT_ARBITRARY_DATA_MASK) ∧
        (∃ (b : Nat) (c : Int), rd e.outbuffer r.hdr = some b ∧ 0 ≤ c ∧ c ≤ 63 ∧
          (b : Int) = Int.lor c r.tag ∧ (b : Int) % 64 = c ∧ (b : Int) / 64 * 64 = r.tag) ∧
        (r.tag = PLOT_ARBITRARY_DATA_MASK → 1 ≤ r.count ∧ r.count ≤ 64) ∧
        (r.tag ≠ PLOT_ARBITRARY_DATA_MASK → 2 ≤ r.count ∧ r.count ≤ 64) := by
  have hW : GRAPHON_WIDTH_BYTES = 132 := by decide
  rw [hW] at hb ho h2
  obtain ⟨e, he, ie, nb, _⟩ := encode_spec buffer n out (by omega) (by omega) (by omega)
    (by omega)
  refine ⟨e, he, ie.places, ?_⟩
  intro r hr
  obtain ⟨_, hs⟩ := ie.sound r hr
  rcases hs with ⟨t, c1, c2, _, hh, _⟩ | ⟨t, c1, c2, _, hh, _⟩ | ⟨t, c1, c2, _, _, hh, _⟩ |
    ⟨t, c1, c2, _, _, hh, _⟩
  · have ht : r.tag = SKIP_AND_PLOT_MASK ∨ r.tag = REPEAT_PLOT_MASK ∨
        r.tag = PLOT_ARBITRARY_DATA_MASK := Or.inr (Or.inr t)
    rw [← t] at hh
    obtain ⟨b, q1, q2, q3, q4⟩ := header_form _ _ (r.count - 1) _ (by omega) (by omega) ht hh
    exact ⟨ht, ⟨b, r.count - 1, q1, by omega, by omega, q2, q3, q4⟩, fun _ => ⟨c1, c2⟩,
      fun h => absurd t h⟩
  · have ht : r.tag = SKIP_AND_PLOT_MASK ∨ r.tag = REPEAT_PLOT_MASK ∨
        r.tag = PLOT_ARBITRARY_DATA_MASK := Or.inr (Or.inl t)
    rw [← t] at hh
    obtain ⟨b, q1, q2, q3, q4⟩ := header_form _ _ (r.count - 1) _ (by omega) (by omega) ht hh
    exact ⟨ht, ⟨b, r.count - 1, q1, by omega, by omega, q2, q3, q4⟩, fun _ => ⟨by omega, c2⟩,
      fun _ => ⟨c1, c2⟩⟩
  · have ht : r.tag = SKIP_AND_PLOT_MASK ∨ r.tag = REPEAT_PLOT_MASK ∨
        r.tag = PLOT_ARBITRARY_DATA_MASK := Or.inl t
    rw [← t] at hh
    obtain ⟨b, q1, q2, q3, q4⟩ := header_form _ _ (r.count - 2) _ (by omega) (by omega) ht hh
    exact ⟨ht, ⟨b, r.count - 2, q1, by omega, by omega, q2, q3, q4⟩, fun _ => ⟨by omega, c2⟩,
      fun _ => ⟨c1, c2⟩⟩
  · have ht : r.tag = SKIP_AND_PLOT_MASK ∨ r.tag = REPEAT_PLOT_MASK ∨
        r.tag = PLOT_ARBITRARY_DATA_MASK := Or.inl t
    rw [← t] at hh
    obtain ⟨b, q1, q2, q3, q4⟩ := header_form _ _ (r.count - 1) _ (by omega) (by omega) ht hh
    exact ⟨ht, ⟨b, r.count - 1, q1, by omega, by omega, q2, q3, q4⟩, fun _ => ⟨by omega, c2⟩,
      fun _ => ⟨c1, c2⟩⟩

set_option maxRecDepth 100000 in
theorem count_bounds_witness :
    ∃ e, encode sampleBuffer 12 sampleOut = some e ∧
      Linked Run.hdr (fun r => r.hdr + r.size) 0 e.runs e.nout ∧
      ∀ r ∈ e.runs,
        (r.tag = SKIP_AND_PLOT_MASK ∨ r.tag = REPEAT_PLOT_MASK ∨
          r.tag = PLOT_ARBITRARY_DATA_MASK) ∧
        (∃ (b : Nat) (c : Int), rd e.outbuffer r.hdr = some b ∧ 0 ≤ c ∧ c ≤ 63 ∧
          (b : Int) = Int.lor c r.tag ∧ (b : Int) % 64 = c ∧ (b : Int) / 64 * 64 = r.tag) ∧
        (r.tag = PLOT_ARBITRARY_DATA_MASK → 1 ≤ r.count ∧ r.count ≤ 64) ∧
        (r.tag ≠ PLOT_ARBITRARY_DATA_MASK → 2 ≤ r.count ∧ r.count ≤ 64) :=
  count_bounds sampleBuffer sampleOut 12 (by rfl) (by rfl) (by decide) (by decide)

/-! ## Claims on packing and differences: C2, C3 and C4 -/

theorem xor_lt_256 (a b : Nat) (ha : a < 256) (hb : b < 256) : a ^^^ b < 256 :=
  Nat.xor_lt_two_pow (n := 8) ha hb

/-- What the loop over the rows keeps true of `oldscanline`: after `r` rows its first
`bytesperrow` bytes are the packed line of row `r - 1`, or zero before the first row. -/
theorem afterRows_old (cols rows : Nat) (pix : Nat → Nat → Nat) (u : Indet) (hc : cols ≤ 1056)
    (r : Nat) :
    ∃ s, afterRows cols rows pix u r = some s ∧ Inv (((cols + 7) / 8 : Nat) : Int) s ∧
      ∀ j : Nat, j < (cols + 7) / 8 → rd s.oldscanline j = some (prevByte cols pix r j) := by
  refine afterRows_induct cols rows pix u hc
    (fun r s => ∀ j : Nat, j < (cols + 7) / 8 →
      rd s.oldscanline j = some (prevByte cols pix r j)) ?_ ?_ r
  · intro s hs j hj
    obtain ⟨s2, hs2, _, _, _, _, hz⟩ := setup_spec cols rows u
    rw [hs] at hs2
    have := Option.some.inj hs2
    subst this
    simpa [prevByte] using (hz j (by omega)).2
  · intro r s s2 _ hi _ hb j hj
    obtain ⟨s3, hs3, _, _, _, _, po, _⟩ := rowBody_cases cols pix r s hc hi
    rw [hb] at hs3
    have := Option.some.inj hs3
    subst this
    simpa [prevByte] using po j hj

/-- The state after row `r`, with what the row left in the arrays. -/
theorem afterRows_row (cols rows : Nat) (pix : Nat → Nat → Nat) (u : Indet) (hc : cols ≤ 1056)
    (r : Nat) :
    ∃ s0 s, afterRows cols rows pix u r = some s0 ∧ afterRows cols rows pix u (r + 1) = some s ∧
      s.scanlineptr = some (((cols + 7) / 8 : Nat) : Int) ∧
      ∀ j : Nat, j < (cols + 7) / 8 →
        rd s0.oldscanline j = some (prevByte cols pix r j) ∧
        rd s.newscanline j = some (packedByte cols (pix r) j) ∧
        rd s.diff j = some (prevByte cols pix r j ^^^ packedByte cols (pix r) j) ∧
        rd s.oldscanline j = some (packedByte cols (pix r) j) := by
  obtain ⟨s0, hs0, hi, ho⟩ := afterRows_old cols rows pix u hc r
  obtain ⟨s, hs, _, hp, pn, pd, po, _⟩ := rowBody_cases cols pix r s0 hc hi
  refine ⟨s0, s, hs0, by rw [afterRows_succ, hs0, Option.some_bind, hs], hp, ?_⟩
  intro j hj
  refine ⟨ho j hj, pn j hj, ?_, po j hj⟩
  rw [pd j _ hj (ho j hj), Nat.mod_eq_of_lt]
  apply xor_lt_256 _ _ _ (packedByte_lt _ _ _)
  unfold prevByte
  split_ifs
  · norm_num
  · exact packedByte_lt _ _ _

/-- C2 (bit packing is MSB-first): for every width `1 ≤ cols ≤ 1056` and every row `r`
of the image, with the state of the packer carried over from the rows before, the calls
of `putbit` for the row and its padding advance `scanlineptr` by exactly
`(cols + 7) / 8` bytes from the start of `newscanline`, and for every pixel `i < cols`
bit `7 - i % 8` of byte `i / 8` of `newscanline` is set if and only if pixel `i` is
black. -/
theorem msb_first_packing (cols rows : Nat) (pix : Nat → Nat → Nat) (u : Indet) (r : Nat)
    (_h1 : 1 ≤ cols) (h2 : (cols : Int) ≤ GRAPHON_WIDTH) (_hr : r < rows) :
    ∃ s, afterRows cols rows pix u (r + 1) = some s ∧
      s.scanlineptr = some (((cols + 7) / 8 : Nat) : Int) ∧
      ∀ i : Nat, i < cols →
        ∃ b : Nat, rd s.newscanline ((i / 8 : Nat) : Int) = some b ∧
          (b.testBit (7 - i % 8) = true ↔ pix r i = PBM_BLACK) := by
  have hc : cols ≤ 1056 := by
    have : (cols : Int) ≤ 1056 := h2
    omega
  obtain ⟨s0, s, _, hs, hp, hall⟩ := afterRows_row cols rows pix u hc r
  refine ⟨s, hs, hp, ?_⟩
  intro i hi
  refine ⟨_, (hall (i / 8) (by omega)).2.1, ?_⟩
  have ht := packedBits_testBit (rowBit cols (pix r)) (i / 8) (i % 8) (Nat.mod_lt _ (by norm_num))
  rw [Nat.div_add_mod] at ht
  unfold packedByte
  rw [ht]
  simp [rowBit, hi]

theorem msb_first_packing_witness :
    ∃ s, afterRows 8 1 whiteImage zeroIndet (0 + 1) = some s ∧
      s.scanlineptr = some (((8 + 7) / 8 : Nat) : Int) ∧
      ∀ i : Nat, i < 8 →
        ∃ b : Nat, rd s.newscanline ((i / 8 : Nat) : Int) = some b ∧
          (b.testBit (7 - i % 8) = true ↔ whiteImage 0 i = PBM_BLACK) :=
  msb_first_packing 8 1 whiteImage zeroIndet 0 (by decide) (by decide) (by decide)

/-- C3 (padding invariant): for every width `cols ≤ 1056` that is not a multiple of 8
and every row `r` of the image, the low `8 - cols % 8` bits of the last byte of the line
packed for that row are all zero. -/
theorem padding_clear (cols rows : Nat) (pix : Nat → Nat → Nat) (u : Indet) (r : Nat)
    (h8 : cols % 8 ≠ 0) (h2 : (cols : Int) ≤ GRAPHON_WIDTH) (_hr : r < rows) :
    ∃ (s : State) (b : Nat), afterRows cols rows pix u (r + 1) = some s ∧
      rd s.newscanline (((cols + 7) / 8 - 1 : Nat) : Int) = some b ∧
      ∀ k : Nat, k < 8 - cols % 8 → b.testBit k = false := by
  have hc : cols ≤ 1056 := by
    have : (cols : Int) ≤ 1056 := h2
    omega
  obtain ⟨s0, s, _, hs, hp, hall⟩ := afterRows_row cols rows pix u hc r
  refine ⟨s, _, hs, (hall ((cols + 7) / 8 - 1) (by omega)).2.1, ?_⟩
  intro k hk
  have ht := packedBits_testBit (rowBit cols (pix r)) ((cols + 7) / 8 - 1) (7 - k) (by omega)
  have e : 7 - (7 - k) = k := by omega
  rw [e] at ht
  unfold packedByte
  rw [ht]
  have hge : ¬ (8 * ((cols + 7) / 8 - 1) + (7 - k) < cols) := by omega
  simp [rowBit, hge, PBM_BLACK]

theorem padding_clear_witness :
    ∃ (s : State) (b : Nat), afterRows 5 1 blackImage zeroIndet (0 + 1) = some s ∧
      rd s.newscanline (((5 + 7) / 8 - 1 : Nat) : Int) = some b ∧
      ∀ k : Nat, k < 8 - 5 % 8 → b.testBit k = false :=
  padding_clear 5 1 blackImage zeroIndet 0 (by decide) (by decide) (by decide)

/-- C4 (diff correctness): for every image of width `cols ≤ 1056` and every row `r`,
when row `r` has been processed then for every `i < bytesperrow` the array `newscanline`
holds byte `i` of the packed line of row `r`, and `diff[i]` is that byte XOR byte `i` of
the packed line of row `r - 1`, taken as zero for `r = 0`; `oldscanline` held the packed
line of row `r - 1` when the row began and holds that of row `r` when it ends, whichever
branch any row took. -/
theorem diff_correct (cols rows : Nat) (pix : Nat → Nat → Nat) (u : Indet) (r : Nat)
    (h2 : (cols : Int) ≤ GRAPHON_WIDTH) (_hr : r < rows) :
    ∃ s0 s, afterRows cols rows pix u r = some s0 ∧
      afterRows cols rows pix u (r + 1) = some s ∧
      ∀ i : Nat, (i : Int) < (mkCfg cols).bytesperrow →
        rd s0.oldscanline i = some (prevByte cols pix r i) ∧
        rd s.newscanline i = some (packedByte cols (pix r) i) ∧
        rd s.diff i = some (packedByte cols (pix r) i ^^^ prevByte cols pix r i) ∧
        rd s.oldscanline i = some (packedByte cols (pix r) i) := by
  have hc : cols ≤ 1056 := by
    have : (cols : Int) ≤ 1056 := h2
    omega
  obtain ⟨s0, s, hs0, hs, hp, hall⟩ := afterRows_row cols rows pix u hc r
  refine ⟨s0, s, hs0, hs, ?_⟩
  intro i hi
  rw [mkCfg_bytesperrow] at hi
  obtain ⟨a1, a2, a3, a4⟩ := hall i (by exact_mod_cast hi)
  exact ⟨a1, a2, by rw [a3, Nat.xor_comm], a4⟩

theorem diff_correct_witness :
    ∃ s0 s, afterRows 5 2 blackImage zeroIndet 1 = some s0 ∧
      afterRows 5 2 blackImage zeroIndet (1 + 1) = some s ∧
      ∀ i : Nat, (i : Int) < (mkCfg 5).bytesperrow →
        rd s0.oldscanline i = some (prevByte 5 blackImage 1 i) ∧
        rd s.newscanline i = some (packedByte 5 (blackImage 1) i) ∧
        rd s.diff i = some (packedByte 5 (blackImage 1) i ^^^ prevByte 5 blackImage 1 i) ∧
        rd s.oldscanline i = some (packedByte 5 (blackImage 1) i) :=
  diff_correct 5 2 blackImage zeroIndet 1 (by decide) (by decide)

/-! ## Claims on repeat counts and framing: C6 and C7 -/

theorem repeatCounts_append (a b : List Out) :
    repeatCounts (a ++ b) = repeatCounts a ++ repeatCounts b := by
  simp [repeatCounts, List.filterMap_append]

theorem repeatCounts_unit (c : Int) (o : List Nat) (n : Int) : repeatCounts (unitCalls c o n) = [c] := by
  simp [repeatCounts, unitCalls, printfCount, List.filterMap_cons]

theorem repeatCounts_prologue (cols rows : Nat) : repeatCounts (prologue cols rows) = [] := by
  simp [repeatCounts, prologue, printfStart, List.filterMap_cons]

theorem repeatCounts_epilogue : repeatCounts epilogue = [] := by
  simp [repeatCounts, epilogue, List.filterMap_cons]

/-- What the loop over the rows keeps true of the repeat counter and of the counts sent:
before the first row the counter is 63 and nothing was sent; after it the counter is in
0..61, the first count sent is 63 and every later one is in 0..62. -/
theorem afterRows_counts (cols rows : Nat) (pix : Nat → Nat → Nat) (u : Indet)
    (hc : cols ≤ 1056) (r : Nat) :
    ∃ s, afterRows cols rows pix u r = some s ∧ Inv (((cols + 7) / 8 : Nat) : Int) s ∧
      (r = 0 → s.linerepeat = 63 ∧ repeatCounts s.stdout = []) ∧
      (0 < r → 0 ≤ s.linerepeat ∧ s.linerepeat ≤ 61 ∧
        ∃ rest, repeatCounts s.stdout = 63 :: rest ∧ ∀ c ∈ rest, 0 ≤ c ∧ c ≤ 62) := by
  refine afterRows_induct cols rows pix u hc
    (fun r s => (r = 0 → s.linerepeat = 63 ∧ repeatCounts s.stdout = []) ∧
      (0 < r → 0 ≤ s.linerepeat ∧ s.linerepeat ≤ 61 ∧
        ∃ rest, repeatCounts s.stdout = 63 :: rest ∧ ∀ c ∈ rest, 0 ≤ c ∧ c ≤ 62)) ?_ ?_ r
  · intro s hs
    obtain ⟨s2, hs2, _, hl, ho, _⟩ := setup_spec cols rows u
    rw [hs] at hs2
    have := Option.some.inj hs2
    subst this
    exact ⟨fun _ => ⟨hl, by rw [ho, repeatCounts_prologue]⟩, fun h => absurd h (by omega)⟩
  · intro r s s2 _ hi hp hb
    obtain ⟨s3, hs3, _, _, _, _, _, hcase⟩ := rowBody_cases cols pix r s hc hi
    rw [hb] at hs3
    have := Option.some.inj hs3
    subst this
    refine ⟨fun h => absurd h (by omega), fun _ => ?_⟩
    rcases hcase with ⟨hm, e, _, _, _, _, _, _, hl, hso, _⟩ | ⟨⟨_, hr0⟩, _, _, _, _, hsub⟩
    · by_cases hr : r = 0
      · obtain ⟨q1, q2⟩ := hp.1 hr
        refine ⟨by omega, by omega, [], ?_, by simp⟩
        rw [hso, repeatCounts_append, q2, repeatCounts_unit, q1]
        rfl
      · obtain ⟨q1, q2, rest, q3, q4⟩ := hp.2 (by omega)
        refine ⟨by omega, by omega, rest ++ [s.linerepeat], ?_, ?_⟩
        · rw [hso, repeatCounts_append, q3, repeatCounts_unit]
          rfl
        · intro c hc2
          rcases List.mem_append.mp hc2 with h | h
          · exact q4 c h
          · have : c = s.linerepeat := by simpa using h
            omega
    · obtain ⟨q1, q2, rest, q3, q4⟩ := hp.2 (by omega)
      rcases hsub with ⟨h62, hl, hso⟩ | ⟨h62, hl, hso⟩
      · refine ⟨by omega, by omega, rest ++ [62], ?_, ?_⟩
        · rw [hso, repeatCounts_append, q3, repeatCounts_unit]
          rfl
        · intro c hc2
          rcases List.mem_append.mp hc2 with h | h
          · exact q4 c h
          · have : c = 62 := by simpa using h
            omega
      · exact ⟨by omega, by omega, rest, by rw [hso, q3], q4⟩

set_option maxRecDepth 1000000 in
/-- C6, as the claim states it, fails: an all-white image of width 8 with 63 rows makes
the program send the repeat counts 63, 62 and 0, two of which exceed 61. -/
theorem count_62_is_sent :
    ∃ out, main 8 63 whiteImage zeroIndet = some (Outcome.returned 0 out) ∧
      repeatCounts out = [63, 62, 0] ∧ ¬ (∀ c ∈ repeatCounts out, c ≤ 61) :=
  ⟨prologue 8 63 ++ unitCalls 63 [192, 0] 2 ++ unitCalls 62 [192, 0] 2 ++ [Out.putchar 0] ++ epilogue,
    by decide, by decide, by decide⟩

/-- C6, amended (repeat bound): for every image of width at most 1056 the program
returns, the first repeat count it sends is the sentinel 63, and every repeat count it
sends after that is in 0..62. -/
theorem repeat_bound (cols rows : Nat) (pix : Nat → Nat → Nat) (u : Indet)
    (h2 : (cols : Int) ≤ GRAPHON_WIDTH) :
    ∃ out rest, main cols rows pix u = some (Outcome.returned 0 out) ∧
      repeatCounts out = 63 :: rest ∧ ∀ c ∈ rest, 0 ≤ c ∧ c ≤ 62 := by
  have hc : cols ≤ 1056 := by
    have : (cols : Int) ≤ 1056 := h2
    omega
  obtain ⟨s, hs, hm⟩ := main_spec cols rows pix u hc
  obtain ⟨s2, hs2, _, p0, p1⟩ := afterRows_counts cols rows pix u hc rows
  rw [hs] at hs2
  have := Option.some.inj hs2
  subst this
  by_cases hr : rows = 0
  · obtain ⟨q1, q2⟩ := p0 hr
    refine ⟨_, [], hm, ?_, by simp⟩
    rw [repeatCounts_append, repeatCounts_append, q2, repeatCounts_epilogue, q1]
    rfl
  · obtain ⟨q1, q2, rest, q3, q4⟩ := p1 (by omega)
    refine ⟨_, rest ++ [s.linerepeat], hm, ?_, ?_⟩
    · rw [repeatCounts_append, repeatCounts_append, q3, repeatCounts_epilogue]
      simp [repeatCounts]
    · intro c hc2
      rcases List.mem_append.mp hc2 with h | h
      · exact q4 c h
      · have : c = s.linerepeat := by simpa using h
        omega

theorem repeat_bound_witness :
    ∃ out rest, main 8 63 whiteImage zeroIndet = some (Outcome.returned 0 out) ∧
      repeatCounts out = 63 :: rest ∧ ∀ c ∈ rest, 0 ≤ c ∧ c ≤ 62 :=
  repeat_bound 8 63 whiteImage zeroIndet (by decide)

theorem stream_unit (c : Int) (o : List Nat) (n : Int) (h0 : 0 ≤ c) (h1 : c ≤ 255) :
    stream (unitCalls c o n) = c.toNat :: (fmtD (n + 1) ++ 47 :: o.take n.toNat) := by
  have : (c % 256).toNat = c.toNat := by omega
  simp [stream, unitCalls, printfCount, Out.bytes, this]

/-- The repeat counter is in 0..63 between the rows. -/
theorem afterRows_linerepeat (cols rows : Nat) (pix : Nat → Nat → Nat) (u : Indet)
    (hc : cols ≤ 1056) (r : Nat) :
    ∃ s, afterRows cols rows pix u r = some s ∧ Inv (((cols + 7) / 8 : Nat) : Int) s ∧
      0 ≤ s.linerepeat ∧ s.linerepeat ≤ 63 := by
  obtain ⟨s, hs, hi, p0, p1⟩ := afterRows_counts cols rows pix u hc r
  refine ⟨s, hs, hi, ?_⟩
  by_cases hr : r = 0
  · have := (p0 hr).1
    omega
  · obtain ⟨q1, q2, _⟩ := p1 (by omega)
    omega

/-- C7 (unit framing): for every image of width at most 1056 and every row `r`, what the
row writes is one of three things.  When the difference map has changed or the row is
the first, it is the old repeat count, then `nout + 1` in decimal, then `/`, then the
`nout` bytes of `outbuffer` just encoded.  When the counter reaches 62, it is the count
62 followed by the same three parts, with `nout` and `outbuffer` left as they were.
Otherwise it is nothing. -/
theorem unit_framing (cols rows : Nat) (pix : Nat → Nat → Nat) (u : Indet) (r : Nat)
    (h2 : (cols : Int) ≤ GRAPHON_WIDTH) (_hr : r < rows) :
    ∃ s s2, afterRows cols rows pix u r = some s ∧
      afterRows cols rows pix u (r + 1) = some s2 ∧
      0 ≤ s2.nout ∧ ((s2.outbuffer.take s2.nout.toNat).length : Int) = s2.nout ∧
      ((∃ e, encode s2.buffer (mkCfg cols).bytesperrow s.outbuffer = some e ∧
            s2.outbuffer = e.outbuffer ∧ s2.nout = e.nout ∧
            s2.stdout = s.stdout ++ [Out.putchar s.linerepeat, printfCount (s2.nout + 1),
              Out.fwrite (s2.outbuffer.take s2.nout.toNat)] ∧
            stream [Out.putchar s.linerepeat, printfCount (s2.nout + 1),
              Out.fwrite (s2.outbuffer.take s2.nout.toNat)]
              = s.linerepeat.toNat ::
                (fmtD (s2.nout + 1) ++ 47 :: s2.outbuffer.take s2.nout.toNat)) ∨
       (s.linerepeat + 1 = 62 ∧ s2.outbuffer = s.outbuffer ∧ s2.nout = s.nout ∧
            s2.stdout = s.stdout ++ [Out.putchar 62, printfCount (s2.nout + 1),
              Out.fwrite (s2.outbuffer.take s2.nout.toNat)] ∧
            stream [Out.putchar 62, printfCount (s2.nout + 1),
              Out.fwrite (s2.outbuffer.take s2.nout.toNat)]
              = 62 :: (fmtD (s2.nout + 1) ++ 47 :: s2.outbuffer.take s2.nout.toNat)) ∨
       (s.linerepeat + 1 ≠ 62 ∧ s2.outbuffer = s.outbuffer ∧ s2.nout = s.nout ∧
            s2.stdout = s.stdout)) := by
  have hc : cols ≤ 1056 := by
    have : (cols : Int) ≤ 1056 := h2
    omega
  obtain ⟨s, hs, hi, l0, l1⟩ := afterRows_linerepeat cols rows pix u hc r
  obtain ⟨s2, hb, i2, _, _, _, _, hcase⟩ := rowBody_cases cols pix r s hc hi
  have hlen : ((s2.outbuffer.take s2.nout.toNat).length : Int) = s2.nout := by
    have := i2.nout_nonneg
    have := i2.nout_le
    have := i2.out_len
    rw [List.length_take]
    omega
  refine ⟨s, s2, hs, by rw [afterRows_succ, hs, Option.some_bind, hb], i2.nout_nonneg, hlen, ?_⟩
  rcases hcase with ⟨_, e, he, _, _, ho, hn, _, _, hso, _⟩ | ⟨_, _, ho, hn, _, hsub⟩
  · left
    refine ⟨e, by rw [mkCfg_bytesperrow]; exact he, ho, hn, ?_, ?_⟩
    · rw [hso, ho, hn]
      rfl
    · exact stream_unit _ _ _ l0 (by omega)
  · rcases hsub with ⟨h62, _, hso⟩ | ⟨h62, _, hso⟩
    · right; left
      refine ⟨h62, ho, hn, ?_, ?_⟩
      · rw [hso, ho, hn]
        rfl
      · exact stream_unit 62 _ _ (by omega) (by omega)
    · right; right
      exact ⟨h62, ho, hn, hso⟩

theorem unit_framing_witness :
    ∃ s s2, afterRows 8 1 whiteImage zeroIndet 0 = some s ∧
      afterRows 8 1 whiteImage zeroIndet (0 + 1) = some s2 ∧
      0 ≤ s2.nout ∧ ((s2.outbuffer.take s2.nout.toNat).length : Int) = s2.nout ∧
      ((∃ e, encode s2.buffer (mkCfg 8).bytesperrow s.outbuffer = some e ∧
            s2.outbuffer = e.outbuffer ∧ s2.nout = e.nout ∧
            s2.stdout = s.stdout ++ [Out.putchar s.linerepeat, printfCount (s2.nout + 1),
              Out.fwrite (s2.outbuffer.take s2.nout.toNat)] ∧
            stream [Out.putchar s.linerepeat, printfCount (s2.nout + 1),
              Out.fwrite (s2.outbuffer.take s2.nout.toNat)]
              = s.linerepeat.toNat ::
                (fmtD (s2.nout + 1) ++ 47 :: s2.outbuffer.take s2.nout.toNat)) ∨
       (s.linerepeat + 1 = 62 ∧ s2.outbuffer = s.outbuffer ∧ s2.nout = s.nout ∧
            s2.stdout = s.stdout ++ [Out.putchar 62, printfCount (s2.nout + 1),
              Out.fwrite (s2.outbuffer.take s2.nout.toNat)] ∧
            stream [Out.putchar 62, printfCount (s2.nout + 1),
              Out.fwrite (s2.outbuffer.take s2.nout.toNat)]
              = 62 :: (fmtD (s2.nout + 1) ++ 47 :: s2.outbuffer.take s2.nout.toNat)) ∨
       (s.linerepeat + 1 ≠ 62 ∧ s2.outbuffer = s.outbuffer ∧ s2.nout = s.nout ∧
            s2.stdout = s.stdout)) :=
  unit_framing 8 1 whiteImage zeroIndet 0 (by decide) (by decide)

/-! ## Claim on the forced flush: C9 -/

theorem feed_repeat (c : Cfg) (s : State) (x : Nat × List Nat) (h0 : 0 ≤ s.nout)
    (h1 : s.nout ≤ s.outbuffer.length)
    (hx : x.1 ≠ 0 ∧ memcmp s.buffer x.2 c.bytesperrow.toNat = 0) :
    feed c s x = some (if s.linerepeat + 1 = 62 then
        { s with diff := x.2, stdout := s.stdout ++ unitCalls 62 s.outbuffer s.nout, linerepeat := 0 }
      else { s with diff := x.2, linerepeat := s.linerepeat + 1 }) := by
  have hn : ¬ (memcmp s.buffer x.2 c.bytesperrow.toNat ≠ 0 ∨ x.1 = 0) := by
    rintro (h | h)
    · exact h hx.2
    · exact hx.1 h
  unfold feed aggregate
  rw [if_neg hn]
  exact repeatBranch_spec { s with diff := x.2 } h0 h1

theorem feed_loop (c : Cfg) :
    ∀ (xs : List (Nat × List Nat)) (s : State) (l : Nat), s.linerepeat = l → l < 62 →
      0 ≤ s.nout → s.nout ≤ s.outbuffer.length →
      (∀ x ∈ xs, x.1 ≠ 0 ∧ memcmp s.buffer x.2 c.bytesperrow.toNat = 0) →
      ∃ s2, xs.foldlM (feed c) s = some s2 ∧
        s2.stdout = s.stdout ++
          (List.replicate ((l + xs.length) / 62) (unitCalls 62 s.outbuffer s.nout)).flatten ∧
        s2.linerepeat = ((l + xs.length) % 62 : Nat) ∧
        s2.outbuffer = s.outbuffer ∧ s2.nout = s.nout ∧ s2.buffer = s.buffer
  | [], s, l, hl, hlt, _, _, _ => by
    have e1 : (l + 0) / 62 = 0 := by omega
    have e2 : (l + 0) % 62 = l := by omega
    exact ⟨s, rfl, by rw [List.length_nil, e1]; simp, by rw [List.length_nil, e2]; exact hl,
      rfl, rfl, rfl⟩
  | x :: xs, s, l, hl, hlt, h0, h1, hx => by
    have hf := feed_repeat c s x h0 h1 (hx x (List.mem_cons_self _ _))
    simp only [List.foldlM_cons, Option.bind_eq_bind, hf, Option.some_bind]
    by_cases h62 : s.linerepeat + 1 = 62
    · rw [if_pos h62]
      obtain ⟨s2, q1, q2, q3, q4, q5, q6⟩ := feed_loop c xs
        { s with diff := x.2, stdout := s.stdout ++ unitCalls 62 s.outbuffer s.nout, linerepeat := 0 }
        0 rfl (by omega) h0 h1 (fun y hy => hx y (List.mem_cons_of_mem _ hy))
      have hl61 : l = 61 := by omega
      have e1 : (l + (x :: xs).length) / 62 = (0 + xs.length) / 62 + 1 := by
        simp only [List.length_cons]
        omega
      have e2 : (l + (x :: xs).length) % 62 = (0 + xs.length) % 62 := by
        simp only [List.length_cons]
        omega
      refine ⟨s2, q1, ?_, by rw [q3, e2], q4, q5, q6⟩
      rw [q2, e1, List.replicate_succ, List.flatten_cons, List.append_assoc]
    · rw [if_neg h62]
      obtain ⟨s2, q1, q2, q3, q4, q5, q6⟩ := feed_loop c xs
        { s with diff := x.2, linerepeat := s.linerepeat + 1 }
        (l + 1) (by show s.linerepeat + 1 = _; rw [hl]; push_cast; ring) (by omega) h0 h1
        (fun y hy => hx y (List.mem_cons_of_mem _ hy))
      have e1 : l + (x :: xs).length = l + 1 + xs.length := by
        simp only [List.length_cons]
        omega
      exact ⟨s2, q1, by rw [q2, e1], by rw [q3, e1], q4, q5, q6⟩

/-- C9 (forced flush at the repeat limit): from a state of the aggregator whose counter
is 0 and whose `nout` lies within `outbuffer`, giving it `k` rows, none of them row 0,
whose difference maps are equal to the reference buffer on the first `bytesperrow` bytes,
makes it write exactly `k / 62` times the unit made of the repeat count 62, the byte
count `nout + 1` and the `nout` bytes of `outbuffer`, leave `outbuffer`, `nout` and
`buffer` as they were, and leave the counter at `k % 62`. -/
theorem forced_flush (c : Cfg) (s : State) (xs : List (Nat × List Nat))
    (hl : s.linerepeat = 0) (h0 : 0 ≤ s.nout) (h1 : s.nout ≤ s.outbuffer.length)
    (hx : ∀ x ∈ xs, x.1 ≠ 0 ∧ memcmp s.buffer x.2 c.bytesperrow.toNat = 0) :
    ∃ s2, xs.foldlM (feed c) s = some s2 ∧
      s2.stdout = s.stdout ++
        (List.replicate (xs.length / 62)
          [Out.putchar 62, printfCount (s.nout + 1),
           Out.fwrite (s.outbuffer.take s.nout.toNat)]).flatten ∧
      s2.linerepeat = ((xs.length % 62 : Nat) : Int) ∧
      s2.outbuffer = s.outbuffer ∧ s2.nout = s.nout ∧ s2.buffer = s.buffer := by
  obtain ⟨s2, q1, q2, q3, q4, q5, q6⟩ := feed_loop c xs s 0 (by simpa using hl) (by omega) h0 h1 hx
  simp only [Nat.zero_add] at q2 q3
  exact ⟨s2, q1, q2, q3, q4, q5, q6⟩

set_option maxRecDepth 1000000 in
theorem forced_flush_witness :
    ∃ s2, (sampleRows 70).foldlM (feed (mkCfg 8)) sampleState = some s2 ∧
      s2.stdout = sampleState.stdout ++
        (List.replicate ((sampleRows 70).length / 62)
          [Out.putchar 62, printfCount (sampleState.nout + 1),
           Out.fwrite (sampleState.outbuffer.take sampleState.nout.toNat)]).flatten ∧
      s2.linerepeat = (((sampleRows 70).length % 62 : Nat) : Int) ∧
      s2.outbuffer = sampleState.outbuffer ∧ s2.nout = sampleState.nout ∧
      s2.buffer = sampleState.buffer :=
  forced_flush (mkCfg 8) sampleState (sampleRows 70) (by rfl) (by decide) (by decide)
    (by decide)

set_option maxRecDepth 1000000 in
/-- The forced flush in a run of the whole program: an all-white image of width 8 with
71 rows has 70 rows after the first whose difference maps equal the reference buffer;
the program sends one unit with the count 62, at the 62nd of them, and ends with the
count 8. -/
theorem seventy_repeats :
    main 8 71 whiteImage zeroIndet = some (Outcome.returned 0
      (prologue 8 71 ++
        [Out.putchar 63, printfCount 3, Out.fwrite [0xC0, 0x00],
         Out.putchar 62, printfCount 3, Out.fwrite [0xC0, 0x00],
         Out.putchar 8] ++ epilogue)) := by
  decide

/-! ## Claim on the first row: C8 -/

theorem encode_one_zero (buffer out : List Nat) (hb : rd buffer 0 = some 0)
    (ho : 2 ≤ out.length) :
    ∃ e, encode buffer 1 out = some e ∧ e.nout = 2 ∧ e.outbuffer.take 2 = [192, 0] := by
  match out, ho with
  | a :: b :: rest, _ =>
    have h1 : uniqueScan buffer 1 scanFuel 0 0 = some (0, 1, 1) := by
      simp [uniqueScan, scanFuel, hb]
    have hv : (Int.lor (1 - 1) PLOT_ARBITRARY_DATA_MASK % 256).toNat = 192 := by decide
    have hw1 : wr (a :: b :: rest) 0 (Int.lor (1 - 1) PLOT_ARBITRARY_DATA_MASK)
        = some (192 :: b :: rest) := by
      rw [wr_lt (le_refl 0) (by simp; omega), hv]
      rfl
    have hw2 : wr (192 :: b :: rest) (0 + 1) ((0 : Nat) : Int) = some (192 :: 0 :: rest) := by
      rw [wr_lt (by omega) (by simp)]
      rfl
    have hf : forLoop (1 - 1) 1 (fun i e => (rd buffer i).bind fun v => emit e (v : Int))
        (⟨1, 0 + 1, 192 :: b :: rest, []⟩ : Enc) = some ⟨1, 0 + 1 + 1, 192 :: 0 :: rest, []⟩ := by
      rw [forLoop_succ _ _ _ _ (by omega), forLoop_zero _ _ _ _ (by omega)]
      simp only [Option.some_bind]
      have : ((1 : Int) - 1) = 0 := by norm_num
      rw [this, hb]
      simp only [Option.some_bind, emit, Option.bind_eq_bind, hw2, Option.pure_def]
    refine ⟨⟨1, 2, 192 :: 0 :: rest, [⟨PLOT_ARBITRARY_DATA_MASK, 1, 0, 1, 0⟩]⟩, ?_, rfl, rfl⟩
    have h2 : (1 + 1 : Int).toNat = 1 + 1 := rfl
    simp only [encode, h2, encodeLoop, encodePass, uniquePart, h1, Option.bind_eq_bind,
      Option.some_bind, Option.pure_def]
    have hc : ¬ ((1 : Int) ≠ MAX_REPEAT ∧ (1 : Int) ≠ 1) := by
      rintro ⟨_, h⟩
      exact h rfl
    rw [if_neg hc]
    simp only []
    rw [if_pos (by norm_num : (1 : Int) > 0)]
    simp only [emit, Option.bind_eq_bind, hw1, Option.some_bind, Option.pure_def]
    have hf2 := hf
    simp only [emit, Option.bind_eq_bind, Option.pure_def] at hf2
    rw [hf2]
    simp


theorem afterRows_zero (cols rows : Nat) (pix : Nat → Nat → Nat) (u : Indet) :
    afterRows cols rows pix u 0 = setup (mkCfg cols) rows (startState u) := by
  unfold afterRows
  cases setup (mkCfg cols) rows (startState u) <;> rfl

/-- What one row has written stays written: the output grows from row to row. -/
theorem afterRows_stdout_mono (cols rows : Nat) (pix : Nat → Nat → Nat) (u : Indet)
    (hc : cols ≤ 1056) (r : Nat) :
    ∃ s, afterRows cols rows pix u r = some s ∧ Inv (((cols + 7) / 8 : Nat) : Int) s ∧
      ∀ (k : Nat) (sk : State), k ≤ r → afterRows cols rows pix u k = some sk →
        sk.stdout <+: s.stdout := by
  refine afterRows_induct cols rows pix u hc
    (fun r s => ∀ (k : Nat) (sk : State), k ≤ r → afterRows cols rows pix u k = some sk →
        sk.stdout <+: s.stdout) ?_ ?_ r
  · intro s hs k sk hk hsk
    have hk0 : k = 0 := by omega
    subst hk0
    rw [afterRows_zero, hs] at hsk
    have := Option.some.inj hsk
    subst this
    exact List.prefix_refl _
  · intro r s s2 hs hi hp hb k sk hk hsk
    have hs2 : afterRows cols rows pix u (r + 1) = some s2 := by
      rw [afterRows_succ, hs, Option.some_bind, hb]
    by_cases hkr : k = r + 1
    · subst hkr
      rw [hs2] at hsk
      have := Option.some.inj hsk
      subst this
      exact List.prefix_refl _
    · have h1 := hp k sk (by omega) hsk
      obtain ⟨s3, hs3, _, _, _, _, _, hcase⟩ := rowBody_cases cols pix r s hc hi
      rw [hb] at hs3
      have := Option.some.inj hs3
      subst this
      have h2 : s.stdout <+: s2.stdout := by
        rcases hcase with ⟨_, e, _, _, _, _, _, _, _, hso, _⟩ | ⟨_, _, _, _, _, hsub⟩
        · rw [hso]; exact List.prefix_append _ _
        · rcases hsub with ⟨_, _, hso⟩ | ⟨_, _, hso⟩
          · rw [hso]; exact List.prefix_append _ _
          · rw [hso]
      exact h1.trans h2

theorem first_row (cols rows : Nat) (pix : Nat → Nat → Nat) (u : Indet) (hc : cols ≤ 1056) :
    ∃ s0 s e, afterRows cols rows pix u 0 = some s0 ∧ afterRows cols rows pix u 1 = some s ∧
      2 ≤ s0.outbuffer.length ∧
      (∀ j : Nat, j < (cols + 7) / 8 →
        rd s.diff j = some (packedByte cols (pix 0) j) ∧
        rd s.buffer j = some (packedByte cols (pix 0) j)) ∧
      encode s.buffer (((cols + 7) / 8 : Nat) : Int) s0.outbuffer = some e ∧
      s.linerepeat = 0 ∧
      s.stdout = prologue cols rows ++ [Out.putchar 63, printfCount (e.nout + 1),
        Out.fwrite (e.outbuffer.take e.nout.toNat)] := by
  obtain ⟨s0, hs0, i0, hl, hso, _, hz⟩ := setup_spec cols rows u
  obtain ⟨s, hb, _, _, _, pd, _, hcase⟩ := rowBody_cases cols pix 0 s0 hc i0
  have hdiff : ∀ j : Nat, j < (cols + 7) / 8 → rd s.diff j = some (packedByte cols (pix 0) j) := by
    intro j hj
    rw [pd j 0 hj (hz j (by omega)).2, Nat.zero_xor, Nat.mod_eq_of_lt (packedByte_lt _ _ _)]
  rcases hcase with ⟨_, e, he, _, _, _, _, _, hl2, hso2, pb, _⟩ | ⟨⟨_, h⟩, _⟩
  · refine ⟨s0, s, e, by rw [afterRows_zero, hs0],
      by rw [afterRows_succ, afterRows_zero, hs0, Option.some_bind, hb],
      by rw [i0.out_len]; omega, ?_, he, hl2, ?_⟩
    · intro j hj
      refine ⟨hdiff j hj, ?_⟩
      rw [pb j _ hj (hdiff j hj), Nat.mod_eq_of_lt (packedByte_lt _ _ _)]
    · rw [hso2, hso, hl]
      rfl
  · exact absurd rfl h

/-- C8 (the first row is always encoded): for every image of width at most 1056 with at
least one row, row 0 makes the program write, right after the initialization framing,
the sentinel 63, then the byte count and the encoding of `buffer`, which holds the
packed line of row 0, whether that line is all zero or not; the program returns and its
output begins with these calls.  A single all-white row of width 8 packs to the byte 00,
and the output is then the initialization framing, the bytes 3F 33 2F C0 00 00 (the
sentinel, the count "3/", the run of one unique zero byte, the last repeat count 0), and
the closing framing. -/
theorem first_row_encoded (cols rows : Nat) (pix : Nat → Nat → Nat) (u : Indet)
    (h2 : (cols : Int) ≤ GRAPHON_WIDTH) (_hr : 1 ≤ rows) :
    (∃ s0 s e out, afterRows cols rows pix u 0 = some s0 ∧
      afterRows cols rows pix u 1 = some s ∧
      (∀ j : Nat, (j : Int) < (mkCfg cols).bytesperrow →
        rd s.diff j = some (packedByte cols (pix 0) j) ∧
        rd s.buffer j = some (packedByte cols (pix 0) j)) ∧
      encode s.buffer (mkCfg cols).bytesperrow s0.outbuffer = some e ∧
      s.stdout = prologue cols rows ++ [Out.putchar 63, printfCount (e.nout + 1),
        Out.fwrite (e.outbuffer.take e.nout.toNat)] ∧
      main cols rows pix u = some (Outcome.returned 0 out) ∧ s.stdout <+: out) ∧
    packedByte 8 (whiteImage 0) 0 = 0x00 ∧
    (∀ v : Indet, ∃ out, main 8 1 whiteImage v = some (Outcome.returned 0 out) ∧
      out = prologue 8 1 ++ [Out.putchar 63, printfCount 3, Out.fwrite [0xC0, 0x00],
        Out.putchar 0] ++ epilogue ∧
      stream out = stream (prologue 8 1) ++ [0x3F, 0x33, 0x2F, 0xC0, 0x00, 0x00] ++
        stream epilogue) := by
  have hc : cols ≤ 1056 := by
    have : (cols : Int) ≤ 1056 := h2
    omega
  have hp : packedByte 8 (whiteImage 0) 0 = 0 := by decide
  refine ⟨?_, hp, ?_⟩
  · obtain ⟨s0, s, e, hs0, hs, _, hbuf, he, _, hso⟩ := first_row cols rows pix u hc
    obtain ⟨sn, hsn, hm⟩ := main_spec cols rows pix u hc
    obtain ⟨sn2, hsn2, _, hmono⟩ := afterRows_stdout_mono cols rows pix u hc rows
    rw [hsn] at hsn2
    have := Option.some.inj hsn2
    subst this
    refine ⟨s0, s, e, _, hs0, hs, ?_, by rw [mkCfg_bytesperrow]; exact he, hso, hm, ?_⟩
    · intro j hj
      rw [mkCfg_bytesperrow] at hj
      exact hbuf j (by exact_mod_cast hj)
    · rw [List.append_assoc]
      exact (hmono 1 s (by omega) hs).trans (List.prefix_append _ _)
  · intro v
    obtain ⟨s0, s, e, hs0, hs, hlen, hbuf, he, hl, hso⟩ := first_row 8 1 whiteImage v (by omega)
    obtain ⟨sn, hsn, hm⟩ := main_spec 8 1 whiteImage v (by omega)
    rw [hs] at hsn
    have := Option.some.inj hsn
    subst this
    have hz : rd s.buffer 0 = some 0 := by
      have := (hbuf 0 (by decide)).2
      rw [hp] at this
      exact this
    have he2 : encode s.buffer 1 s0.outbuffer = some e := he
    obtain ⟨e2, he3, hn, ht⟩ := encode_one_zero s.buffer s0.outbuffer hz hlen
    rw [he2] at he3
    have := Option.some.inj he3
    subst this
    have hout : s.stdout ++ [Out.putchar s.linerepeat] ++ epilogue
        = prologue 8 1 ++ [Out.putchar 63, printfCount 3, Out.fwrite [0xC0, 0x00],
            Out.putchar 0] ++ epilogue := by
      rw [hso, hl, hn]
      have : (2 : Int).toNat = 2 := rfl
      rw [this, ht]
      simp
    refine ⟨_, hm, hout, ?_⟩
    rw [hout]
    simp only [stream, List.flatMap_append]
    rfl

theorem first_row_encoded_witness :
    (∃ s0 s e out, afterRows 8 1 whiteImage zeroIndet 0 = some s0 ∧
      afterRows 8 1 whiteImage zeroIndet 1 = some s ∧
      (∀ j : Nat, (j : Int) < (mkCfg 8).bytesperrow →
        rd s.diff j = some (packedByte 8 (whiteImage 0) j) ∧
        rd s.buffer j = some (packedByte 8 (whiteImage 0) j)) ∧
      encode s.buffer (mkCfg 8).bytesperrow s0.outbuffer = some e ∧
      s.stdout = prologue 8 1 ++ [Out.putchar 63, printfCount (e.nout + 1),
        Out.fwrite (e.outbuffer.take e.nout.toNat)] ∧
      main 8 1 whiteImage zeroIndet = some (Outcome.returned 0 out) ∧ s.stdout <+: out) ∧
    packedByte 8 (whiteImage 0) 0 = 0x00 ∧
    (∀ v : Indet, ∃ out, main 8 1 whiteImage v = some (Outcome.returned 0 out) ∧
      out = prologue 8 1 ++ [Out.putchar 63, printfCount 3, Out.fwrite [0xC0, 0x00],
        Out.putchar 0] ++ epilogue ∧
      stream out = stream (prologue 8 1) ++ [0x3F, 0x33, 0x2F, 0xC0, 0x00, 0x00] ++
        stream epilogue) :=
  first_row_encoded 8 1 whiteImage zeroIndet (by decide) (by decide)

/-! ## Claim on identical rows: C10 -/

theorem packedByte_white (cols : Nat) (bits : Nat → Nat) (hw : ∀ i, i < cols → bits i ≠ PBM_BLACK)
    (j : Nat) : packedByte cols bits j = 0 := by
  have hb : ∀ i, bitVal (rowBit cols bits i) = 0 := by
    intro i
    unfold bitVal rowBit
    by_cases hi : i < cols
    · simp [hi, hw i hi]
    · simp [hi, PBM_BLACK]
  simp [packedByte, packedBits, hb]

theorem packedByte_black (cols : Nat) (bits : Nat → Nat) (i : Nat) (hi : i < cols)
    (hb : bits i = PBM_BLACK) : packedByte cols bits (i / 8) ≠ 0 := by
  intro h0
  have ht := packedBits_testBit (rowBit cols bits) (i / 8) (i % 8) (Nat.mod_lt _ (by norm_num))
  rw [Nat.div_add_mod] at ht
  unfold packedByte at h0
  rw [h0] at ht
  simp [rowBit, hi, hb] at ht

/-- A row whose pixels are those of the row before, met with a reference buffer that is
all zero, only makes the counter go up, as long as the counter does not reach 62. -/
theorem repeat_row (cols : Nat) (bits : Nat → Nat) (r : Nat) (s : State) (hc : cols ≤ 1056)
    (hi : Inv (((cols + 7) / 8 : Nat) : Int) s) (hr : r ≠ 0)
    (hold : ∀ j : Nat, j < (cols + 7) / 8 → rd s.oldscanline j = some (packedByte cols bits j))
    (hbuf : ∀ j : Nat, j < (cols + 7) / 8 → rd s.buffer j = some 0)
    (h62 : s.linerepeat + 1 ≠ 62) :
    ∃ s2, rowBody (mkCfg cols) (fun _ => bits) r s = some s2 ∧
      Inv (((cols + 7) / 8 : Nat) : Int) s2 ∧
      (∀ j : Nat, j < (cols + 7) / 8 → rd s2.oldscanline j = some (packedByte cols bits j)) ∧
      (∀ j : Nat, j < (cols + 7) / 8 → rd s2.buffer j = some 0) ∧
      s2.linerepeat = s.linerepeat + 1 ∧ s2.stdout = s.stdout := by
  obtain ⟨s2, hb, i2, _, _, pd, po, hcase⟩ := rowBody_cases cols (fun _ => bits) r s hc hi
  have hdiff : ∀ j : Nat, j < (cols + 7) / 8 → rd s2.diff j = some 0 := by
    intro j hj
    rw [pd j _ hj (hold j hj), Nat.xor_self]
  have hm : memcmp s.buffer s2.diff ((cols + 7) / 8) = 0 := by
    rw [memcmp_eq_zero _ _ _ (by rw [hi.buffer_len]; omega) (by rw [i2.diff_len]; omega)]
    intro j hj
    rw [hbuf j hj, hdiff j hj]
  rcases hcase with ⟨h | h, _⟩ | ⟨_, hbf, _, _, _, hsub⟩
  · exact absurd hm h
  · exact absurd h hr
  · rcases hsub with ⟨h, _⟩ | ⟨_, hl, hso⟩
    · exact absurd h h62
    · exact ⟨s2, hb, i2, po, fun j hj => by rw [hbf]; exact hbuf j hj, hl, hso⟩

/-- Rows `n .. n + k - 1` of an image whose rows are all alike, met with a reference
buffer that is all zero and a counter that stays below 62, add `k` to the counter and
write nothing. -/
theorem repeat_rows (cols rows : Nat) (bits : Nat → Nat) (u : Indet) (hc : cols ≤ 1056) :
    ∀ (k n : Nat) (s : State), n ≠ 0 → afterRows cols rows (fun _ => bits) u n = some s →
      Inv (((cols + 7) / 8 : Nat) : Int) s →
      (∀ j : Nat, j < (cols + 7) / 8 → rd s.oldscanline j = some (packedByte cols bits j)) →
      (∀ j : Nat, j < (cols + 7) / 8 → rd s.buffer j = some 0) →
      0 ≤ s.linerepeat → s.linerepeat + k < 62 →
      ∃ s2, afterRows cols rows (fun _ => bits) u (n + k) = some s2 ∧
        s2.linerepeat = s.linerepeat + k ∧ s2.stdout = s.stdout
  | 0, n, s, _, hs, _, _, _, _, _ => ⟨s, hs, by simp, rfl⟩
  | k + 1, n, s, hn, hs, hi, hold, hbuf, hl0, hl => by
    obtain ⟨s1, hb, i1, o1, b1, l1, so1⟩ := repeat_row cols bits n s hc hi hn hold hbuf
      (by push_cast at hl; omega)
    have hs1 : afterRows cols rows (fun _ => bits) u (n + 1) = some s1 := by
      rw [afterRows_succ, hs, Option.some_bind, hb]
    obtain ⟨s2, hs2, l2, so2⟩ := repeat_rows cols rows bits u hc k (n + 1) s1 (by omega) hs1 i1
      o1 b1 (by omega) (by push_cast at hl; omega)
    refine ⟨s2, ?_, ?_, by rw [so2, so1]⟩
    · have e : n + (k + 1) = n + 1 + k := by omega
      rw [e]
      exact hs2
    · rw [l2, l1]
      push_cast
      ring

/-- A row whose pixels are those of the row before, met with a reference buffer that
holds a packed line with a black pixel, is encoded: its difference map is all zero. -/
theorem change_row (cols : Nat) (bits : Nat → Nat) (r : Nat) (s : State) (hc : cols ≤ 1056)
    (hi : Inv (((cols + 7) / 8 : Nat) : Int) s)
    (hold : ∀ j : Nat, j < (cols + 7) / 8 → rd s.oldscanline j = some (packedByte cols bits j))
    (hbuf : ∀ j : Nat, j < (cols + 7) / 8 → rd s.buffer j = some (packedByte cols bits j))
    (i : Nat) (hic : i < cols) (hblack : bits i = PBM_BLACK) :
    ∃ s2 e, rowBody (mkCfg cols) (fun _ => bits) r s = some s2 ∧
      Inv (((cols + 7) / 8 : Nat) : Int) s2 ∧
      (∀ j : Nat, j < (cols + 7) / 8 → rd s2.oldscanline j = some (packedByte cols bits j)) ∧
      (∀ j : Nat, j < (cols + 7) / 8 → rd s2.buffer j = some 0) ∧
      encode s2.buffer (((cols + 7) / 8 : Nat) : Int) s.outbuffer = some e ∧
      s2.linerepeat = 0 ∧
      s2.stdout = s.stdout ++ [Out.putchar s.linerepeat, printfCount (e.nout + 1),
        Out.fwrite (e.outbuffer.take e.nout.toNat)] := by
  obtain ⟨s2, hb, i2, _, _, pd, po, hcase⟩ := rowBody_cases cols (fun _ => bits) r s hc hi
  have hdiff : ∀ j : Nat, j < (cols + 7) / 8 → rd s2.diff j = some 0 := by
    intro j hj
    rw [pd j _ hj (hold j hj), Nat.xor_self]
  have hm : memcmp s.buffer s2.diff ((cols + 7) / 8) ≠ 0 := by
    rw [Ne, memcmp_eq_zero _ _ _ (by rw [hi.buffer_len]; omega) (by rw [i2.diff_len]; omega)]
    intro h
    have h1 := h (i / 8) (by omega)
    rw [hbuf _ (by omega), hdiff _ (by omega)] at h1
    exact packedByte_black cols bits i hic hblack (Option.some.inj h1)
  rcases hcase with ⟨_, e, he, _, _, _, _, _, hl, hso, pb, _⟩ | ⟨⟨h, _⟩, _⟩
  · exact ⟨s2, e, hb, i2, po, fun j hj => by rw [pb j 0 hj (hdiff j hj)], he, hl, by
      rw [hso]; rfl⟩
  · exact absurd h hm

set_option maxRecDepth 1000000 in
/-- C10, as the claim states it, fails: ten all-black rows of width 8 make the program
send two encoded units, for row 0 and for row 1, and a last repeat count of 8. -/
theorem black_rows_two_units :
    main 8 10 blackImage zeroIndet = some (Outcome.returned 0
      (prologue 8 10 ++
        [Out.putchar 63, printfCount 3, Out.fwrite [0xC0, 0xFF],
         Out.putchar 0, printfCount 3, Out.fwrite [0xC0, 0x00],
         Out.putchar 8] ++ epilogue)) := by
  decide

/-- C10, amended (ten identical rows): for every width `1 ≤ cols ≤ 1056` and every row
content, an image of 10 rows that all have that content makes the program write the
initialization framing, the sentinel 63 and the unit that encodes the packed line of
row 0, and then: when the row is all white, no further unit and a last repeat count of 9;
when the row has a black pixel, the count 0 and a second unit, which encodes the all-zero
difference map of row 1, and a last repeat count of 8. -/
theorem ten_identical_rows (cols : Nat) (bits : Nat → Nat) (u : Indet)
    (_h1 : 1 ≤ cols) (h2 : (cols : Int) ≤ GRAPHON_WIDTH) :
    ∃ s0 s1 e0, afterRows cols 10 (fun _ => bits) u 0 = some s0 ∧
      afterRows cols 10 (fun _ => bits) u 1 = some s1 ∧
      (∀ j : Nat, (j : Int) < (mkCfg cols).bytesperrow →
        rd s1.buffer j = some (packedByte cols bits j)) ∧
      encode s1.buffer (mkCfg cols).bytesperrow s0.outbuffer = some e0 ∧
      ((∀ i, i < cols → bits i ≠ PBM_BLACK) →
        main cols 10 (fun _ => bits) u = some (Outcome.returned 0
          (prologue cols 10 ++
            [Out.putchar 63, printfCount (e0.nout + 1),
             Out.fwrite (e0.outbuffer.take e0.nout.toNat),
             Out.putchar 9] ++ epilogue))) ∧
      ((∃ i, i < cols ∧ bits i = PBM_BLACK) →
        ∃ s2 e1, afterRows cols 10 (fun _ => bits) u 2 = some s2 ∧
          (∀ j : Nat, (j : Int) < (mkCfg cols).bytesperrow → rd s2.buffer j = some 0) ∧
          encode s2.buffer (mkCfg cols).bytesperrow s1.outbuffer = some e1 ∧
          main cols 10 (fun _ => bits) u = some (Outcome.returned 0
            (prologue cols 10 ++
              [Out.putchar 63, printfCount (e0.nout + 1),
               Out.fwrite (e0.outbuffer.take e0.nout.toNat),
               Out.putchar 0, printfCount (e1.nout + 1),
               Out.fwrite (e1.outbuffer.take e1.nout.toNat),
               Out.putchar 8] ++ epilogue))) := by
  have hc : cols ≤ 1056 := by
    have : (cols : Int) ≤ 1056 := h2
    omega
  obtain ⟨s0, s1, e0, hs0, hs1, _, hbuf, he0, hl1, hso1⟩ := first_row cols 10 (fun _ => bits) u hc
  obtain ⟨t1, ht1, i1, hold1⟩ := afterRows_old cols 10 (fun _ => bits) u hc 1
  rw [hs1] at ht1
  have := Option.some.inj ht1
  subst this
  have hold1b : ∀ j : Nat, j < (cols + 7) / 8 →
      rd s1.oldscanline j = some (packedByte cols bits j) := by
    intro j hj
    simpa [prevByte] using hold1 j hj
  obtain ⟨sn, hsn, hm⟩ := main_spec cols 10 (fun _ => bits) u hc
  refine ⟨s0, s1, e0, hs0, hs1, ?_, by rw [mkCfg_bytesperrow]; exact he0, ?_, ?_⟩
  · intro j hj
    rw [mkCfg_bytesperrow] at hj
    exact (hbuf j (by exact_mod_cast hj)).2
  · intro hw
    obtain ⟨s2, hs2, l2, so2⟩ := repeat_rows cols 10 bits u hc 9 1 s1 (by omega) hs1 i1 hold1b
      (fun j hj => by rw [(hbuf j hj).2, packedByte_white cols bits hw]) (by omega)
      (by rw [hl1]; norm_num)
    rw [hsn] at hs2
    have := Option.some.inj hs2
    subst this
    rw [hm, so2, hso1, l2, hl1]
    simp
  · rintro ⟨i, hic, hblack⟩
    obtain ⟨s2, e1, hb2, i2, o2, b2, he1, l2, so2⟩ := change_row cols bits 1 s1 hc i1 hold1b
      (fun j hj => (hbuf j hj).2) i hic hblack
    have hs2 : afterRows cols 10 (fun _ => bits) u 2 = some s2 := by
      rw [afterRows_succ, hs1, Option.some_bind, hb2]
    obtain ⟨s3, hs3, l3, so3⟩ := repeat_rows cols 10 bits u hc 8 2 s2 (by omega) hs2 i2 o2 b2
      (by omega) (by rw [l2]; norm_num)
    rw [hsn] at hs3
    have := Option.some.inj hs3
    subst this
    refine ⟨s2, e1, hs2, ?_, by rw [mkCfg_bytesperrow]; exact he1, ?_⟩
    · intro j hj
      rw [mkCfg_bytesperrow] at hj
      exact b2 j (by exact_mod_cast hj)
    · rw [hm, so3, so2, hso1, l3, l2, hl1]
      simp

theorem ten_identical_rows_witness :
    ∃ s0 s1 e0, afterRows 8 10 (fun _ => blackImage 0) zeroIndet 0 = some s0 ∧
      afterRows 8 10 (fun _ => blackImage 0) zeroIndet 1 = some s1 ∧
      (∀ j : Nat, (j : Int) < (mkCfg 8).bytesperrow →
        rd s1.buffer j = some (packedByte 8 (blackImage 0) j)) ∧
      encode s1.buffer (mkCfg 8).bytesperrow s0.outbuffer = some e0 ∧
      ((∀ i, i < 8 → blackImage 0 i ≠ PBM_BLACK) →
        main 8 10 (fun _ => blackImage 0) zeroIndet = some (Outcome.returned 0
          (prologue 8 10 ++
            [Out.putchar 63, printfCount (e0.nout + 1),
             Out.fwrite (e0.outbuffer.take e0.nout.toNat),
             Out.putchar 9] ++ epilogue))) ∧
      ((∃ i, i < 8 ∧ blackImage 0 i = PBM_BLACK) →
        ∃ s2 e1, afterRows 8 10 (fun _ => blackImage 0) zeroIndet 2 = some s2 ∧
          (∀ j : Nat, (j : Int) < (mkCfg 8).bytesperrow → rd s2.buffer j = some 0) ∧
          encode s2.buffer (mkCfg 8).bytesperrow s1.outbuffer = some e1 ∧
          main 8 10 (fun _ => blackImage 0) zeroIndet = some (Outcome.returned 0
            (prologue 8 10 ++
              [Out.putchar 63, printfCount (e0.nout + 1),
               Out.fwrite (e0.outbuffer.take e0.nout.toNat),
               Out.putchar 0, printfCount (e1.nout + 1),
               Out.fwrite (e1.outbuffer.take e1.nout.toNat),
               Out.putchar 8] ++ epilogue))) :=
  ten_identical_rows 8 (blackImage 0) zeroIndet (by decide) (by decide)

/-! ## C11: the width limit -/

/-- The initialization framing stays at the head of the output while the rows are
processed. -/
theorem afterRows_prologue (cols rows : Nat) (pix : Nat → Nat → Nat) (u : Indet)
    (hc : cols ≤ 1056) (r : Nat) :
    ∃ s, afterRows cols rows pix u r = some s ∧ prologue cols rows <+: s.stdout := by
  obtain ⟨s0, h0, _, _, e0, _⟩ := setup_spec cols rows u
  obtain ⟨s, h, _, hm⟩ := afterRows_stdout_mono cols rows pix u hc r
  refine ⟨s, h, ?_⟩
  have := hm 0 s0 (Nat.zero_le r) (by rw [afterRows_zero]; exact h0)
  rwa [e0] at this

/-- C11 (width limit): a width of at most 1056 is accepted: the loop goes through all
the rows and `main` returns 0, its output starting with the initialization framing; the
width 1056 gives `bytesperrow = 132`.  A width of 1057 or more ends in the fatal error
with nothing written to standard output, whatever the pixels of the image are: no row
is read. -/
theorem width_limit (cols rows : Nat) (pix : Nat → Nat → Nat) (u : Indet) :
    (cols ≤ 1056 →
      ∃ s, afterRows cols rows pix u rows = some s ∧ prologue cols rows <+: s.stdout ∧
        main cols rows pix u
          = some (Outcome.returned 0 (s.stdout ++ [Out.putchar s.linerepeat] ++ epilogue))) ∧
    (mkCfg 1056).bytesperrow = 132 ∧
    (1057 ≤ cols → ∀ pix2 : Nat → Nat → Nat, main cols rows pix2 u = some (Outcome.fatal [])) := by
  refine ⟨fun hc => ?_, by decide, fun hc pix2 => ?_⟩
  · obtain ⟨s, hs, hm⟩ := main_spec cols rows pix u hc
    obtain ⟨s2, hs2, hp⟩ := afterRows_prologue cols rows pix u hc rows
    rw [hs] at hs2
    cases hs2
    exact ⟨s, hs, hp, hm⟩
  · have h : (cols : Int) > GRAPHON_WIDTH := by
      have : GRAPHON_WIDTH = 1056 := rfl
      omega
    simp [main, h, startState]

theorem width_limit_witness :
    (∃ s, afterRows 1056 2 blackImage zeroIndet 2 = some s ∧ prologue 1056 2 <+: s.stdout ∧
        main 1056 2 blackImage zeroIndet
          = some (Outcome.returned 0 (s.stdout ++ [Out.putchar s.linerepeat] ++ epilogue))) ∧
    (∀ pix2 : Nat → Nat → Nat, main 1057 2 pix2 zeroIndet = some (Outcome.fatal [])) :=
  ⟨(width_limit 1056 2 blackImage zeroIndet).1 (by decide),
   (width_limit 1057 2 blackImage zeroIndet).2.2 (by decide)⟩

/-! ## C12: the passes of the encoder -/

theorem rd_some_bound {a : List Nat} {i : Int} {v : Nat} (h : rd a i = some v) :
    0 ≤ i ∧ i < a.length := by
  unfold rd at h
  split_ifs at h with h0
  have := (List.getElem?_eq_some_iff.mp h).1
  omega

theorem wr_some_bound {a a2 : List Nat} {i v : Int} (h : wr a i v = some a2) :
    0 ≤ i ∧ i < a.length ∧ a2.length = a.length := by
  unfold wr at h
  split_ifs at h with h0
  cases h
  exact ⟨h0.1, h0.2, by simp⟩

theorem rd_mem {a : List Nat} {i : Int} {v : Nat} (h : rd a i = some v) : v ∈ a := by
  unfold rd at h
  split_ifs at h
  obtain ⟨hl, hv⟩ := List.getElem?_eq_some_iff.mp h
  exact hv ▸ List.getElem_mem hl

/-- Every state in which a pass starts satisfies the invariant of the loop, with input
still ahead. -/
theorem PassStart.inv {buffer out : List Nat} {n : Int} {e : Enc} (h0 : 0 ≤ n)
    (hlen : n ≤ buffer.length) (hpos : 0 < buffer.length) (hcap : 2 * n ≤ out.length)
    (h : PassStart buffer n out e) :
    EncInv buffer n e ∧ e.outbuffer.length = out.length ∧ e.nbyte < buffer.length ∧
      (1 ≤ n → e.nbyte < n) := by
  induction h with
  | first =>
    exact ⟨⟨le_refl 0, h0, le_refl 0, by simp, rfl, rfl, by simp⟩, rfl, by simpa using hpos,
      fun h => h⟩
  | again e e2 _ hp ih =>
    obtain ⟨i, l, b, _⟩ := ih
    obtain ⟨done, e3, hq, i3, l3, _, hd, _⟩ :=
      encodePass_spec buffer n e hlen i b (by rw [l]; exact hcap)
    rw [hp] at hq
    cases hq
    have : ¬ n ≤ e2.nbyte := fun hh => by simpa using hd.mpr hh
    exact ⟨i3, by rw [l3, l], by omega, fun _ => by omega⟩

/-- A pass that starts in a state of the loop ends with `nbyte` advanced. -/
theorem PassStart.pass {buffer out : List Nat} {n : Int} {e : Enc} (h1 : 1 ≤ n)
    (hlen : n ≤ buffer.length) (hcap : 2 * n ≤ out.length)
    (h : PassStart buffer n out e) :
    ∃ done e2, encodePass buffer n e = some (done, e2) ∧ e.nbyte < e2.nbyte ∧ e2.nbyte ≤ n ∧
      (done = true ↔ e2.nbyte = n) ∧ e.nout ≤ e2.nout ∧ e2.nout ≤ 2 * e2.nbyte := by
  obtain ⟨i, l, b, c⟩ := PassStart.inv (by omega) hlen (by omega) hcap h
  obtain ⟨done, e2, hq, i2, _, hp, hd, _, hn, _⟩ :=
    encodePass_spec buffer n e hlen i b (by rw [l]; exact hcap)
  have := i2.nbyte_le
  refine ⟨done, e2, hq, hp (c h1), this, ?_, hn, i2.nout_le⟩
  rw [hd]
  constructor <;> intro <;> omega

/-- The loop ends when its fuel is the number of bytes still ahead. -/
theorem encodeLoop_passes (buffer out : List Nat) (n : Int) (h1 : 1 ≤ n)
    (hlen : n ≤ buffer.length) (hcap : 2 * n ≤ out.length) :
    ∀ (fuel : Nat) (e : Enc), PassStart buffer n out e → (n - e.nbyte).toNat ≤ fuel →
      ∃ e2, encodeLoop buffer n fuel e = some e2 ∧ e2.nbyte = n := by
  intro fuel
  induction fuel with
  | zero =>
    intro e h hf
    have := (PassStart.inv (by omega) hlen (by omega) hcap h).2.2.2 h1
    omega
  | succ fuel ih =>
    intro e h hf
    obtain ⟨done, e2, hq, hp, hle, hd, _⟩ := PassStart.pass h1 hlen hcap h
    simp only [encodeLoop, hq, Option.bind_eq_bind, Option.some_bind, Option.pure_def]
    cases done with
    | true => exact ⟨e2, by simp, hd.mp rfl⟩
    | false =>
      simp only [Bool.false_eq_true, if_false]
      exact ih e2 (PassStart.again e e2 h hq) (by omega)

/-- C12 (encoder termination): for a buffer of `n` bytes, `n` from 1 to 132, every pass
through the body of the `while (TRUE)` loop returns with `nbyte` strictly greater than
it was at the start of the pass and at most `n`, and leaves through `goto nextrow`
exactly when `nbyte` is `n`; the loop reaches `nextrow` within `n` passes. -/
theorem encoder_terminates (buffer out : List Nat) (n : Int) (h1 : 1 ≤ n) (h2 : n ≤ 132)
    (hb : buffer.length = 132) (ho : out.length = 266) :
    (∀ e, PassStart buffer n out e →
      ∃ done e2, encodePass buffer n e = some (done, e2) ∧ e.nbyte < e2.nbyte ∧
        e2.nbyte ≤ n ∧ (done = true ↔ e2.nbyte = n)) ∧
    ∃ e, encodeLoop buffer n n.toNat ⟨0, 0, out, []⟩ = some e ∧ e.nbyte = n := by
  have hlen : n ≤ buffer.length := by omega
  have hcap : 2 * n ≤ out.length := by omega
  constructor
  · intro e h
    obtain ⟨done, e2, a, b, c, d, _⟩ := PassStart.pass h1 hlen hcap h
    exact ⟨done, e2, a, b, c, d⟩
  · exact encodeLoop_passes buffer out n h1 hlen hcap n.toNat _ PassStart.first
      (by simp)

set_option maxRecDepth 100000 in
theorem encoder_terminates_witness :
    (∀ e, PassStart sampleBuffer 12 sampleOut e →
      ∃ done e2, encodePass sampleBuffer 12 e = some (done, e2) ∧ e.nbyte < e2.nbyte ∧
        e2.nbyte ≤ 12 ∧ (done = true ↔ e2.nbyte = 12)) ∧
    ∃ e, encodeLoop sampleBuffer 12 (12 : Int).toNat ⟨0, 0, sampleOut, []⟩ = some e ∧
      e.nbyte = 12 :=
  encoder_terminates sampleBuffer sampleOut 12 (by decide) (by decide) (by decide) (by decide)

/-! ## The passes of the encoder on runs of equal bytes -/

/-- When the byte at `nbyte` equals the next one, the scan for unique patterns steps
back to where it started and nothing is written. -/
theorem uniquePart_equal_ahead (buffer : List Nat) (bpr : Int) (e : Enc) (v : Nat)
    (h1 : e.nbyte + 1 < bpr) (ha : rd buffer e.nbyte = some v)
    (hb : rd buffer (e.nbyte + 1) = some v) : uniquePart buffer bpr e = some e := by
  have hs : uniqueScan buffer bpr scanFuel e.nbyte 0 = some ((v : Int), e.nbyte + 1, 1) := by
    have hf : scanFuel = 63 + 1 := rfl
    rw [hf, uniqueScan]
    simp [ha, hb, h1]
  have hc : ((1 : Int) ≠ MAX_REPEAT ∧ e.nbyte + 1 ≠ bpr) := ⟨by decide, by omega⟩
  simp only [uniquePart, hs, Option.bind_eq_bind, Option.some_bind, Option.pure_def]
  rw [if_pos hc]
  simp

/-- The second part of a pass, by the result of the scan for equal patterns: what is
written and where `nbyte` is left in each of the four branches. -/
theorem equalPart_run (buffer : List Nat) (bpr : Int) (e : Enc) (hlen : bpr ≤ buffer.length)
    (h0 : 0 ≤ e.nbyte) (h1 : e.nbyte < bpr) (hn : 0 ≤ e.nout)
    (hroom : e.nout + 2 ≤ e.outbuffer.length) :
    ∃ (o : Nat) (nb c : Int) (e2 : Enc),
      equalScan buffer bpr scanFuel e.nbyte 0 = some ((o : Int), nb, c) ∧
      equalPart buffer bpr e = some e2 ∧
      nb = e.nbyte + c ∧ 1 ≤ c ∧ c ≤ 64 ∧ nb ≤ bpr ∧
      (∀ j, e.nbyte ≤ j → j < nb → rd buffer j = some o) ∧
      (nb < bpr → c < MIN bpr MAX_REPEAT → rd buffer nb ≠ some o) ∧
      (c = 1 → e2 = e) ∧
      (2 ≤ c → o = 0 → bpr - 1 ≤ nb →
        e2.nbyte = nb ∧ e2.nout = e.nout + 2 ∧
        e2.runs = e.runs ++ [⟨SKIP_AND_PLOT_MASK, c, e.nbyte, nb, e.nout⟩] ∧
        rd e2.outbuffer e.nout = some (Int.lor (c - 2) SKIP_AND_PLOT_MASK).toNat ∧
        rd e2.outbuffer (e.nout + 1) = some 0) ∧
      (2 ≤ c → o = 0 → nb < bpr - 1 →
        e2.nbyte = nb + 1 ∧ e2.nout = e.nout + 2 ∧
        e2.runs = e.runs ++ [⟨SKIP_AND_PLOT_MASK, c, e.nbyte, nb + 1, e.nout⟩] ∧
        rd e2.outbuffer e.nout = some (Int.lor (c - 1) SKIP_AND_PLOT_MASK).toNat ∧
        ∃ v : Nat, rd buffer nb = some v ∧ rd e2.outbuffer (e.nout + 1) = some (v % 256)) ∧
      (2 ≤ c → o ≠ 0 →
        e2.nbyte = nb ∧ e2.nout = e.nout + 2 ∧
        e2.runs = e.runs ++ [⟨REPEAT_PLOT_MASK, c, e.nbyte, nb, e.nout⟩] ∧
        rd e2.outbuffer e.nout = some (Int.lor (c - 1) REPEAT_PLOT_MASK).toNat ∧
        rd e2.outbuffer (e.nout + 1) = some (o % 256)) ∧
      e2.outbuffer.length = e.outbuffer.length ∧
      (∀ j, j < e.nout → rd e2.outbuffer j = rd e.outbuffer j) := by
  obtain ⟨o, n2, c2, hs, p1, p2, p3, p4, p5, p6, p7⟩ :=
    equalScan_spec buffer bpr hlen scanFuel e.nbyte 0 h0 (by omega) (by omega)
      (by simp [scanFuel]) (by simp [scanFuel])
  have hM : MAX_REPEAT = 64 := rfl
  have hnb : n2 ≤ bpr := by omega
  refine ⟨o, n2, c2, ?_⟩
  suffices h : ∃ e2 : Enc, equalPart buffer bpr e = some e2 ∧
      (c2 = 1 → e2 = e) ∧
      (2 ≤ c2 → o = 0 → bpr - 1 ≤ n2 →
        e2.nbyte = n2 ∧ e2.nout = e.nout + 2 ∧
        e2.runs = e.runs ++ [⟨SKIP_AND_PLOT_MASK, c2, e.nbyte, n2, e.nout⟩] ∧
        rd e2.outbuffer e.nout = some (Int.lor (c2 - 2) SKIP_AND_PLOT_MASK).toNat ∧
        rd e2.outbuffer (e.nout + 1) = some 0) ∧
      (2 ≤ c2 → o = 0 → n2 < bpr - 1 →
        e2.nbyte = n2 + 1 ∧ e2.nout = e.nout + 2 ∧
        e2.runs = e.runs ++ [⟨SKIP_AND_PLOT_MASK, c2, e.nbyte, n2 + 1, e.nout⟩] ∧
        rd e2.outbuffer e.nout = some (Int.lor (c2 - 1) SKIP_AND_PLOT_MASK).toNat ∧
        ∃ v : Nat, rd buffer n2 = some v ∧ rd e2.outbuffer (e.nout + 1) = some (v % 256)) ∧
      (2 ≤ c2 → o ≠ 0 →
        e2.nbyte = n2 ∧ e2.nout = e.nout + 2 ∧
        e2.runs = e.runs ++ [⟨REPEAT_PLOT_MASK, c2, e.nbyte, n2, e.nout⟩] ∧
        rd e2.outbuffer e.nout = some (Int.lor (c2 - 1) REPEAT_PLOT_MASK).toNat ∧
        rd e2.outbuffer (e.nout + 1) = some (o % 256)) ∧
      e2.outbuffer.length = e.outbuffer.length ∧
      (∀ j, j < e.nout → rd e2.outbuffer j = rd e.outbuffer j) by
    obtain ⟨e2, a, b⟩ := h
    exact ⟨e2, hs, a, by omega, by omega, by omega, hnb, p5, p6, b⟩
  simp only [equalPart, hs, Option.bind_eq_bind, Option.some_bind]
  by_cases hc : c2 > 1
  · rw [if_pos hc]
    have ho1 : rd buffer (n2 - 1) = some o := p5 _ (by omega) (by omega)
    by_cases hz : (o : Int) = 0
    · rw [if_pos hz]
      have hz2 : o = 0 := by exact_mod_cast hz
      subst hz2
      by_cases hend : n2 ≥ bpr - 1
      · rw [if_pos hend]
        simp only [ho1, Option.some_bind]
        obtain ⟨e2, he2, q1, q2, q3, q4, q5, q6, q7⟩ := emit2_spec e
          (Int.lor (c2 - 2) SKIP_AND_PLOT_MASK) ((0 : Nat) : Int) n2
          ⟨SKIP_AND_PLOT_MASK, c2, e.nbyte, n2, e.nout⟩ hn (by omega)
        rw [lor_mod _ _ (by omega) (by omega) (Or.inl rfl)] at q6
        exact ⟨e2, he2, fun h => by omega, fun _ _ _ => ⟨q1, q2, q3, q6, q7⟩,
          fun _ _ h => by omega, fun _ h => absurd rfl h, q4, q5⟩
      · rw [if_neg hend]
        obtain ⟨v, hv⟩ := rd_lt (a := buffer) (i := n2) (by omega) (by omega)
        simp only [hv, Option.some_bind]
        obtain ⟨e2, he2, q1, q2, q3, q4, q5, q6, q7⟩ := emit2_spec e
          (Int.lor (c2 - 1) SKIP_AND_PLOT_MASK) (v : Int) (n2 + 1)
          ⟨SKIP_AND_PLOT_MASK, c2, e.nbyte, n2 + 1, e.nout⟩ hn (by omega)
        rw [lor_mod _ _ (by omega) (by omega) (Or.inl rfl)] at q6
        exact ⟨e2, he2, fun h => by omega, fun _ _ h => by omega,
          fun _ _ _ => ⟨q1, q2, q3, q6, v, rfl, by rw [q7]; congr 1⟩,
          fun _ h => absurd rfl h, q4, q5⟩
    · rw [if_neg hz]
      obtain ⟨e2, he2, q1, q2, q3, q4, q5, q6, q7⟩ := emit2_spec e
        (Int.lor (c2 - 1) REPEAT_PLOT_MASK) (o : Int) n2
        ⟨REPEAT_PLOT_MASK, c2, e.nbyte, n2, e.nout⟩ hn (by omega)
      rw [lor_mod _ _ (by omega) (by omega) (Or.inr (Or.inl rfl))] at q6
      have ho : o ≠ 0 := fun h => hz (by simp [h])
      exact ⟨e2, he2, fun h => by omega, fun _ h _ => absurd h ho, fun _ h _ => absurd h ho,
        fun _ _ => ⟨q1, q2, q3, q6, by rw [q7]; congr 1⟩, q4, q5⟩
  · rw [if_neg hc]
    have hc1 : c2 = 1 := by omega
    have hn2 : n2 - 1 = e.nbyte := by omega
    refine ⟨e, by rw [hn2]; rfl, fun _ => rfl, fun h => by omega, fun h => by omega,
      fun h => by omega, rfl, fun _ _ => rfl⟩

theorem take_two (l : List Nat) (a b : Nat) (h0 : rd l 0 = some a) (h1 : rd l 1 = some b) :
    l.take 2 = [a, b] := by
  match l with
  | [] => simp [rd] at h0
  | [x] => simp [rd] at h1
  | x :: y :: rest =>
    simp [rd] at h0 h1
    simp [h0, h1]

/-- A pass on a row that is one run of equal bytes: nothing from the first part, one run
from the second, and the pass leaves through `goto nextrow`. -/
theorem encode_constant (buffer out : List Nat) (n : Int) (v : Nat) (h2 : 2 ≤ n)
    (h64 : n ≤ 64) (hlen : n ≤ buffer.length) (ho : 2 ≤ out.length)
    (hv : ∀ j : Int, 0 ≤ j → j < n → rd buffer j = some v) :
    ∃ e, encode buffer n out = some e ∧ e.nbyte = n ∧ e.nout = 2 ∧
      e.outbuffer.length = out.length ∧
      (v = 0 → e.outbuffer.take 2 = [(Int.lor (n - 2) SKIP_AND_PLOT_MASK).toNat, 0] ∧
        e.runs = [⟨SKIP_AND_PLOT_MASK, n, 0, n, 0⟩]) ∧
      (v ≠ 0 → e.outbuffer.take 2 = [(Int.lor (n - 1) REPEAT_PLOT_MASK).toNat, v % 256] ∧
        e.runs = [⟨REPEAT_PLOT_MASK, n, 0, n, 0⟩]) := by
  have hu : uniquePart buffer n ⟨0, 0, out, []⟩ = some ⟨0, 0, out, []⟩ :=
    uniquePart_equal_ahead buffer n ⟨0, 0, out, []⟩ v (by show (0 : Int) + 1 < n; omega)
      (hv 0 (le_refl 0) (by omega)) (hv (0 + 1) (by omega) (by omega))
  obtain ⟨o, nb, c, e2, _, he, q1, q2, q3, q4, q5, q6, _, b1, b2, b3, bl, _⟩ :=
    equalPart_run buffer n ⟨0, 0, out, []⟩ hlen (le_refl 0) (by show (0 : Int) < n; omega)
      (le_refl 0) (by show (0 : Int) + 2 ≤ out.length; omega)
  have q1 : nb = 0 + c := q1
  have hov : o = v := by
    have := q5 0 (le_refl 0) (by omega)
    rw [hv 0 (le_refl 0) (by omega)] at this
    exact (Option.some.inj this).symm
  subst hov
  have hM : MIN n MAX_REPEAT = n := by
    have hM : MAX_REPEAT = 64 := rfl
    rcases MIN_eq n MAX_REPEAT with h | h
    · exact h
    · have := MIN_le_left n MAX_REPEAT
      omega
  have hnb : nb = n := by
    by_contra hne
    have hlt : nb < n := by omega
    exact q6 hlt (by rw [hM]; omega) (hv nb (by omega) hlt)
  subst hnb
  have hk : (nb + 1).toNat = (nb + 1).toNat - 1 + 1 := by omega
  have hd : ¬ ((0 : Int) ≥ nb) := by omega
  have hres : o = 0 ∨ o ≠ 0 := by omega
  have henc : e2.nbyte = nb → encode buffer nb out = some e2 := by
    intro hnb
    unfold encode
    rw [hk]
    simp only [encodeLoop, encodePass, hu, Option.bind_eq_bind, Option.some_bind, he,
      Option.pure_def]
    rw [if_neg hd]
    simp [hnb]
  rcases hres with hz | hz
  · obtain ⟨c1, c2, c3, c4, c5⟩ := b1 (by omega) hz (by omega)
    have c4 : rd e2.outbuffer 0 = _ := c4
    have c5 : rd e2.outbuffer (0 + 1) = _ := c5
    refine ⟨e2, henc c1, c1, c2, bl, fun _ => ⟨take_two _ _ _ (by rw [c4]; congr 3; omega) c5,
      by rw [c3]; simp; omega⟩, fun h => absurd hz h⟩
  · obtain ⟨c1, c2, c3, c4, c5⟩ := b3 (by omega) hz
    have c4 : rd e2.outbuffer 0 = _ := c4
    have c5 : rd e2.outbuffer (0 + 1) = _ := c5
    refine ⟨e2, henc c1, c1, c2, bl, fun h => absurd h hz,
      fun _ => ⟨take_two _ _ _ (by rw [c4]; congr 3; omega) c5, by rw [c3]; simp; omega⟩⟩

/-! ## C13: a row of alternating pixels -/

set_option maxRecDepth 1000000 in
/-- C13, as claimed, fails: for one row of width 16 that packs to AA AA the difference map
is AA AA, and what the encoder writes is the two bytes 81 AA of a RepeatRun of two, not
the three bytes C1 AA AA of a UniqueRun. -/
theorem stripes_repeat_run :
    packedByte 16 (stripes 0) 0 = 0xAA ∧ packedByte 16 (stripes 0) 1 = 0xAA ∧
    (afterRows 16 1 stripes zeroIndet 1).map
        (fun s => (s.diff.take 2, s.outbuffer.take s.nout.toNat, s.runs))
      = some ([0xAA, 0xAA], [0x81, 0xAA], [⟨REPEAT_PLOT_MASK, 2, 0, 2, 0⟩]) ∧
    [0x81, 0xAA] ≠ [0xC0 ||| 1, 0xAA, 0xAA] ∧
    main 16 1 stripes zeroIndet
      = some (Outcome.returned 0 (prologue 16 1 ++ [Out.putchar 63, Out.printf [51, 47],
          Out.fwrite [0x81, 0xAA], Out.putchar 0] ++ epilogue)) := by
  decide

/-- C13, amended (scenario 2): when row 0 of an image of width 16 packs to the two bytes
AA AA, the difference map of row 0 is AA AA and the encoder writes one RepeatRun that
covers both bytes: the header `0x80 | 1` and the byte AA, sent after the sentinel 63 and
the byte count "3/". -/
theorem stripes_row (rows : Nat) (pix : Nat → Nat → Nat) (u : Indet)
    (p0 : packedByte 16 (pix 0) 0 = 0xAA) (p1 : packedByte 16 (pix 0) 1 = 0xAA) :
    ∃ s0 s e, afterRows 16 rows pix u 0 = some s0 ∧ afterRows 16 rows pix u 1 = some s ∧
      rd s.diff 0 = some 0xAA ∧ rd s.diff 1 = some 0xAA ∧
      encode s.buffer (mkCfg 16).bytesperrow s0.outbuffer = some e ∧
      e.runs = [⟨REPEAT_PLOT_MASK, 2, 0, 2, 0⟩] ∧
      e.outbuffer.take e.nout.toNat = [(Int.lor 1 REPEAT_PLOT_MASK).toNat, 0xAA] ∧
      s.stdout = prologue 16 rows ++ [Out.putchar 63, Out.printf [51, 47],
        Out.fwrite [0x81, 0xAA]] := by
  obtain ⟨s0, s, e, h0, h1, ho, hbuf, he, _, hso⟩ := first_row 16 rows pix u (by decide)
  have hB : (((16 + 7) / 8 : Nat) : Int) = 2 := rfl
  have hB2 : (mkCfg 16).bytesperrow = 2 := rfl
  obtain ⟨d0, b0⟩ := hbuf 0 (by decide)
  obtain ⟨d1, b1⟩ := hbuf 1 (by decide)
  rw [p0] at d0 b0
  rw [p1] at d1 b1
  have d1x : rd s.diff 1 = some 0xAA := d1
  have b1x : rd s.buffer 1 = some 0xAA := b1
  have d0x : rd s.diff 0 = some 0xAA := d0
  have b0x : rd s.buffer 0 = some 0xAA := b0
  have hlen := (rd_some_bound b1x).2
  obtain ⟨e2, he2, _, hn, _, _, hv⟩ := encode_constant s.buffer s0.outbuffer 2 0xAA
    (le_refl 2) (by decide) (by omega) ho (by
      intro j j0 j1
      have : j = 0 ∨ j = 1 := by omega
      rcases this with rfl | rfl
      · exact b0x
      · exact b1x)
  rw [hB] at he
  rw [he2] at he
  cases he
  obtain ⟨ht, hr⟩ := hv (by decide)
  have h2n : e.nout.toNat = 2 := by rw [hn]; rfl
  refine ⟨s0, s, e, h0, h1, d0x, d1x, by rw [hB2]; exact he2, hr,
    by rw [h2n]; exact ht, ?_⟩
  rw [hso, h2n, ht, hn]
  rfl

theorem stripes_row_witness :
    ∃ s0 s e, afterRows 16 3 stripes zeroIndet 0 = some s0 ∧
      afterRows 16 3 stripes zeroIndet 1 = some s ∧
      rd s.diff 0 = some 0xAA ∧ rd s.diff 1 = some 0xAA ∧
      encode s.buffer (mkCfg 16).bytesperrow s0.outbuffer = some e ∧
      e.runs = [⟨REPEAT_PLOT_MASK, 2, 0, 2, 0⟩] ∧
      e.outbuffer.take e.nout.toNat = [(Int.lor 1 REPEAT_PLOT_MASK).toNat, 0xAA] ∧
      s.stdout = prologue 16 3 ++ [Out.putchar 63, Out.printf [51, 47],
        Out.fwrite [0x81, 0xAA]] :=
  stripes_row 3 stripes zeroIndet (by decide) (by decide)

/-! ## C14: the repeat counter -/

/-- C14 (repeat-counter invariant): before the first row the counter is the sentinel 63;
at the end of every row iteration it is between 0 and 61.  The repeat branch of the next
row increments it, to at most 62, and when the incremented value is 62 the branch sends
it and leaves 0: the counter is 62 only inside that branch and never more. -/
theorem counter_invariant (cols rows : Nat) (pix : Nat → Nat → Nat) (u : Indet) (r : Nat)
    (hc : cols ≤ 1056) (hr : 1 ≤ r) :
    (∃ s0, afterRows cols rows pix u 0 = some s0 ∧ s0.linerepeat = 63) ∧
    ∃ s, afterRows cols rows pix u r = some s ∧ 0 ≤ s.linerepeat ∧ s.linerepeat ≤ 61 ∧
      ∃ s2, repeatBranch s = some s2 ∧ 0 ≤ s2.linerepeat ∧ s2.linerepeat ≤ 61 ∧
        (s2.linerepeat = s.linerepeat + 1 ∨ (s.linerepeat + 1 = 62 ∧ s2.linerepeat = 0)) := by
  obtain ⟨s0, h0, _, a, _⟩ := afterRows_counts cols rows pix u hc 0
  obtain ⟨s, h, hi, _, b⟩ := afterRows_counts cols rows pix u hc r
  obtain ⟨b1, b2, _⟩ := b (by omega)
  refine ⟨⟨s0, h0, (a rfl).1⟩, s, h, b1, b2, ?_⟩
  have h1 := hi.nout_nonneg
  have h2 := hi.nout_le
  have h3 := hi.out_len
  have hs := repeatBranch_spec s h1 (by omega)
  by_cases h62 : s.linerepeat + 1 = 62
  · rw [if_pos h62] at hs
    exact ⟨_, hs, by simp, by simp, Or.inr ⟨h62, rfl⟩⟩
  · rw [if_neg h62] at hs
    refine ⟨_, hs, ?_, ?_, Or.inl rfl⟩
    · show 0 ≤ s.linerepeat + 1
      omega
    · show s.linerepeat + 1 ≤ 61
      omega

theorem counter_invariant_witness :
    (∃ s0, afterRows 8 70 whiteImage zeroIndet 0 = some s0 ∧ s0.linerepeat = 63) ∧
    ∃ s, afterRows 8 70 whiteImage zeroIndet 3 = some s ∧ 0 ≤ s.linerepeat ∧
      s.linerepeat ≤ 61 ∧
      ∃ s2, repeatBranch s = some s2 ∧ 0 ≤ s2.linerepeat ∧ s2.linerepeat ≤ 61 ∧
        (s2.linerepeat = s.linerepeat + 1 ∨ (s.linerepeat + 1 = 62 ∧ s2.linerepeat = 0)) :=
  counter_invariant 8 70 whiteImage zeroIndet 3 (by decide) (by decide)

/-! ## C15: the run of white at the end of the line -/

set_option maxRecDepth 1000000 in
/-- C15, as claimed, fails: on the row 00 00 05 the scan for equal patterns finds two zero
bytes and stops at `bytesperrow - 1`; the branch writes 40 00, where the literal is the
zero at `buffer[nbyte - 1]` and not the trailing byte 05, and leaves `nbyte` at 2, so
the trailing byte is not consumed: the next pass writes it as the unique run C0 05. -/
theorem trailing_byte_kept :
    equalScan skipBuffer 3 scanFuel 0 0 = some (0, 2, 2) ∧
    rd skipBuffer (3 - 1) = some 5 ∧
    (equalPart skipBuffer 3 ⟨0, 0, sampleOut, []⟩).map
        (fun e => (e.nbyte, e.nout, e.outbuffer.take 2)) = some (2, 2, [0x40, 0x00]) ∧
    (encode skipBuffer 3 sampleOut).map (fun e => (e.nbyte, e.outbuffer.take e.nout.toNat))
      = some (3, [0x40, 0x00, 0xC0, 0x05]) := by
  decide

/-- C15, amended (the end-of-line branch of a run of white): when the scan for equal
patterns finds `c ≥ 2` zero bytes and the position `nb` after the run is at or past
`bytesperrow - 1`, the encoder writes the header `0x40 | (c - 2)` and then the literal
`buffer[nb - 1]`, the last zero byte of the run, and leaves `nbyte` at `nb`.  The buffer
is fully consumed when the run ends at `bytesperrow`; when it ends at `bytesperrow - 1`
the trailing byte is not consumed by this branch. -/
theorem skip_end_branch (buffer : List Nat) (bpr : Int) (e : Enc) (nb c : Int)
    (hlen : bpr ≤ buffer.length) (h0 : 0 ≤ e.nbyte) (h1 : e.nbyte < bpr) (hn : 0 ≤ e.nout)
    (hroom : e.nout + 2 ≤ e.outbuffer.length)
    (hs : equalScan buffer bpr scanFuel e.nbyte 0 = some (0, nb, c)) (hc : 2 ≤ c)
    (hend : bpr - 1 ≤ nb) :
    ∃ e2, equalPart buffer bpr e = some e2 ∧ e2.nout = e.nout + 2 ∧
      rd e2.outbuffer e.nout = some (Int.lor (c - 2) SKIP_AND_PLOT_MASK).toNat ∧
      rd buffer (nb - 1) = some 0 ∧ rd e2.outbuffer (e.nout + 1) = some 0 ∧
      (∀ j, e.nbyte ≤ j → j < nb → rd buffer j = some 0) ∧ nb = e.nbyte + c ∧
      e2.nbyte = nb ∧ (nb = bpr ∨ nb = bpr - 1) ∧
      e2.runs = e.runs ++ [⟨SKIP_AND_PLOT_MASK, c, e.nbyte, nb, e.nout⟩] := by
  obtain ⟨o, nb2, c2, e2, hs2, he, q1, q2, q3, q4, q5, _, _, b1, _⟩ :=
    equalPart_run buffer bpr e hlen h0 h1 hn hroom
  rw [hs] at hs2
  have hinj := Option.some.inj hs2
  have ho : (0 : Int) = (o : Int) := congrArg Prod.fst hinj
  have hnb : nb = nb2 := congrArg (fun p => p.2.1) hinj
  have hcc : c = c2 := congrArg (fun p => p.2.2) hinj
  have ho2 : o = 0 := by omega
  subst hnb hcc ho2
  obtain ⟨c1, c2, c3, c4, c5⟩ := b1 hc rfl hend
  exact ⟨e2, he, c2, c4, q5 (nb - 1) (by omega) (by omega), c5, q5, q1, c1, by omega, c3⟩

set_option maxRecDepth 1000000 in
theorem skip_end_branch_witness :
    ∃ e2, equalPart skipBuffer 3 ⟨0, 0, sampleOut, []⟩ = some e2 ∧ e2.nout = 0 + 2 ∧
      rd e2.outbuffer 0 = some (Int.lor (2 - 2) SKIP_AND_PLOT_MASK).toNat ∧
      rd skipBuffer (2 - 1) = some 0 ∧ rd e2.outbuffer (0 + 1) = some 0 ∧
      (∀ j, (0 : Int) ≤ j → j < 2 → rd skipBuffer j = some 0) ∧ (2 : Int) = 0 + 2 ∧
      e2.nbyte = 2 ∧ ((2 : Int) = 3 ∨ (2 : Int) = 3 - 1) ∧
      e2.runs = [] ++ [⟨SKIP_AND_PLOT_MASK, 2, 0, 2, 0⟩] :=
  skip_end_branch skipBuffer 3 ⟨0, 0, sampleOut, []⟩ 2 2 (by decide) (by decide) (by decide)
    (by decide) (by decide) (by decide) (by decide) (by decide)

/-! ## C16: a line of zero bytes -/

/-- C16 (all-zero line): for `n` from 2 to 64, a buffer whose `n` bytes are zero is
encoded as exactly two bytes, the header `0x40 | (n - 2)` and the byte 0x00, by one run
of white that spans the buffer; the byte count written before them is "3/". -/
theorem all_zero_line (buffer out : List Nat) (n : Int) (h2 : 2 ≤ n) (h64 : n ≤ 64)
    (hb : buffer.length = 132) (ho : out.length = 266)
    (hz : ∀ j : Int, 0 ≤ j → j < n → rd buffer j = some 0) :
    ∃ e, encode buffer n out = some e ∧ e.nout = 2 ∧
      e.outbuffer.take e.nout.toNat = [(Int.lor (n - 2) SKIP_AND_PLOT_MASK).toNat, 0x00] ∧
      e.runs = [⟨SKIP_AND_PLOT_MASK, n, 0, n, 0⟩] ∧
      unitCalls 0 e.outbuffer e.nout
        = [Out.putchar 0, Out.printf [51, 47],
           Out.fwrite [(Int.lor (n - 2) SKIP_AND_PLOT_MASK).toNat, 0x00]] := by
  obtain ⟨e, he, _, hn, _, hz2, _⟩ :=
    encode_constant buffer out n 0 h2 h64 (by omega) (by omega) hz
  obtain ⟨ht, hr⟩ := hz2 rfl
  have h2n : e.nout.toNat = 2 := by rw [hn]; rfl
  refine ⟨e, he, hn, by rw [h2n]; exact ht, hr, ?_⟩
  have hp : printfCount (2 + 1) = Out.printf [51, 47] := by decide
  have h22 : Int.toNat 2 = 2 := rfl
  simp only [unitCalls, hn, hp, h22, ht]

set_option maxRecDepth 100000 in
theorem all_zero_line_witness :
    ∃ e, encode (List.replicate 132 0) 64 sampleOut = some e ∧ e.nout = 2 ∧
      e.outbuffer.take e.nout.toNat = [(Int.lor (64 - 2) SKIP_AND_PLOT_MASK).toNat, 0x00] ∧
      e.runs = [⟨SKIP_AND_PLOT_MASK, 64, 0, 64, 0⟩] ∧
      unitCalls 0 e.outbuffer e.nout
        = [Out.putchar 0, Out.printf [51, 47],
           Out.fwrite [(Int.lor (64 - 2) SKIP_AND_PLOT_MASK).toNat, 0x00]] :=
  all_zero_line (List.replicate 132 0) sampleOut 64 (by decide) (by decide) (by simp)
    (by simp [sampleOut]) (by
      intro j j0 j1
      have : j.toNat < 132 := by omega
      rw [rd, if_pos j0, List.getElem?_replicate, if_pos this])

/-! ## C17: the runs are well formed -/

/-- The header byte of a sound run carries the tag of the run in its two high bits. -/
theorem Run.Sound.header {buffer : List Nat} {bpr : Int} {out : List Nat} {r : Run}
    (h : Run.Sound buffer bpr out r) :
    ∃ b : Nat, rd out r.hdr = some b ∧ (b : Int) / 64 * 64 = r.tag := by
  rcases h with h | h | h | h
  · obtain ⟨b, q1, _, _, q4⟩ := header_form out r.hdr (r.count - 1) PLOT_ARBITRARY_DATA_MASK
      (by omega) (by omega) (Or.inr (Or.inr rfl)) h.2.2.2.2.1
    exact ⟨b, q1, by rw [q4, h.1]⟩
  · obtain ⟨b, q1, _, _, q4⟩ := header_form out r.hdr (r.count - 1) REPEAT_PLOT_MASK
      (by omega) (by omega) (Or.inr (Or.inl rfl)) h.2.2.2.2.1
    exact ⟨b, q1, by rw [q4, h.1]⟩
  · obtain ⟨b, q1, _, _, q4⟩ := header_form out r.hdr (r.count - 2) SKIP_AND_PLOT_MASK
      (by omega) (by omega) (Or.inl rfl) h.2.2.2.2.2.1
    exact ⟨b, q1, by rw [q4, h.1]⟩
  · obtain ⟨b, q1, _, _, q4⟩ := header_form out r.hdr (r.count - 1) SKIP_AND_PLOT_MASK
      (by omega) (by omega) (Or.inl rfl) h.2.2.2.2.2.1
    exact ⟨b, q1, by rw [q4, h.1]⟩

/-- C17 (run well-formedness): in the output of the encoder for a row of `n` bytes, the
header byte of every run carries its tag in the two high bits; (a) in a UniqueRun, tag
0xC0, no two adjacent literal bytes are equal; (b) the byte after the header of a
RepeatRun, tag 0x80, is not zero, and a run found by the scan for equal patterns, two or
more bytes, whose bytes are zero has the tag 0x40. -/
theorem runs_well_formed (buffer out : List Nat) (n : Int) (h1 : 1 ≤ n) (h2 : n ≤ 132)
    (hb : buffer.length = 132) (ho : out.length = 266) (hbyte : ∀ x ∈ buffer, x < 256) :
    ∃ e, encode buffer n out = some e ∧ ∀ r ∈ e.runs,
      (∃ b : Nat, rd e.outbuffer r.hdr = some b ∧ (b : Int) / 64 * 64 = r.tag) ∧
      (r.tag = PLOT_ARBITRARY_DATA_MASK →
        ∀ j : Int, 0 ≤ j → j + 1 < r.count →
          ∃ a b : Nat, rd e.outbuffer (r.hdr + 1 + j) = some a ∧
            rd e.outbuffer (r.hdr + 1 + (j + 1)) = some b ∧ a ≠ b) ∧
      (r.tag = REPEAT_PLOT_MASK →
        ∃ v : Nat, v ≠ 0 ∧ rd e.outbuffer (r.hdr + 1) = some v ∧
          ∀ j : Int, r.first ≤ j → j < r.next → rd buffer j = some v) ∧
      (r.tag ≠ PLOT_ARBITRARY_DATA_MASK →
        2 ≤ r.count ∧ (rd buffer r.first = some 0 → r.tag = SKIP_AND_PLOT_MASK)) := by
  obtain ⟨e, he, i, _, _⟩ := encode_spec buffer n out (by omega) (by omega) (by omega) (by omega)
  refine ⟨e, he, fun r hr => ?_⟩
  obtain ⟨_, hs⟩ := i.sound r hr
  have e1 : SKIP_AND_PLOT_MASK = 0x40 := rfl
  have e2 : REPEAT_PLOT_MASK = 0x80 := rfl
  have e3 : PLOT_ARBITRARY_DATA_MASK = 0xc0 := rfl
  refine ⟨hs.header, ?_, ?_, ?_⟩
  · intro ht j j0 j1
    rcases hs with h | h | h | h
    · obtain ⟨_, _, _, hnx, _, hl, hd⟩ := h
      obtain ⟨a, a1, a2⟩ := hl j j0 (by omega)
      obtain ⟨b, b1, b2⟩ := hl (j + 1) (by omega) (by omega)
      have a3 := hbyte a (rd_mem a1)
      have b3 := hbyte b (rd_mem b1)
      rw [Nat.mod_eq_of_lt a3] at a2
      rw [Nat.mod_eq_of_lt b3] at b2
      refine ⟨a, b, a2, b2, fun hab => ?_⟩
      have := hd (r.first + j) (by omega) (by omega)
      rw [a1, show r.first + j + 1 = r.first + (j + 1) by ring, b1, hab] at this
      exact this rfl
    all_goals
      rw [h.1, e3] at ht
      first
        | rw [e1] at ht
        | rw [e2] at ht
      exact absurd ht (by decide)
  · intro ht
    rcases hs with h | h | h | h
    · rw [h.1, e2, e3] at ht
      exact absurd ht (by decide)
    · obtain ⟨_, _, _, _, _, v, v0, v1, v2⟩ := h
      have hv : rd buffer r.first = some v := v1 r.first (le_refl _) (by omega)
      rw [Nat.mod_eq_of_lt (hbyte v (rd_mem hv))] at v2
      exact ⟨v, v0, v2, v1⟩
    all_goals
      rw [h.1, e1, e2] at ht
      exact absurd ht (by decide)
  · intro ht
    rcases hs with h | h | h | h
    · exact absurd h.1 ht
    · obtain ⟨_, c2, _, _, _, v, v0, v1, _⟩ := h
      refine ⟨c2, fun hz => ?_⟩
      have hv : rd buffer r.first = some v := v1 r.first (le_refl _) (by omega)
      rw [hz] at hv
      exact absurd (Option.some.inj hv).symm v0
    · exact ⟨h.2.1, fun _ => h.1⟩
    · exact ⟨h.2.1, fun _ => h.1⟩

set_option maxRecDepth 100000 in
theorem runs_well_formed_witness :
    ∃ e, encode sampleBuffer 12 sampleOut = some e ∧ ∀ r ∈ e.runs,
      (∃ b : Nat, rd e.outbuffer r.hdr = some b ∧ (b : Int) / 64 * 64 = r.tag) ∧
      (r.tag = PLOT_ARBITRARY_DATA_MASK →
        ∀ j : Int, 0 ≤ j → j + 1 < r.count →
          ∃ a b : Nat, rd e.outbuffer (r.hdr + 1 + j) = some a ∧
            rd e.outbuffer (r.hdr + 1 + (j + 1)) = some b ∧ a ≠ b) ∧
      (r.tag = REPEAT_PLOT_MASK →
        ∃ v : Nat, v ≠ 0 ∧ rd e.outbuffer (r.hdr + 1) = some v ∧
          ∀ j : Int, r.first ≤ j → j < r.next → rd sampleBuffer j = some v) ∧
      (r.tag ≠ PLOT_ARBITRARY_DATA_MASK →
        2 ≤ r.count ∧ (rd sampleBuffer r.first = some 0 → r.tag = SKIP_AND_PLOT_MASK)) :=
  runs_well_formed sampleBuffer sampleOut 12 (by decide) (by decide) (by decide) (by decide)
    (by decide)

/-! ## C18: the decoder -/

theorem seg_self (l : List Nat) (a : Int) : seg l a a = [] := by
  simp [seg]

theorem seg_cons {l : List Nat} {a b : Int} {x : Nat} (h0 : 0 ≤ a) (hab : a < b)
    (h : rd l a = some x) : seg l a b = x :: seg l (a + 1) b := by
  unfold rd at h
  rw [if_pos h0] at h
  obtain ⟨hl, hx⟩ := List.getElem?_eq_some_iff.mp h
  have e1 : (b - a).toNat = (b - (a + 1)).toNat + 1 := by omega
  have e2 : (a + 1).toNat = a.toNat + 1 := by omega
  unfold seg
  rw [e1, e2, List.drop_eq_getElem_cons hl, List.take_succ_cons, hx]

theorem seg_append (l : List Nat) {a m b : Int} (h0 : 0 ≤ a) (h1 : a ≤ m) (h2 : m ≤ b) :
    seg l a m ++ seg l m b = seg l a b := by
  have e1 : m.toNat = a.toNat + (m - a).toNat := by omega
  have e2 : (b - a).toNat = (m - a).toNat + (b - m).toNat := by omega
  unfold seg
  rw [e2, List.take_add, e1, ← List.drop_drop]

theorem length_seg (l : List Nat) {a b : Int} (h0 : 0 ≤ a) (h2 : b ≤ l.length) :
    (seg l a b).length = (b - a).toNat := by
  unfold seg
  rw [List.length_take, List.length_drop]
  omega

theorem seg_congr (l1 l2 : List Nat) :
    ∀ (k : Nat) (a b : Int), 0 ≤ a → 0 ≤ b →
      (∀ j : Int, 0 ≤ j → j < k → ∃ v, rd l1 (a + j) = some v ∧ rd l2 (b + j) = some v) →
      seg l1 a (a + k) = seg l2 b (b + k)
  | 0, a, b, _, _, _ => by simp [seg]
  | k + 1, a, b, ha, hb, h => by
    obtain ⟨v, v1, v2⟩ := h 0 (le_refl 0) (by omega)
    rw [add_zero] at v1 v2
    rw [seg_cons ha (by push_cast; omega) v1, seg_cons hb (by push_cast; omega) v2]
    have ih := seg_congr l1 l2 k (a + 1) (b + 1) (by omega) (by omega) (by
      intro j j0 j1
      obtain ⟨w, w1, w2⟩ := h (j + 1) (by omega) (by push_cast; omega)
      exact ⟨w, by rw [← w1]; congr 1; ring, by rw [← w2]; congr 1; ring⟩)
    have ea : a + ((k + 1 : Nat) : Int) = a + 1 + k := by push_cast; ring
    have eb : b + ((k + 1 : Nat) : Int) = b + 1 + k := by push_cast; ring
    rw [ea, eb, ih]

theorem seg_replicate (l : List Nat) (v : Nat) :
    ∀ (k : Nat) (a : Int), 0 ≤ a → (∀ j : Int, a ≤ j → j < a + k → rd l j = some v) →
      seg l a (a + k) = List.replicate k v
  | 0, a, _, _ => by simp [seg]
  | k + 1, a, ha, h => by
    rw [seg_cons ha (by push_cast; omega) (h a (le_refl a) (by push_cast; omega))]
    have ih := seg_replicate l v k (a + 1) (by omega) (by
      intro j j0 j1
      exact h j (by omega) (by push_cast; omega))
    have ea : a + ((k + 1 : Nat) : Int) = a + 1 + k := by push_cast; ring
    rw [ea, ih, List.replicate_succ]

theorem Linked.le {lo hi : Run → Int} :
    ∀ {rs : List Run} {a b : Int}, Linked lo hi a rs b → a ≤ b
  | [], a, b, h => by
    have : a = b := h
    omega
  | x :: xs, a, b, h => by
    obtain ⟨q1, q2, q3⟩ := h
    have := Linked.le q3
    omega

set_option maxRecDepth 100000 in
theorem land_form : ∀ b : Nat, b < 256 → b &&& 0x3F = b % 64 ∧ b &&& 0xC0 = b / 64 * 64 := by
  decide

/-- The header byte of a run, as the decoder reads it. -/
theorem header_bits (out : List Nat) (hdr c tag : Int) (h0 : 0 ≤ c) (h1 : c ≤ 63)
    (ht : tag = SKIP_AND_PLOT_MASK ∨ tag = REPEAT_PLOT_MASK ∨ tag = PLOT_ARBITRARY_DATA_MASK)
    (h : rd out hdr = some (Int.lor c tag).toNat) :
    ∃ b : Nat, rd out hdr = some b ∧ b &&& 0x3F = c.toNat ∧ b &&& 0xC0 = tag.toNat := by
  obtain ⟨b, q1, _, q3, q4⟩ := header_form out hdr c tag h0 h1 ht h
  have e1 : SKIP_AND_PLOT_MASK = 0x40 := rfl
  have e2 : REPEAT_PLOT_MASK = 0x80 := rfl
  have e3 : PLOT_ARBITRARY_DATA_MASK = 0xc0 := rfl
  have hb : b < 256 := by
    rcases ht with rfl | rfl | rfl
    · rw [e1] at q4; omega
    · rw [e2] at q4; omega
    · rw [e3] at q4; omega
  obtain ⟨f1, f2⟩ := land_form b hb
  refine ⟨b, q1, by rw [f1]; omega, ?_⟩
  rw [f2]
  rcases ht with rfl | rfl | rfl
  · rw [e1] at q4 ⊢; omega
  · rw [e2] at q4 ⊢; omega
  · rw [e3] at q4 ⊢; omega

/-- The step of the decoder on a UniqueRun. -/
theorem decode_unique (fuel h : Nat) (lits rest : List Nat) (hl : lits ≠ [])
    (hk : h &&& 0x3F = lits.length - 1) (ht : h &&& 0xC0 = 0xC0) :
    decode (fuel + 1) (h :: (lits ++ rest)) = (decode fuel rest).map fun d => lits ++ d := by
  match lits, hl with
  | v :: tl, _ =>
    have hk2 : (h &&& 0x3F) + 1 = (v :: tl).length := by
      rw [hk]
      simp
    rw [List.cons_append, decode]
    simp only [ht, if_true]
    rw [← List.cons_append, hk2, if_pos (by simp), List.drop_left, List.take_left]

/-- The step of the decoder on a RepeatRun. -/
theorem decode_repeat (fuel h v k : Nat) (rest : List Nat)
    (hk : h &&& 0x3F = k) (ht : h &&& 0xC0 = 0x80) :
    decode (fuel + 1) (h :: v :: rest)
      = (decode fuel rest).map fun d => List.replicate (k + 1) v ++ d := by
  rw [decode]
  simp only [ht, hk]
  rfl

/-- The step of the decoder on a SkipRun. -/
theorem decode_skip (fuel h v k : Nat) (rest : List Nat)
    (hk : h &&& 0x3F = k) (ht : h &&& 0xC0 = 0x40) :
    decode (fuel + 1) (h :: v :: rest)
      = (decode fuel rest).map fun d => List.replicate (k + 1) 0 ++ v :: d := by
  rw [decode]
  simp only [ht, hk]
  rfl

/-- Decoding the bytes of a chain of sound runs gives back the bytes of the buffer the
runs span. -/
theorem decode_runs (buffer out : List Nat) (bpr : Int) (hbyte : ∀ x ∈ buffer, x < 256) :
    ∀ (rs : List Run) (a p n q : Int) (fuel : Nat), 0 ≤ a → 0 ≤ p →
      Linked Run.first Run.next a rs n →
      Linked Run.hdr (fun r => r.hdr + r.size) p rs q →
      (∀ r ∈ rs, Run.Sound buffer bpr out r) → (q - p).toNat + 1 ≤ fuel →
      decode fuel (seg out p q) = some (seg buffer a n)
  | [], a, p, n, q, fuel, _, _, h1, h2, _, hf => by
    have e1 : a = n := h1
    have e2 : p = q := h2
    subst e1 e2
    obtain ⟨f, rfl⟩ : ∃ f, fuel = f + 1 := ⟨fuel - 1, by omega⟩
    rw [seg_self, seg_self]
    rfl
  | r :: rs, a, p, n, q, fuel, ha, hp, h1, h2, hs, hf => by
    obtain ⟨s1, s2, s3⟩ := h1
    obtain ⟨t1, t2, t3⟩ := h2
    have t2 : r.hdr < r.hdr + r.size := t2
    have t3 : Linked Run.hdr (fun r => r.hdr + r.size) (r.hdr + r.size) rs q := t3
    subst s1 t1
    have hq := Linked.le t3
    have hn := Linked.le s3
    obtain ⟨f, rfl⟩ : ∃ f, fuel = f + 1 := ⟨fuel - 1, by omega⟩
    have ih := decode_runs buffer out bpr hbyte rs r.next (r.hdr + r.size) n q f (by omega)
      (by omega) s3 t3 (fun x hx => hs x (List.mem_cons_of_mem _ hx)) (by omega)
    have e1 : SKIP_AND_PLOT_MASK.toNat = 0x40 := rfl
    have e2 : REPEAT_PLOT_MASK.toNat = 0x80 := rfl
    have e3 : PLOT_ARBITRARY_DATA_MASK.toNat = 0xC0 := rfl
    rcases hs r (List.mem_cons_self _ _) with h | h | h | h
    · obtain ⟨htag, c1, c64, hnx, hhdr, hlit, _⟩ := h
      have hsz : r.size = r.count + 1 := by simp [Run.size, htag]
      obtain ⟨b, rb, bk, bt⟩ := header_bits out r.hdr (r.count - 1) _ (by omega) (by omega)
        (Or.inr (Or.inr rfl)) hhdr
      rw [e3] at bt
      obtain ⟨k, hk⟩ : ∃ k : Nat, r.count = k := ⟨r.count.toNat, by omega⟩
      have hlits : seg out (r.hdr + 1) (r.hdr + 1 + k) = seg buffer r.first (r.first + k) := by
        apply seg_congr out buffer k _ _ (by omega) ha
        intro j j0 j1
        obtain ⟨v, v1, v2⟩ := hlit j j0 (by omega)
        rw [Nat.mod_eq_of_lt (hbyte v (rd_mem v1))] at v2
        exact ⟨v, v2, v1⟩
      obtain ⟨w, w1, _⟩ := hlit (r.count - 1) (by omega) (by omega)
      have hbl := (rd_some_bound w1).2
      have hlen : (seg buffer r.first (r.first + k)).length = k := by
        rw [length_seg buffer ha (by omega)]
        omega
      have hsplit : seg out (r.hdr + 1) q
          = seg buffer r.first (r.first + k) ++ seg out (r.hdr + r.size) q := by
        rw [← hlits, hsz, hk, show r.hdr + ((k : Int) + 1) = r.hdr + 1 + k by ring]
        exact (seg_append out (by omega) (by omega) (by omega)).symm
      rw [seg_cons hp (by omega) rb, hsplit,
        decode_unique f b _ _ (by
          intro h0
          rw [h0] at hlen
          simp at hlen
          omega) (by rw [bk, hlen]; omega) bt, ih]
      simp only [Option.map_some']
      rw [← hk, ← hnx, seg_append buffer ha (by omega) hn]
    · obtain ⟨htag, c2, c64, hnx, hhdr, v, _, vall, vout⟩ := h
      have hsz : r.size = 2 := by simp [Run.size, htag, REPEAT_PLOT_MASK, PLOT_ARBITRARY_DATA_MASK]
      obtain ⟨b, rb, bk, bt⟩ := header_bits out r.hdr (r.count - 1) _ (by omega) (by omega)
        (Or.inr (Or.inl rfl)) hhdr
      rw [e2] at bt
      have hv := vall r.first (le_refl _) (by omega)
      rw [Nat.mod_eq_of_lt (hbyte v (rd_mem hv))] at vout
      obtain ⟨k, hk⟩ : ∃ k : Nat, r.count = k := ⟨r.count.toNat, by omega⟩
      have hrep : seg buffer r.first (r.first + k) = List.replicate k v :=
        seg_replicate buffer v k r.first ha (fun j j0 j1 => vall j j0 (by omega))
      have hk1 : (r.count - 1).toNat + 1 = k := by omega
      rw [seg_cons hp (by omega) rb, seg_cons (by omega) (by omega) vout,
        decode_repeat f b v _ _ bk bt,
        show r.hdr + 1 + 1 = r.hdr + r.size by rw [hsz]; ring, ih, hk1, ← hrep]
      simp only [Option.map_some']
      rw [← hk, ← hnx, seg_append buffer ha (by omega) hn]
    · obtain ⟨htag, c2, c64, hnx, _, hhdr, zall, zout⟩ := h
      have hsz : r.size = 2 := by simp [Run.size, htag, SKIP_AND_PLOT_MASK, PLOT_ARBITRARY_DATA_MASK]
      obtain ⟨b, rb, bk, bt⟩ := header_bits out r.hdr (r.count - 2) _ (by omega) (by omega)
        (Or.inl rfl) hhdr
      rw [e1] at bt
      obtain ⟨k, hk⟩ : ∃ k : Nat, r.count = k := ⟨r.count.toNat, by omega⟩
      have hrep : seg buffer r.first (r.first + k) = List.replicate k 0 :=
        seg_replicate buffer 0 k r.first ha (fun j j0 j1 => zall j j0 (by omega))
      obtain ⟨m, hm⟩ : ∃ m : Nat, k = m + 1 + 1 := ⟨k - 2, by omega⟩
      have hk1 : (r.count - 2).toNat = m := by omega
      rw [seg_cons hp (by omega) rb, seg_cons (by omega) (by omega) zout,
        decode_skip f b 0 _ _ bk bt,
        show r.hdr + 1 + 1 = r.hdr + r.size by rw [hsz]; ring, ih, hk1]
      simp only [Option.map_some']
      rw [← seg_append buffer ha (by omega : r.first ≤ r.next) hn, hnx, hk, hrep, hm,
        List.replicate_succ' (m + 1)]
      simp
    · obtain ⟨htag, c2, c64, hnx, _, hhdr, zall, v, vb, vout⟩ := h
      have hsz : r.size = 2 := by simp [Run.size, htag, SKIP_AND_PLOT_MASK, PLOT_ARBITRARY_DATA_MASK]
      obtain ⟨b, rb, bk, bt⟩ := header_bits out r.hdr (r.count - 1) _ (by omega) (by omega)
        (Or.inl rfl) hhdr
      rw [e1] at bt
      rw [Nat.mod_eq_of_lt (hbyte v (rd_mem vb))] at vout
      obtain ⟨k, hk⟩ : ∃ k : Nat, r.count = k := ⟨r.count.toNat, by omega⟩
      have hrep : seg buffer r.first (r.first + k) = List.replicate k 0 :=
        seg_replicate buffer 0 k r.first ha (fun j j0 j1 => zall j j0 (by omega))
      have hk1 : (r.count - 1).toNat + 1 = k := by omega
      have vb2 : rd buffer (r.first + k) = some v := by
        rw [← vb]
        congr 1
        omega
      rw [seg_cons hp (by omega) rb, seg_cons (by omega) (by omega) vout,
        decode_skip f b v _ _ bk bt,
        show r.hdr + 1 + 1 = r.hdr + r.size by rw [hsz]; ring, ih, hk1]
      simp only [Option.map_some']
      rw [← seg_append buffer ha (by omega : r.first ≤ r.first + k) (by omega), hrep,
        seg_cons (by omega) (by omega) vb2,
        show r.first + (k : Int) + 1 = r.next by omega]

/-- C18 (decode round trip): for every buffer of 132 bytes of which the first `n` are the
difference map, `1 ≤ n ≤ 132`, the encoder ends, and the reference decoder, run on the
`nout` bytes the encoder wrote, reads all of them and gives exactly the `n` bytes of the
difference map. -/
theorem decode_round_trip (buffer out : List Nat) (n : Int) (h1 : 1 ≤ n) (h2 : n ≤ 132)
    (hb : buffer.length = 132) (ho : out.length = 266) (hbyte : ∀ x ∈ buffer, x < 256) :
    ∃ e, encode buffer n out = some e ∧
      decodeLine (e.outbuffer.take e.nout.toNat) = some (buffer.take n.toNat) := by
  obtain ⟨e, he, i, hn, hl⟩ := encode_spec buffer n out (by omega) (by omega) (by omega)
    (by omega)
  refine ⟨e, he, ?_⟩
  have h3 := i.nout_le
  have h4 := i.nout_nonneg
  have hlen : (e.outbuffer.take e.nout.toNat).length = e.nout.toNat := by
    rw [List.length_take]
    omega
  have hd := decode_runs buffer e.outbuffer n hbyte e.runs 0 0 e.nbyte e.nout
    (e.nout.toNat + 1) (le_refl 0) (le_refl 0) i.spans i.places (fun r hr => (i.sound r hr).2)
    (by omega)
  have s1 : seg e.outbuffer 0 e.nout = e.outbuffer.take e.nout.toNat := by simp [seg]
  have s2 : seg buffer 0 e.nbyte = buffer.take n.toNat := by simp [seg, hn]
  rw [s1, s2] at hd
  unfold decodeLine
  rw [hlen]
  exact hd

set_option maxRecDepth 100000 in
theorem decode_round_trip_witness :
    ∃ e, encode sampleBuffer 12 sampleOut = some e ∧
      decodeLine (e.outbuffer.take e.nout.toNat) = some (sampleBuffer.take (12 : Int).toNat) :=
  decode_round_trip sampleBuffer sampleOut 12 (by decide) (by decide) (by decide) (by decide)
    (by decide)

/-! ## C19: the bounds of the buffers -/

/-- C19 (buffer bounds): for a row of `n` bytes, `n` from 0 to 132, the encoder runs to
its end without an access outside an array (the model has no result when an index is
outside): a read of `buffer` that succeeds is below 132, a write to `outbuffer` that
succeeds is below 266.  At the start of every pass and at the end `nout` is at most `2 n`,
which is below 266. -/
theorem buffer_bounds (buffer out : List Nat) (n : Int) (h0 : 0 ≤ n) (h2 : n ≤ 132)
    (hb : buffer.length = 132) (ho : out.length = 266) :
    (∃ e, encode buffer n out = some e ∧ 0 ≤ e.nout ∧ e.nout ≤ 2 * n ∧ e.nout < 266 ∧
      e.outbuffer.length = 266) ∧
    (∀ e, PassStart buffer n out e →
      0 ≤ e.nout ∧ e.nout ≤ 2 * n ∧ e.outbuffer.length = 266 ∧
      (∀ (i : Int) (v : Nat), rd buffer i = some v → 0 ≤ i ∧ i < 132) ∧
      (∀ (i v : Int) (o : List Nat), wr e.outbuffer i v = some o → 0 ≤ i ∧ i < 266)) := by
  have hlen : n ≤ buffer.length := by omega
  have hcap : 2 * n ≤ out.length := by omega
  constructor
  · obtain ⟨e, he, i, hn, hl⟩ := encode_spec buffer n out h0 hlen (by omega) hcap
    have := i.nout_le
    exact ⟨e, he, i.nout_nonneg, by omega, by omega, by omega⟩
  · intro e h
    obtain ⟨i, l, _, _⟩ := PassStart.inv h0 hlen (by omega) hcap h
    have := i.nout_le
    have := i.nbyte_le
    refine ⟨i.nout_nonneg, by omega, by omega, ?_, ?_⟩
    · intro j v hj
      have := rd_some_bound hj
      omega
    · intro j v o hj
      have := wr_some_bound hj
      omega

set_option maxRecDepth 100000 in
theorem buffer_bounds_witness :
    (∃ e, encode sampleBuffer 132 sampleOut = some e ∧ 0 ≤ e.nout ∧ e.nout ≤ 2 * 132 ∧
      e.nout < 266 ∧ e.outbuffer.length = 266) ∧
    (∀ e, PassStart sampleBuffer 132 sampleOut e →
      0 ≤ e.nout ∧ e.nout ≤ 2 * 132 ∧ e.outbuffer.length = 266 ∧
      (∀ (i : Int) (v : Nat), rd sampleBuffer i = some v → 0 ≤ i ∧ i < 132) ∧
      (∀ (i v : Int) (o : List Nat), wr e.outbuffer i v = some o → 0 ≤ i ∧ i < 266)) :=
  buffer_bounds sampleBuffer sampleOut 132 (by decide) (by decide) (by decide) (by decide)

/-! ## C20: rows and units -/

theorem payloads_append (a b : List Out) : payloads (a ++ b) = payloads a + payloads b := by
  simp [payloads, List.filter_append]

theorem payloads_unit (c : Int) (o : List Nat) (n : Int) : payloads (unitCalls c o n) = 1 := by
  simp [payloads, unitCalls, printfCount, List.filter_cons]

theorem payloads_prologue (cols rows : Nat) : payloads (prologue cols rows) = 0 := by
  simp [payloads, prologue, printfStart, List.filter_cons]

theorem payloads_epilogue : payloads epilogue = 0 := by
  simp [payloads, epilogue, List.filter_cons]

/-- The payloads and the repeat counts against the rows gone through: each count stands
for that many rows and each payload for one, and every forced flush, which sends the
count 62, adds a payload no row stands behind. -/
theorem afterRows_accounting (cols rows : Nat) (pix : Nat → Nat → Nat) (u : Indet)
    (hc : cols ≤ 1056) (r : Nat) :
    ∃ s, afterRows cols rows pix u r = some s ∧ Inv (((cols + 7) / 8 : Nat) : Int) s ∧
      (r = 0 → s.linerepeat = 63 ∧ repeatCounts s.stdout = [] ∧ payloads s.stdout = 0) ∧
      (0 < r → 0 ≤ s.linerepeat ∧ s.linerepeat ≤ 61 ∧
        ∃ rest, repeatCounts s.stdout = 63 :: rest ∧
          (payloads s.stdout : Int) + rest.sum + s.linerepeat = r + rest.count 62) := by
  refine afterRows_induct cols rows pix u hc
    (fun r s => (r = 0 → s.linerepeat = 63 ∧ repeatCounts s.stdout = [] ∧
        payloads s.stdout = 0) ∧
      (0 < r → 0 ≤ s.linerepeat ∧ s.linerepeat ≤ 61 ∧
        ∃ rest, repeatCounts s.stdout = 63 :: rest ∧
          (payloads s.stdout : Int) + rest.sum + s.linerepeat = r + rest.count 62)) ?_ ?_ r
  · intro s hs
    obtain ⟨s2, hs2, _, hl, ho, _⟩ := setup_spec cols rows u
    rw [hs] at hs2
    have := Option.some.inj hs2
    subst this
    exact ⟨fun _ => ⟨hl, by rw [ho, repeatCounts_prologue], by rw [ho, payloads_prologue]⟩,
      fun h => absurd h (by omega)⟩
  · intro r s s2 _ hi hp hb
    obtain ⟨s3, hs3, _, _, _, _, _, hcase⟩ := rowBody_cases cols pix r s hc hi
    rw [hb] at hs3
    have := Option.some.inj hs3
    subst this
    refine ⟨fun h => absurd h (by omega), fun _ => ?_⟩
    rcases hcase with ⟨hm, e, _, _, _, _, _, _, hl, hso, _⟩ | ⟨⟨_, hr0⟩, _, _, _, _, hsub⟩
    · by_cases hr : r = 0
      · obtain ⟨q1, q2, q3⟩ := hp.1 hr
        refine ⟨by omega, by omega, [], ?_, ?_⟩
        · rw [hso, repeatCounts_append, q2, repeatCounts_unit, q1]
          rfl
        · rw [hso, payloads_append, q3, payloads_unit, hl, hr]
          simp
      · obtain ⟨q1, q2, rest, q3, q4⟩ := hp.2 (by omega)
        refine ⟨by omega, by omega, rest ++ [s.linerepeat], ?_, ?_⟩
        · rw [hso, repeatCounts_append, q3, repeatCounts_unit]
          rfl
        · have hne : s.linerepeat ≠ 62 := by omega
          have hcnt : List.count (62 : Int) [s.linerepeat] = 0 :=
            List.count_eq_zero.mpr (by simp; omega)
          rw [hso, payloads_append, payloads_unit, hl, List.sum_append, List.count_append,
            hcnt, List.sum_singleton]
          push_cast
          omega
    · obtain ⟨q1, q2, rest, q3, q4⟩ := hp.2 (by omega)
      rcases hsub with ⟨h62, hl, hso⟩ | ⟨h62, hl, hso⟩
      · refine ⟨by omega, by omega, rest ++ [62], ?_, ?_⟩
        · rw [hso, repeatCounts_append, q3, repeatCounts_unit]
          rfl
        · have hcnt : List.count (62 : Int) [62] = 1 := rfl
          rw [hso, payloads_append, payloads_unit, hl, List.sum_append, List.count_append,
            hcnt, List.sum_singleton]
          push_cast
          omega
      · refine ⟨by omega, by omega, rest, by rw [hso, q3], ?_⟩
        rw [hso, hl]
        push_cast
        omega

/-- For every image with at least one row the payloads written and the repeat counts
written after the sentinel add up to the number of rows plus the number of forced
flushes, the counts 62 sent. -/
theorem rows_accounted (cols rows : Nat) (pix : Nat → Nat → Nat) (u : Indet)
    (hc : cols ≤ 1056) (hr : 1 ≤ rows) :
    ∃ out rest, main cols rows pix u = some (Outcome.returned 0 out) ∧
      repeatCounts out = 63 :: rest ∧
      (payloads out : Int) + rest.sum = rows + rest.count 62 := by
  obtain ⟨s, hs, hm⟩ := main_spec cols rows pix u hc
  obtain ⟨s2, hs2, _, _, h⟩ := afterRows_accounting cols rows pix u hc rows
  rw [hs] at hs2
  have := Option.some.inj hs2
  subst this
  obtain ⟨q1, q2, rest, q3, q4⟩ := h (by omega)
  refine ⟨_, rest ++ [s.linerepeat], hm, ?_, ?_⟩
  · rw [repeatCounts_append, repeatCounts_append, q3, repeatCounts_epilogue]
    simp [repeatCounts]
  · have hne : s.linerepeat ≠ 62 := by omega
    have hcnt : List.count (62 : Int) [s.linerepeat] = 0 :=
      List.count_eq_zero.mpr (by simp; omega)
    have hp1 : payloads [Out.putchar s.linerepeat] = 0 := rfl
    rw [payloads_append, payloads_append, payloads_epilogue, hp1, List.sum_append,
      List.count_append, hcnt, List.sum_singleton]
    push_cast
    omega

set_option maxRecDepth 1000000 in
/-- C20 on an all-white image of width 8 with 63 rows: the program writes two payloads,
the one of row 0 and the one the forced flush sends again at row 62, and after the
sentinel the repeat counts 62 and 0, so that payloads and counts add up to 64 rows. -/
theorem white_rows_overcounted :
    ∃ out, main 8 63 whiteImage zeroIndet = some (Outcome.returned 0 out) ∧
      payloads out = 2 ∧ repeatCounts out = [63, 62, 0] ∧
      (payloads out : Int) + ((repeatCounts out).drop 1).sum = 64 ∧
      (payloads out : Int) + ((repeatCounts out).drop 1).sum ≠ 63 :=
  ⟨prologue 8 63 ++ unitCalls 63 [192, 0] 2 ++ unitCalls 62 [192, 0] 2 ++ [Out.putchar 0]
      ++ epilogue,
    by decide, by decide, by decide, by decide, by decide⟩

end Pbmtogo
